import Mathlib

/-!
# Verification of the roleset-indexed accessibility tree

Shallow embedding of the crate `indextree-method-structural-nav`
(`src/lib.rs`, `src/indextree_ext.rs`) and proofs of the specified
properties: agreement of the five `find_first` strategies, correctness of
the roleset index built by `build_rolesets`, depth and unique-role
equivalences, and the behaviour of the pruned traversal cursor.

Modelling conventions:

* Machine integers (`usize`, role ids) are modelled as `Nat`; none of the
  verified code relies on overflow.
* `indextree::Arena<T>` is a flat list of nodes; `NodeId` handles are list
  indices, issued in insertion order exactly as the arena issues them.
* Iterators are modelled as the lists they yield.  Pointer-chasing
  iterators (`descendants`, `ancestors`, the pruned `TraverseRole`
  cursor, the explicit stack loop) are given a fuel parameter to make
  them total; every call site passes a fuel that provably suffices for
  every arena this library constructs.  Rust panics on absent ids
  (`expect`) are modelled by total default reads; the proofs show the ids
  are always present for the trees the library builds.
* `rayon` parallel combinators are modelled by their sequential
  contracts: `find_first` returns the sequentially first match of the
  iterator, so `par_iter().by_exponential_blocks().find_first(p)` is the
  first match in arena order, and `walk_tree(root, children)` is modelled
  by the depth-first prefix order of the pruned tree it walks.
-/

namespace A11y

/-- A role id.  The crate takes `atspi_common::Role`, an externally defined
dense enumeration of small integer codes; the core treats it as an opaque
comparable scalar, so we model it by `Nat`. -/
abbrev Role := Nat

/-- Modelled from the spec: `RoleSet` (the file `role_set.rs` is not under
`src/`; only its uses are).  A fixed-capacity bitset over the role
universe, modelled as the natural number whose binary digits are the bits
of the set.  `union` is bitwise or; `contains` is a bit test. -/
abbrev RoleSet := Nat

/-- Modelled from the spec: the `RoleSet` with exactly the bit of one role
set (the `Role -> RoleSet` conversion `role.into()`). -/
def roleToSet (r : Role) : RoleSet := 2 ^ r

/-- Modelled from the spec: `RoleSet::contains`, a bit test.  The call
sites pass a single-bit set; we model the general "all bits of `other`
are set in `s`" test. -/
def RoleSet.containsRS (s other : RoleSet) : Bool := other &&& s == other

/-- Modelled from the spec: `RoleSet::iterate_ascending` / `role_iter`:
the set bits, as roles, in ascending id order. -/
def RoleSet.role_iter (s : RoleSet) : List Role :=
  (List.range s).filter (fun r => s.testBit r)

/-- Modelled from the spec: `RoleSetVecCount`, a per-role occurrence
counter paired with a derived `RoleSet` whose bit `i` is set iff
`count i > 0`.  The derived set is the `.1` field the code reads. -/
structure RoleSetVecCount where
  counts : List Nat
  set : RoleSet
  deriving DecidableEq, Repr

/-- Bump index `r` of a count vector, extending with zeros as needed. -/
def bumpCount : List Nat → Nat → List Nat
  | [], 0 => [1]
  | [], r + 1 => 0 :: bumpCount [] r
  | c :: cs, 0 => (c + 1) :: cs
  | c :: cs, r + 1 => c :: bumpCount cs r

/-- Modelled from the spec: `RoleSetVecCount::add`: increment the count of
`r` and set its bit in the derived set. -/
def RoleSetVecCount.add (c : RoleSetVecCount) (r : Role) : RoleSetVecCount :=
  { counts := bumpCount c.counts r, set := c.set ||| roleToSet r }

/-- Modelled from the spec: the empty count (all zero counts, empty set):
`RoleSetVecCount::default()`. -/
def RoleSetVecCount.empty : RoleSetVecCount := ⟨[], 0⟩

/-- Modelled from the spec: `RoleSetVecCount::contains` consults the
derived `RoleSet`. -/
def RoleSetVecCount.containsRS (c : RoleSetVecCount) (other : RoleSet) : Bool :=
  c.set.containsRS other

/-- The input tree shape `A11yNode { role, children }` of `lib.rs`.
(A Lean structure cannot be recursive, so this is a one-constructor
inductive with projection functions.) -/
inductive A11yNode : Type where
  | mk (role : Role) (children : List A11yNode)

/-- The `role` field of an `A11yNode`. -/
def A11yNode.role : A11yNode → Role
  | .mk r _ => r

/-- The `children` field of an `A11yNode`. -/
def A11yNode.children : A11yNode → List A11yNode
  | .mk _ cs => cs

mutual
/-- Number of nodes of an `A11yNode` tree. -/
def A11yNode.size : A11yNode → Nat
  | .mk _ cs => 1 + A11yNode.sizeF cs
/-- Number of nodes of a forest. -/
def A11yNode.sizeF : List A11yNode → Nat
  | [] => 0
  | c :: cs => A11yNode.size c + A11yNode.sizeF cs
end

/-- One slot of an `indextree::Arena<T>`: the stored parent link, the
ordered child handles (insertion order; the crate stores
`first_child`/`next_sibling` links, which we derive from this list), and
the payload. -/
structure IndexNode (α : Type) where
  parent : Option Nat
  children : List Nat
  data : α
  deriving DecidableEq, Repr

/-- `indextree::Arena<T>`: a flat append-only node store; `NodeId`s are
indices into this list, issued in insertion order. -/
abbrev Arena (α : Type) := List (IndexNode α)

/-- Replace the element at index `i` (no-op when out of range). -/
def modifyAt : List α → Nat → (α → α) → List α
  | [], _, _ => []
  | x :: xs, 0, f => f x :: xs
  | x :: xs, i + 1, f => x :: modifyAt xs i f

/-- `Arena::new_node`: append a fresh, unlinked node; returns its id. -/
def Arena.new_node (tree : Arena α) (d : α) : Nat × Arena α :=
  (tree.length, tree ++ [⟨none, [], d⟩])

/-- `NodeId::append(child, arena)`: attach `childId` as the last child of
`parentId` (set the child's parent link, push the child handle). -/
def Arena.appendChild (tree : Arena α) (parentId childId : Nat) : Arena α :=
  modifyAt (modifyAt tree parentId (fun n => { n with children := n.children ++ [childId] }))
    childId (fun n => { n with parent := some parentId })

/-- The stored parent link of node `id` (`indextree::Node::parent`). -/
def parentOf (tree : Arena α) (id : Nat) : Option Nat :=
  tree[id]?.bind (·.parent)

/-- The child handle list of node `id`. -/
def childrenOf (tree : Arena α) (id : Nat) : List Nat :=
  (tree[id]?.map (·.children)).getD []

/-- `indextree::Node::first_child`, derived from the child list. -/
def firstChildOf (tree : Arena α) (id : Nat) : Option Nat :=
  (childrenOf tree id).head?

/-- The element following the first occurrence of `x`. -/
def nextAfter : List Nat → Nat → Option Nat
  | [], _ => none
  | y :: ys, x => if y = x then ys.head? else nextAfter ys x

/-- `indextree::Node::next_sibling`, derived from the parent's child
list (the next handle after `id` among its parent's children). -/
def nextSiblingOf (tree : Arena α) (id : Nat) : Option Nat :=
  (parentOf tree id).bind (fun p => nextAfter (childrenOf tree p) id)

/-- `NodeId::descendants`: the node itself and all its descendants, in
preorder (parent first, children left to right).  `fuel` bounds the
recursion depth; every call passes the arena's node count, which suffices
for every arena this library builds. -/
def descendantsF (tree : Arena α) : Nat → Nat → List Nat
  | 0, id => [id]
  | f + 1, id => id :: (childrenOf tree id).flatMap (descendantsF tree f)

/-- `NodeId::ancestors`: the node itself, then its parent, grandparent,
…, up to the root.  `fuel` bounds the chain length; parents of arenas
built by this library strictly decrease, so `id + 1` steps always
suffice. -/
def ancestorsF (tree : Arena α) : Nat → Nat → List Nat
  | 0, _ => []
  | f + 1, id =>
    id :: (match parentOf tree id with
           | none => []
           | some p => ancestorsF tree f p)

/-- The crate's `HasRole` trait (`indextree_ext.rs`) plus the `role`
field both node payloads expose; the generic traversal code reads the
summary through `roleset()` and the role through the payload field. -/
class HasRole (α : Type) where
  roleset : α → RoleSet
  role : α → Role

/-- The summary bits of node `id` (empty for an absent id; the code
panics there, which never happens on the arenas it builds). -/
def rolesetAt [HasRole α] (tree : Arena α) (id : Nat) : RoleSet :=
  (tree[id]?.map (fun n => HasRole.roleset n.data)).getD 0

/-- The role of node `id`, when present. -/
def roleAt [HasRole α] (tree : Arena α) (id : Nat) : Option Role :=
  tree[id]?.map (fun n => HasRole.role n.data)

/-- The boolean-flavor payload `Node { role, roleset }` of `lib.rs`. -/
structure Node where
  role : Role
  roleset : RoleSet
  deriving DecidableEq, Repr

instance : HasRole Node := ⟨Node.roleset, Node.role⟩

/-- The count-flavor payload `NodeCount { role, roleset }` of `lib.rs`.
Its `HasRole::roleset` returns the derived `RoleSet` (`self.roleset.1`). -/
structure NodeCount where
  role : Role
  roleset : RoleSetVecCount
  deriving DecidableEq, Repr

instance : HasRole NodeCount := ⟨fun n => n.roleset.set, NodeCount.role⟩

mutual
/-- `Node::from_a11y_node` / `NodeCount::from_a11y_node`: add the node to
the arena (payload built from the role by `init`), then recursively add
and append each child, in input order.  The two Rust functions differ
only in the payload constructor, abstracted here as `init`. -/
def fromA11y (init : Role → α) : A11yNode → Arena α → Nat × Arena α
  | .mk role children, tree =>
    let idTree := tree.new_node (init role)
    (idTree.1, fromA11yKids init idTree.1 children idTree.2)
/-- The child loop of `from_a11y_node`. -/
def fromA11yKids (init : Role → α) (id : Nat) : List A11yNode → Arena α → Arena α
  | [], tree => tree
  | c :: cs, tree =>
    let cidTree := fromA11y init c tree
    fromA11yKids init id cs (cidTree.2.appendChild id cidTree.1)
end

/-- The boolean-flavor tree `Tree { inner, root }`. -/
structure Tree where
  inner : Arena Node
  root : Nat
  deriving DecidableEq, Repr

/-- The count-flavor tree `TreeCount { inner, root }`. -/
structure TreeCount where
  inner : Arena NodeCount
  root : Nat
  deriving DecidableEq, Repr

/-- `Tree::from_root_node`. -/
def Tree.from_root_node (root_node : A11yNode) : Tree :=
  let idTree := fromA11y (fun r => Node.mk r 0) root_node []
  { inner := idTree.2, root := idTree.1 }

/-- `TreeCount::from_root_node`. -/
def TreeCount.from_root_node (root_node : A11yNode) : TreeCount :=
  let idTree := fromA11y (fun r => NodeCount.mk r RoleSetVecCount.empty) root_node []
  { inner := idTree.2, root := idTree.1 }
/-! ## Index build (`build_rolesets`) -/

/-- One iteration of `Tree::build_rolesets`'s outer loop: or the node's
own role into its roleset, snapshot the roleset, then or the snapshot
into every node of the node's ancestor chain (which, in `indextree`,
starts with the node itself). -/
def Tree.buildStep (ar : Arena Node) (leaf_id : Nat) : Arena Node :=
  let ar1 := modifyAt ar leaf_id
    (fun nd => { nd with data := { nd.data with roleset := nd.data.roleset ||| roleToSet nd.data.role } })
  let leaf_roleset := rolesetAt ar1 leaf_id
  (ancestorsF ar1 ar1.length leaf_id).foldl
    (fun ar2 anc_id => modifyAt ar2 anc_id
      (fun nd => { nd with data := { nd.data with roleset := nd.data.roleset ||| leaf_roleset } }))
    ar1

/-- `Tree::build_rolesets`: the ids are collected from the initial arena
(`descendants(..).collect()`), then each is processed by `buildStep`. -/
def Tree.build_rolesets (t : Tree) : Tree :=
  { t with inner := (descendantsF t.inner t.inner.length t.root).foldl Tree.buildStep t.inner }

/-- One iteration of `TreeCount::build_rolesets`'s outer loop: `add` the
node's own role to its counter, snapshot the node's role, then `add` the
role to every node of the node's ancestor chain. -/
def TreeCount.buildStep (ar : Arena NodeCount) (leaf_id : Nat) : Arena NodeCount :=
  let ar1 := modifyAt ar leaf_id
    (fun nd => { nd with data := { nd.data with roleset := nd.data.roleset.add nd.data.role } })
  let leaf_role := (ar1[leaf_id]?.map (fun nd => nd.data.role)).getD 0
  (ancestorsF ar1 ar1.length leaf_id).foldl
    (fun ar2 anc_id => modifyAt ar2 anc_id
      (fun nd => { nd with data := { nd.data with roleset := nd.data.roleset.add leaf_role } }))
    ar1

/-- `TreeCount::build_rolesets`. -/
def TreeCount.build_rolesets (t : TreeCount) : TreeCount :=
  { t with inner := (descendantsF t.inner t.inner.length t.root).foldl TreeCount.buildStep t.inner }

/-! ## The pruned traversal cursor (`indextree_ext.rs`) -/

/-- `indextree::NodeEdge`: the two event kinds of the depth-first edge
walk — entering (`Start`) and leaving (`End`) a node. -/
inductive NodeEdge where
  | Start (id : Nat)
  | End (id : Nat)
  deriving DecidableEq, Repr

/-- `NodeEdgeExt::next_traverse_role`: the successor edge of the
role-pruned edge walk.  A child is entered only if its roleset contains
the target; a pruned first child is left via its `End` event, pruned
later siblings are skipped silently (the recursive call), and when a node
has neither a next sibling nor a parent the walk quietly yields nothing
(`node.parent().map(NodeEdge::End)` of a missing parent).  `fuel` bounds
the silent sibling-skipping recursion. -/
def next_traverse_roleF [HasRole α] (tree : Arena α) (q : RoleSet) : Nat → NodeEdge → Option NodeEdge
  | _, .Start node =>
    match firstChildOf tree node with
    | some fc =>
      if (rolesetAt tree fc).containsRS q then some (.Start fc) else some (.End fc)
    | none => some (.End node)
  | 0, .End _ => none
  | fuel + 1, .End node =>
    match nextSiblingOf tree node with
    | some s =>
      if (rolesetAt tree s).containsRS q then some (.Start s)
      else next_traverse_roleF tree q fuel (.End s)
    | none => (parentOf tree node).map .End

/-- The edges yielded by the `TraverseRole` iterator, starting from a
given edge: each yielded edge is followed by its
`next_traverse_role` successor, and the iterator stops after yielding
`End root` (the `next_of_next` check). -/
def traverseRoleRun [HasRole α] (tree : Arena α) (q : RoleSet) (root : Nat) :
    Nat → NodeEdge → List NodeEdge
  | 0, _ => []
  | fuel + 1, e =>
    e :: (if e = NodeEdge.End root then []
          else
            match next_traverse_roleF tree q tree.length e with
            | none => []
            | some e2 => traverseRoleRun tree q root fuel e2)

/-- All edges yielded by `TraverseRole::new(arena, root, role)`: the walk
starts at `Start root`.  The fuel `2 * n + 2` dominates the edge count of
any walk over an `n`-node arena built by this library. -/
def traverseRoleList [HasRole α] (tree : Arena α) (q : RoleSet) (root : Nat) : List NodeEdge :=
  traverseRoleRun tree q root (2 * tree.length + 2) (NodeEdge.Start root)

/-- `DescendantsRole`: the pruned preorder node sequence — the `Start`
events of the pruned edge walk. -/
def descendantsRoleList [HasRole α] (tree : Arena α) (q : RoleSet) (root : Nat) : List Nat :=
  (traverseRoleList tree q root).filterMap
    (fun e => match e with | .Start id => some id | .End _ => none)

/-! ## Queries (generic over the two payload flavors) -/

/-- `find_map(|id| arena.get(id).filter(|n| n.role == role))`: the first
id in `ids` that is present and carries `role`.  All `find_first*`
variants share this final step; they differ in the id sequence searched.
(The Rust functions return the arena node; the id determines it.) -/
def findRoleIn [HasRole α] (tree : Arena α) (role : Role) (ids : List Nat) : Option Nat :=
  ids.findSome? (fun id =>
    match tree[id]? with
    | some n => if HasRole.role n.data = role then some id else none
    | none => none)

/-- `find_first`: preorder scan from the root. -/
def findFirstG [HasRole α] (tree : Arena α) (root : Nat) (role : Role) : Option Nat :=
  findRoleIn tree role (descendantsF tree tree.length root)

/-- `par_find_first`: `par_iter().by_exponential_blocks().find_first(..)`.
Rayon's `find_first` returns the sequentially first match of the
underlying iterator (the exponential blocks only affect scheduling), so
this is the first match in arena (insertion) order. -/
def parFindFirstG [HasRole α] (tree : Arena α) (role : Role) : Option Nat :=
  findRoleIn tree role (List.range tree.length)

/-- `find_first_roleset`: first matching node of the pruned preorder
cursor `descendants_role`. -/
def findFirstRolesetG [HasRole α] (tree : Arena α) (root : Nat) (role : Role) : Option Nat :=
  findRoleIn tree role (descendantsRoleList tree (roleToSet role) root)

/-- The node sequence of `rayon::iter::walk_tree(root, pruned children)`:
`walk_tree` guarantees no ordering and delegates to the postfix walker,
so the sequential order a positional consumer sees is the depth-first
postfix order (children before their parent, siblings left to right) of
the tree whose children lists keep only the children whose roleset
contains the target. -/
def walkTreePrunedF [HasRole α] (tree : Arena α) (q : RoleSet) : Nat → Nat → List Nat
  | 0, id => [id]
  | fuel + 1, id =>
    (((childrenOf tree id).filter
        (fun c => (rolesetAt tree c).containsRS q)).flatMap (walkTreePrunedF tree q fuel))
      ++ [id]

/-- `par_find_first_roleset`: first match (rayon `find_first`, i.e. the
sequentially first) of the pruned `walk_tree` — the postfix-first
match. -/
def parFindFirstRolesetG [HasRole α] (tree : Arena α) (root : Nat) (role : Role) : Option Nat :=
  findRoleIn tree role (walkTreePrunedF tree (roleToSet role) tree.length root)

/-- The loop of `find_first_stack`: pop the front; return it if its role
matches; otherwise push the qualifying children, in order, at the front
(the source pushes them front-first from the reversed child list).
`fuel` bounds the iteration count; visited nodes are distinct on the
arenas this library builds, so `n + 1` iterations always suffice. -/
def findFirstStackGo [HasRole α] (tree : Arena α) (role : Role) (q : RoleSet) :
    Nat → List Nat → Option Nat
  | _, [] => none
  | 0, _ :: _ => none
  | fuel + 1, id :: stack =>
    if roleAt tree id = some role then some id
    else
      findFirstStackGo tree role q fuel
        (((childrenOf tree id).filter (fun c => (rolesetAt tree c).containsRS q)) ++ stack)

/-- `find_first_stack`: explicit-stack pruned preorder search. -/
def findFirstStackG [HasRole α] (tree : Arena α) (root : Nat) (role : Role) : Option Nat :=
  findFirstStackGo tree role (roleToSet role) (tree.length + 1) [root]

/-- `max_depth`: maximum ancestor-chain length over all preorder nodes
(in `indextree` the chain of a node includes the node itself).  The
source's `.max().expect(..)` cannot fail: the scan always yields the
root; an empty fold is modelled as `0`. -/
def maxDepthG (tree : Arena α) (root : Nat) : Nat :=
  ((descendantsF tree tree.length root).map
    (fun id => (ancestorsF tree tree.length id).length)).foldl max 0

/-- `par_max_depth`: over the flat node collection, the maximum of (the
ancestor-chain length of the node's parent, or `0` at the root), plus
one. -/
def parMaxDepthG (tree : Arena α) : Nat :=
  ((tree.map (fun nd =>
      match nd.parent with
      | some p => (ancestorsF tree tree.length p).length
      | none => 0)).foldl max 0) + 1

/-- The push-if-absent fold shared by `unique_roles` and
`par_unique_roles`: keeps the first occurrence of each role, in
encounter order. -/
def distinctFold (roles : List Role) : List Role :=
  roles.foldl (fun acc role => if acc.contains role then acc else acc ++ [role]) []

/-- `unique_roles`: push-if-absent fold over the preorder role
sequence. -/
def uniqueRolesG [HasRole α] (tree : Arena α) (root : Nat) : List Role :=
  distinctFold ((descendantsF tree tree.length root).filterMap (roleAt tree))

/-- `Vec::dedup`: drop consecutive duplicates. -/
def dedupAdj : List Role → List Role
  | [] => []
  | [x] => [x]
  | x :: y :: rest => if x = y then dedupAdj (y :: rest) else x :: dedupAdj (y :: rest)

/-- `par_unique_roles`: per-worker push-if-absent folds over a partition
of the flat node collection, flattened, sorted ascending by role id and
`dedup`ed.  The partition only affects the pre-sort order, so it is
modelled as a single worker; the claims proved about this function are
set-level and partition-independent. -/
def parUniqueRolesG [HasRole α] (tree : Arena α) : List Role :=
  dedupAdj ((distinctFold (tree.map (fun nd => HasRole.role nd.data))).mergeSort (fun a b => a ≤ b))

/-- `unique_roles_roleset`: enumerate the root's precomputed roleset. -/
def uniqueRolesRolesetG [HasRole α] (tree : Arena α) (root : Nat) : List Role :=
  (rolesetAt tree root).role_iter

/-! ## The per-flavor methods of the `TreeTraversal` trait.

The Rust trait is implemented twice with textually identical bodies
(only the payload type differs); both implementations instantiate the
generic definitions above. -/

/-- `<Tree as TreeTraversal>::find_first`. -/
def Tree.find_first (t : Tree) (role : Role) : Option Nat := findFirstG t.inner t.root role

/-- `<Tree as TreeTraversal>::par_find_first`. -/
def Tree.par_find_first (t : Tree) (role : Role) : Option Nat := parFindFirstG t.inner role

/-- `<Tree as TreeTraversal>::find_first_roleset`. -/
def Tree.find_first_roleset (t : Tree) (role : Role) : Option Nat :=
  findFirstRolesetG t.inner t.root role

/-- `<Tree as TreeTraversal>::par_find_first_roleset`. -/
def Tree.par_find_first_roleset (t : Tree) (role : Role) : Option Nat :=
  parFindFirstRolesetG t.inner t.root role

/-- `<Tree as TreeTraversal>::find_first_stack`. -/
def Tree.find_first_stack (t : Tree) (role : Role) : Option Nat :=
  findFirstStackG t.inner t.root role

/-- `<Tree as TreeTraversal>::max_depth`. -/
def Tree.max_depth (t : Tree) : Nat := maxDepthG t.inner t.root

/-- `<Tree as TreeTraversal>::par_max_depth`. -/
def Tree.par_max_depth (t : Tree) : Nat := parMaxDepthG t.inner

/-- `<Tree as TreeTraversal>::unique_roles`. -/
def Tree.unique_roles (t : Tree) : List Role := uniqueRolesG t.inner t.root

/-- `<Tree as TreeTraversal>::par_unique_roles`. -/
def Tree.par_unique_roles (t : Tree) : List Role := parUniqueRolesG t.inner

/-- `<Tree as TreeTraversal>::unique_roles_roleset`. -/
def Tree.unique_roles_roleset (t : Tree) : List Role := uniqueRolesRolesetG t.inner t.root

/-- `<TreeCount as TreeTraversal>::find_first`. -/
def TreeCount.find_first (t : TreeCount) (role : Role) : Option Nat :=
  findFirstG t.inner t.root role

/-- `<TreeCount as TreeTraversal>::par_find_first`. -/
def TreeCount.par_find_first (t : TreeCount) (role : Role) : Option Nat :=
  parFindFirstG t.inner role

/-- `<TreeCount as TreeTraversal>::find_first_roleset`. -/
def TreeCount.find_first_roleset (t : TreeCount) (role : Role) : Option Nat :=
  findFirstRolesetG t.inner t.root role

/-- `<TreeCount as TreeTraversal>::par_find_first_roleset`. -/
def TreeCount.par_find_first_roleset (t : TreeCount) (role : Role) : Option Nat :=
  parFindFirstRolesetG t.inner t.root role

/-- `<TreeCount as TreeTraversal>::find_first_stack`. -/
def TreeCount.find_first_stack (t : TreeCount) (role : Role) : Option Nat :=
  findFirstStackG t.inner t.root role

/-- `<TreeCount as TreeTraversal>::max_depth`. -/
def TreeCount.max_depth (t : TreeCount) : Nat := maxDepthG t.inner t.root

/-- `<TreeCount as TreeTraversal>::par_max_depth`. -/
def TreeCount.par_max_depth (t : TreeCount) : Nat := parMaxDepthG t.inner

/-- `<TreeCount as TreeTraversal>::unique_roles`. -/
def TreeCount.unique_roles (t : TreeCount) : List Role := uniqueRolesG t.inner t.root

/-- `<TreeCount as TreeTraversal>::par_unique_roles`. -/
def TreeCount.par_unique_roles (t : TreeCount) : List Role := parUniqueRolesG t.inner

/-- `<TreeCount as TreeTraversal>::unique_roles_roleset`. -/
def TreeCount.unique_roles_roleset (t : TreeCount) : List Role :=
  uniqueRolesRolesetG t.inner t.root

/-! ## Reference structures used by the proofs

`from_a11y_node` numbers the nodes in preorder, so the arena it builds is
the preorder flattening of the input `A11yNode`.  The functions below
compute that flattening and positional data of the input tree; the
theorems identify the arena walks with them. -/

/-- The handles `from_a11y_node` gives to a forest laid out from
offset `o`: each root at its offset, one subtree after another. -/
def childOffsets (o : Nat) : List A11yNode → List Nat
  | [] => []
  | c :: cs => o :: childOffsets (o + c.size) cs

mutual
/-- The arena slice `from_a11y_node` produces for one subtree placed at
offset `o` under parent `p`: the node, then its children's blocks. -/
def blockN (init : Role → α) (o : Nat) (p : Option Nat) : A11yNode → Arena α
  | .mk r cs => ⟨p, childOffsets (o + 1) cs, init r⟩ :: blockF init (o + 1) o cs
/-- The arena slice for a forest laid out from offset `o` under
parent `pid`. -/
def blockF (init : Role → α) (o : Nat) (pid : Nat) : List A11yNode → Arena α
  | [] => []
  | c :: cs => blockN init o (some pid) c ++ blockF init (o + c.size) pid cs
end

mutual
/-- The subtree whose root got preorder index `d` (counted from this
node, itself `0`), if `d` is in range. -/
def nodeAtIdx : A11yNode → Nat → Option A11yNode
  | a, 0 => some a
  | .mk _ cs, d + 1 => nodeAtIdxF cs d
/-- `nodeAtIdx` over a forest (preorder index across the subtrees). -/
def nodeAtIdxF : List A11yNode → Nat → Option A11yNode
  | [], _ => none
  | c :: cs, d => if d < c.size then nodeAtIdx c d else nodeAtIdxF cs (d - c.size)
end

/-- The size of the subtree at preorder index `d` (0 when out of range). -/
def subSize (a : A11yNode) (d : Nat) : Nat := ((nodeAtIdx a d).map A11yNode.size).getD 0

mutual
/-- The union of the role bits of every node of a subtree. -/
def rolesBits : A11yNode → RoleSet
  | .mk r cs => roleToSet r ||| rolesBitsF cs
/-- The union of the role bits of every node of a forest. -/
def rolesBitsF : List A11yNode → RoleSet
  | [] => 0
  | c :: cs => rolesBits c ||| rolesBitsF cs
end

mutual
/-- The preorder role sequence of a subtree. -/
def rolesOf : A11yNode → List Role
  | .mk r cs => r :: rolesOfF cs
/-- The preorder role sequence of a forest. -/
def rolesOfF : List A11yNode → List Role
  | [] => []
  | c :: cs => rolesOf c ++ rolesOfF cs
end

mutual
/-- The number of nodes on the longest root-to-node path, counting both
ends (a single node has height 1). -/
def A11yNode.height : A11yNode → Nat
  | .mk _ cs => 1 + A11yNode.heightF cs
/-- The maximum height over a forest (0 when empty). -/
def A11yNode.heightF : List A11yNode → Nat
  | [] => 0
  | c :: cs => max c.height (A11yNode.heightF cs)
end

/-- Stated from the spec, for the refinement claims: the preorder index
of the first node whose own role is `r` (parent before children, siblings
left to right), or `none` when no node has role `r`. -/
def specFindFirst (a : A11yNode) (r : Role) : Option Nat :=
  (rolesOf a).findIdx? (· = r)

mutual
/-- The node sequence of the pruned preorder walk of a subtree at offset
`o`: the node itself, then, for each child whose summary passes `keep`,
that child's pruned walk; children failing `keep` are skipped whole. -/
def prunedIdsN (keep : Nat → Bool) (o : Nat) : A11yNode → List Nat
  | .mk _ cs => o :: prunedIdsF keep (o + 1) cs
/-- The pruned preorder walk of a forest laid out from offset `o`. -/
def prunedIdsF (keep : Nat → Bool) (o : Nat) : List A11yNode → List Nat
  | [] => []
  | c :: cs => (if keep o then prunedIdsN keep o c else []) ++ prunedIdsF keep (o + c.size) cs
end

mutual
/-- The depth-first postfix (postorder) id sequence of a subtree laid
out from offset `o`: each node after all of its descendants, siblings
left to right. -/
def postIdsN (o : Nat) : A11yNode → List Nat
  | .mk _ cs => postIdsF (o + 1) cs ++ [o]
/-- The postfix id sequence of a forest laid out from offset `o`. -/
def postIdsF (o : Nat) : List A11yNode → List Nat
  | [] => []
  | c :: cs => postIdsN o c ++ postIdsF (o + c.size) cs
end

mutual
/-- The node sequence of the pruned postfix walk of a subtree at offset
`o`: for each child whose summary passes `keep`, that child's pruned
postfix walk, then the node itself; children failing `keep` are skipped
whole. -/
def prunedIdsPostN (keep : Nat → Bool) (o : Nat) : A11yNode → List Nat
  | .mk _ cs => prunedIdsPostF keep (o + 1) cs ++ [o]
/-- The pruned postfix walk of a forest laid out from offset `o`. -/
def prunedIdsPostF (keep : Nat → Bool) (o : Nat) : List A11yNode → List Nat
  | [] => []
  | c :: cs =>
    (if keep o then prunedIdsPostN keep o c else []) ++ prunedIdsPostF keep (o + c.size) cs
end

/-- Stated for the corrected refinement claim: the preorder index of the
first node in depth-first postfix order (children before their parent,
siblings left to right) whose own role is `r`, or `none` when no node
has role `r`. -/
def specFindFirstPost (a : A11yNode) (r : Role) : Option Nat :=
  (postIdsN 0 a).findSome? (fun i =>
    match nodeAtIdx a i with
    | some s => if s.role = r then some i else none
    | none => none)

mutual
/-- The edge sequence the pruned cursor emits for the subtree at offset
`o`: `Start o`, the inner edges, ending with `End o`. -/
def edgesN (keep : Nat → Bool) (o : Nat) : A11yNode → List NodeEdge
  | .mk _ cs => NodeEdge.Start o :: edgesTail keep o (o + 1) cs
/-- The edges after `Start o` for a node at `o` whose children start at
offset `oc`: with no child the node is left at once; a kept first child
is walked in full, a pruned first child is left via its `End` event (the
cursor emits it), and the walk continues with the remaining siblings. -/
def edgesTail (keep : Nat → Bool) (o : Nat) (oc : Nat) : List A11yNode → List NodeEdge
  | [] => [NodeEdge.End o]
  | c :: cs =>
    if keep oc then edgesN keep oc c ++ edgesSib keep o (oc + c.size) cs
    else NodeEdge.End oc :: edgesSib keep o (oc + c.size) cs
/-- The edges emitted after leaving a child of the node at `o`, with the
remaining siblings laid out from `oc`: pruned siblings are skipped
silently, the first kept sibling is walked in full, and when none is
left the node at `o` is left. -/
def edgesSib (keep : Nat → Bool) (o : Nat) (oc : Nat) : List A11yNode → List NodeEdge
  | [] => [NodeEdge.End o]
  | c :: cs =>
    if keep oc then edgesN keep oc c ++ edgesSib keep o (oc + c.size) cs
    else edgesSib keep o (oc + c.size) cs
end

mutual
/-- The representation predicate tying an arena to the input tree it was
built from: the slot at `o` stores parent `p`, the preorder child
handles, and the node's role (the roleset is deliberately not
constrained: the index build rewrites it but never touches the
structure). -/
def ReprN [HasRole α] (tree : Arena α) (o : Nat) (p : Option Nat) : A11yNode → Prop
  | .mk r cs =>
    (∃ nd, tree[o]? = some nd ∧ nd.parent = p ∧
      nd.children = childOffsets (o + 1) cs ∧ HasRole.role nd.data = r) ∧
    ReprF tree (o + 1) o cs
/-- `ReprN` for a forest laid out from offset `o` under parent `pid`. -/
def ReprF [HasRole α] (tree : Arena α) (o : Nat) (pid : Nat) : List A11yNode → Prop
  | [] => True
  | c :: cs => ReprN tree o (some pid) c ∧ ReprF tree (o + c.size) pid cs
end

/-- Modelled from the spec (for the claim about the index-build
algorithm): the leaf-only reference procedure — collect every leaf handle
once (preorder scan); for each leaf, seed its own summary with its own
role, then walk its ancestor chain and merge the leaf's now-final summary
upward into every ancestor's summary. -/
def leafOnlyBuild (t : Tree) : Tree :=
  { t with
    inner :=
      ((descendantsF t.inner t.inner.length t.root).filter
          (fun id => (childrenOf t.inner id).isEmpty)).foldl
        (fun ar leaf_id =>
          let ar1 := modifyAt ar leaf_id
            (fun nd => { nd with data := { nd.data with roleset := nd.data.roleset ||| roleToSet nd.data.role } })
          let leaf_roleset := rolesetAt ar1 leaf_id
          ((ancestorsF ar1 ar1.length leaf_id).drop 1).foldl
            (fun ar2 anc_id => modifyAt ar2 anc_id
              (fun nd => { nd with data := { nd.data with roleset := nd.data.roleset ||| leaf_roleset } }))
            ar1)
        t.inner }

/-- The all-nodes reference procedure (the amended form of the index
build): process every node handle in preorder; seed the node's summary
with its own role and merge that single-role summary into every proper
ancestor's summary. -/
def nodeBuild (t : Tree) : Tree :=
  { t with
    inner :=
      (descendantsF t.inner t.inner.length t.root).foldl
        (fun ar id =>
          let ar1 := modifyAt ar id
            (fun nd => { nd with data := { nd.data with roleset := nd.data.roleset ||| roleToSet nd.data.role } })
          let own := (ar1[id]?.map (fun nd => roleToSet nd.data.role)).getD 0
          ((ancestorsF ar1 ar1.length id).drop 1).foldl
            (fun ar2 anc_id => modifyAt ar2 anc_id
              (fun nd => { nd with data := { nd.data with roleset := nd.data.roleset ||| own } }))
            ar1)
        t.inner }

/-- The union of every node's own role over the whole arena-held tree
(the spec's "union of every node's own role in the tree"). -/
def unionAllRoles [HasRole α] (tree : Arena α) (root : Nat) : RoleSet :=
  ((descendantsF tree tree.length root).filterMap (roleAt tree)).foldl
    (fun s r => s ||| roleToSet r) 0

mutual
/-- The ancestor chain, the node itself first, of the node with preorder
index `d` inside a subtree placed at offset `o`: the positions of the
node itself, its parent, …, up to and including the subtree root `o`. -/
def ancIn (o : Nat) : A11yNode → Nat → List Nat
  | _, 0 => [o]
  | .mk _ cs, d + 1 => ancInF (o + 1) cs d ++ [o]
/-- `ancIn` over a forest laid out from offset `o` (the chain stops at
the root of the subtree containing the index). -/
def ancInF (o : Nat) : List A11yNode → Nat → List Nat
  | [], _ => []
  | c :: cs, d => if d < c.size then ancIn o c d else ancInF (o + c.size) cs (d - c.size)
end

/-- The ancestor chain of node `id` with its canonical fuel (`id + 1`
steps always suffice when parents strictly decrease). -/
def ancChain (tree : Arena α) (id : Nat) : List Nat := ancestorsF tree (id + 1) id

/-- Union of a list of rolesets. -/
def orAll (l : List RoleSet) : RoleSet := l.foldl (· ||| ·) 0

/-- The id an edge event refers to. -/
def NodeEdge.edgeId : NodeEdge → Nat
  | .Start i => i
  | .End i => i

/-- The sibling links a child suffix of one parent presents to the
traversal: each child's stored `next_sibling` is the next child's
handle (none for the last), and each child's parent is `o`. -/
def SibLinks (tree : Arena α) (o : Nat) : Nat → List A11yNode → Prop
  | _, [] => True
  | oc, c :: cs =>
    nextSiblingOf tree oc = (childOffsets (oc + c.size) cs).head? ∧
    parentOf tree oc = some o ∧ SibLinks tree o (oc + c.size) cs

/-- The pruning test the cursor applies to a child handle: does its
summary contain the target roleset? -/
def keepOf [HasRole α] (tree : Arena α) (q : RoleSet) : Nat → Bool :=
  fun x => (rolesetAt tree x).containsRS q

/-- One cursor step: `y` is the successor edge of `x` (at the fuel the
cursor is run with). -/
def stepRel [HasRole α] (tree : Arena α) (q : RoleSet) : NodeEdge → NodeEdge → Prop :=
  fun x y => next_traverse_roleF tree q tree.length x = some y

/-- Two arenas with the same slots, agreeing slotwise on parent, child
list and role (the summaries may differ).  The index build only rewrites
summaries, so its result stays in this relation to its input. -/
def StructAgree [HasRole α] (t₁ t₂ : Arena α) : Prop :=
  t₁.length = t₂.length ∧
  ∀ i, parentOf t₁ i = parentOf t₂ i ∧ childrenOf t₁ i = childrenOf t₂ i ∧
    roleAt t₁ i = roleAt t₂ i

/-- A single-node input tree (role 5), used by closed witnesses. -/
def singleTree : A11yNode := .mk 5 []

/-- The spec's concrete scenario `A(B, C(D))` with roles `A=1`, `B=2`,
`C=3`, `D=2`. -/
def exampleTree : A11yNode := .mk 1 [.mk 2 [], .mk 3 [.mk 2 []]]

/-- The two-node tree `A(B)` with roles `A=1`, `B=2`: the internal node's
role occurs at no leaf, separating the build from the leaf-only
reference procedure. -/
def pairTree : A11yNode := .mk 1 [.mk 2 []]

/-- A two-node input tree whose nodes share role 1: the preorder-first
and postfix-first matches differ, separating `par_find_first_roleset`
from the preorder strategies. -/
def dupTree : A11yNode := .mk 1 [.mk 1 []]

/-! ## Basic lemmas -/

theorem length_modifyAt (l : List α) (i : Nat) (f : α → α) :
    (modifyAt l i f).length = l.length := by
  induction l generalizing i with
  | nil => rfl
  | cons x xs ih => cases i <;> simp [modifyAt, ih]

theorem get?_modifyAt (l : List α) (i j : Nat) (f : α → α) :
    (modifyAt l i f)[j]? = if j = i then l[j]?.map f else l[j]? := by
  induction l generalizing i j with
  | nil => simp [modifyAt]
  | cons x xs ih =>
    cases i with
    | zero => cases j <;> simp [modifyAt]
    | succ i =>
      cases j with
      | zero => simp [modifyAt]
      | succ j => simpa [modifyAt, Nat.succ_inj] using ih i j

theorem modifyAt_append_left (l₁ l₂ : List α) (i : Nat) (h : i < l₁.length) (f : α → α) :
    modifyAt (l₁ ++ l₂) i f = modifyAt l₁ i f ++ l₂ := by
  induction l₁ generalizing i with
  | nil => simp at h
  | cons x xs ih =>
    cases i with
    | zero => simp [modifyAt]
    | succ i =>
      simp only [List.cons_append, modifyAt, List.cons.injEq, true_and]
      exact ih i (by simpa using h)

theorem modifyAt_append_right (l₁ l₂ : List α) (i : Nat) (h : l₁.length ≤ i) (f : α → α) :
    modifyAt (l₁ ++ l₂) i f = l₁ ++ modifyAt l₂ (i - l₁.length) f := by
  induction l₁ generalizing i with
  | nil => simp
  | cons x xs ih =>
    cases i with
    | zero => simp at h
    | succ i =>
      simp only [List.cons_append, modifyAt, List.cons.injEq, true_and]
      simpa using ih i (by simpa using h)

theorem modifyAt_modifyAt (l : List α) (i : Nat) (f g : α → α) :
    modifyAt (modifyAt l i f) i g = modifyAt l i (fun x => g (f x)) := by
  induction l generalizing i with
  | nil => rfl
  | cons x xs ih => cases i <;> simp [modifyAt, ih]

theorem modifyAt_congr (l : List α) (i : Nat) (f g : α → α) (h : ∀ x, f x = g x) :
    modifyAt l i f = modifyAt l i g := by
  induction l generalizing i with
  | nil => rfl
  | cons x xs ih => cases i <;> simp [modifyAt, h, ih]

theorem modifyAt_of_id (l : List α) (i : Nat) (f : α → α) (h : ∀ x, f x = x) :
    modifyAt l i f = l := by
  induction l generalizing i with
  | nil => rfl
  | cons x xs ih => cases i <;> simp [modifyAt, h, ih]

theorem A11yNode.size_pos (a : A11yNode) : 0 < a.size := by
  cases a with
  | mk r cs => simp [A11yNode.size]

mutual
theorem length_blockN (init : Role → α) (o : Nat) (p : Option Nat) (a : A11yNode) :
    (blockN init o p a).length = a.size :=
  match a with
  | .mk r cs => by
    simp [blockN, A11yNode.size, length_blockF init (o + 1) o cs, Nat.add_comm]
theorem length_blockF (init : Role → α) (o : Nat) (pid : Nat) (cs : List A11yNode) :
    (blockF init o pid cs).length = A11yNode.sizeF cs :=
  match cs with
  | [] => by simp [blockF, A11yNode.sizeF]
  | c :: cs => by
    simp [blockF, A11yNode.sizeF, length_blockN init o (some pid) c,
      length_blockF init (o + c.size) pid cs]
end

theorem blockN_setParent (init : Role → α) (o : Nat) (p p' : Option Nat) (a : A11yNode) :
    modifyAt (blockN init o p a) 0 (fun n => { n with parent := p' }) = blockN init o p' a := by
  cases a with
  | mk r cs => simp [blockN, modifyAt]

theorem indexNode_eta_children (n : IndexNode α) :
    { n with children := n.children ++ ([] : List Nat) } = n := by
  cases n with
  | mk p c d => simp

mutual
theorem fromA11y_eq (init : Role → α) (a : A11yNode) (tree : Arena α) :
    fromA11y init a tree = (tree.length, tree ++ blockN init tree.length none a) :=
  match a with
  | .mk r cs => by
    have hkids := fromA11yKids_eq init tree.length cs (tree ++ [⟨none, [], init r⟩]) (by simp)
    simp only [fromA11y, Arena.new_node]
    rw [hkids]
    have hlen : (tree ++ [(⟨none, [], init r⟩ : IndexNode α)]).length = tree.length + 1 := by simp
    rw [hlen]
    rw [List.append_assoc]
    rw [modifyAt_append_right tree _ tree.length (Nat.le_refl _)]
    simp [modifyAt, blockN]
theorem fromA11yKids_eq (init : Role → α) (id : Nat) (cs : List A11yNode) (tree : Arena α)
    (h : id < tree.length) :
    fromA11yKids init id cs tree =
      modifyAt (tree ++ blockF init tree.length id cs) id
        (fun n => { n with children := n.children ++ childOffsets tree.length cs }) :=
  match cs with
  | [] => by
    simp only [fromA11yKids, blockF, childOffsets, List.append_nil]
    exact (modifyAt_of_id _ _ _ (fun x => rfl)).symm
  | c :: cs => by
    have hc := fromA11y_eq init c tree
    simp only [fromA11yKids]
    rw [hc]
    have h2 : (Arena.appendChild (tree ++ blockN init tree.length none c) id tree.length) =
        modifyAt tree id (fun n => { n with children := n.children ++ [tree.length] }) ++
          blockN init tree.length (some id) c := by
      unfold Arena.appendChild
      rw [modifyAt_append_left _ _ _ h]
      rw [modifyAt_append_right _ _ tree.length (by simp [length_modifyAt])]
      rw [show tree.length - (modifyAt tree id fun n => { n with children := n.children ++ [tree.length] }).length = 0 by simp [length_modifyAt]]
      rw [blockN_setParent]
    rw [h2]
    have hlen2 : (modifyAt tree id (fun n => { n with children := n.children ++ [tree.length] }) ++
        blockN init tree.length (some id) c).length = tree.length + c.size := by
      simp [length_modifyAt, length_blockN]
    have hid2 : id < (modifyAt tree id (fun n => { n with children := n.children ++ [tree.length] }) ++
        blockN init tree.length (some id) c).length := by
      rw [hlen2]; exact Nat.lt_of_lt_of_le h (Nat.le_add_right _ _)
    rw [fromA11yKids_eq init id cs _ hid2]
    rw [hlen2]
    rw [List.append_assoc]
    have hidm : id < (modifyAt tree id fun n => { n with children := n.children ++ [tree.length] }).length := by
      simpa [length_modifyAt] using h
    rw [modifyAt_append_left _ _ _ hidm]
    rw [modifyAt_modifyAt]
    rw [modifyAt_append_left _ _ _ h]
    have : (fun n : IndexNode α => { n with children := (n.children ++ [tree.length]) ++ childOffsets (tree.length + c.size) cs }) =
        fun n : IndexNode α => { n with children := n.children ++ childOffsets tree.length (c :: cs) } := by
      funext n
      simp [childOffsets, List.append_assoc]
    rw [modifyAt_congr _ _ _ _ (fun x => congrFun this x)]
    simp [blockF, List.append_assoc]
end

/-- `Tree::from_root_node` lays the input tree out as its preorder
block: node `i` of the arena is the node with preorder index `i`. -/
theorem from_root_node_eq (a : A11yNode) :
    Tree.from_root_node a = { inner := blockN (fun r => Node.mk r 0) 0 none a, root := 0 } := by
  unfold Tree.from_root_node
  rw [fromA11y_eq]
  rfl

/-- `TreeCount::from_root_node` lays the input tree out as its preorder
block. -/
theorem from_root_node_count_eq (a : A11yNode) :
    TreeCount.from_root_node a =
      { inner := blockN (fun r => NodeCount.mk r RoleSetVecCount.empty) 0 none a, root := 0 } := by
  unfold TreeCount.from_root_node
  rw [fromA11y_eq]
  rfl

theorem get?_append_middle (pre l suf : List β) (i : Nat) (h : i < l.length) :
    (pre ++ l ++ suf)[pre.length + i]? = l[i]? := by
  rw [List.append_assoc]
  rw [List.getElem?_append_right (by omega)]
  rw [Nat.add_sub_cancel_left]
  rw [List.getElem?_append, if_pos h]

mutual
theorem ReprN_block [HasRole α] (init : Role → α) (hrole : ∀ r, HasRole.role (init r) = r)
    (pre suf : Arena α) (p : Option Nat) (a : A11yNode) :
    ReprN (pre ++ blockN init pre.length p a ++ suf) pre.length p a :=
  match a with
  | .mk r cs => by
    constructor
    · refine ⟨⟨p, childOffsets (pre.length + 1) cs, init r⟩, ?_, rfl, rfl, hrole r⟩
      have := get?_append_middle pre (blockN init pre.length p (.mk r cs)) suf 0
        (by rw [length_blockN]; exact (A11yNode.mk r cs).size_pos)
      simpa [blockN] using this
    · have hF := ReprF_block init hrole
        (pre ++ [⟨p, childOffsets (pre.length + 1) cs, init r⟩]) suf pre.length cs
      have hlen : (pre ++ [(⟨p, childOffsets (pre.length + 1) cs, init r⟩ : IndexNode α)]).length
          = pre.length + 1 := by simp
      rw [hlen] at hF
      have harr : pre ++ [(⟨p, childOffsets (pre.length + 1) cs, init r⟩ : IndexNode α)] ++
            blockF init (pre.length + 1) pre.length cs ++ suf
          = pre ++ blockN init pre.length p (.mk r cs) ++ suf := by
        simp [blockN, List.append_assoc]
      rw [harr] at hF
      -- hF has parent pre.length; the goal wants parent pre.length too
      exact hF
theorem ReprF_block [HasRole α] (init : Role → α) (hrole : ∀ r, HasRole.role (init r) = r)
    (pre suf : Arena α) (pid : Nat) (cs : List A11yNode) :
    ReprF (pre ++ blockF init pre.length pid cs ++ suf) pre.length pid cs :=
  match cs with
  | [] => by simp [ReprF]
  | c :: cs => by
    constructor
    · have hN := ReprN_block init hrole pre (blockF init (pre.length + c.size) pid cs ++ suf)
        (some pid) c
      have harr : pre ++ blockN init pre.length (some pid) c ++
            (blockF init (pre.length + c.size) pid cs ++ suf)
          = pre ++ blockF init pre.length pid (c :: cs) ++ suf := by
        simp [blockF, List.append_assoc]
      rw [harr] at hN
      exact hN
    · have hF := ReprF_block init hrole (pre ++ blockN init pre.length (some pid) c) suf pid cs
      have hlen : (pre ++ blockN init pre.length (some pid) c).length = pre.length + c.size := by
        simp [length_blockN]
      rw [hlen] at hF
      have harr : pre ++ blockN init pre.length (some pid) c ++
            blockF init (pre.length + c.size) pid cs ++ suf
          = pre ++ blockF init pre.length pid (c :: cs) ++ suf := by
        simp [blockF, List.append_assoc]
      rw [harr] at hF
      exact hF
end

/-- The arena of `Tree::from_root_node` represents the input tree at
offset 0 with no parent. -/
theorem Repr_from_root_node (a : A11yNode) :
    ReprN (Tree.from_root_node a).inner 0 none a := by
  rw [from_root_node_eq]
  have := ReprN_block (fun r => Node.mk r 0) (fun _ => rfl) [] [] none a
  simpa using this

/-- The arena of `TreeCount::from_root_node` represents the input tree. -/
theorem Repr_from_root_node_count (a : A11yNode) :
    ReprN (TreeCount.from_root_node a).inner 0 none a := by
  rw [from_root_node_count_eq]
  have := ReprN_block (fun r => NodeCount.mk r RoleSetVecCount.empty) (fun _ => rfl) [] [] none a
  simpa using this

/-- The arena of `Tree::from_root_node` has exactly one slot per input
node. -/
theorem length_from_root_node (a : A11yNode) :
    (Tree.from_root_node a).inner.length = a.size := by
  rw [from_root_node_eq]
  exact length_blockN _ 0 none a

/-- The arena of `TreeCount::from_root_node` has exactly one slot per
input node. -/
theorem length_from_root_node_count (a : A11yNode) :
    (TreeCount.from_root_node a).inner.length = a.size := by
  rw [from_root_node_count_eq]
  exact length_blockN _ 0 none a

/-! ## Reading the arena through the representation predicate -/

theorem ReprN_get? [HasRole α] {tree : Arena α} {o : Nat} {p : Option Nat} {a : A11yNode}
    (h : ReprN tree o p a) :
    ∃ nd, tree[o]? = some nd ∧ nd.parent = p ∧
      nd.children = childOffsets (o + 1) a.children ∧ HasRole.role nd.data = a.role := by
  cases a with
  | mk r cs => simpa [ReprN, A11yNode.children, A11yNode.role] using h.1

theorem ReprN_forest [HasRole α] {tree : Arena α} {o : Nat} {p : Option Nat} {a : A11yNode}
    (h : ReprN tree o p a) : ReprF tree (o + 1) o a.children := by
  cases a with
  | mk r cs => simpa [ReprN, A11yNode.children] using h.2

theorem ReprN_parentOf [HasRole α] {tree : Arena α} {o : Nat} {p : Option Nat} {a : A11yNode}
    (h : ReprN tree o p a) : parentOf tree o = p := by
  obtain ⟨nd, hnd, hp, _, _⟩ := ReprN_get? h
  simp [parentOf, hnd, hp]

theorem ReprN_childrenOf [HasRole α] {tree : Arena α} {o : Nat} {p : Option Nat} {a : A11yNode}
    (h : ReprN tree o p a) : childrenOf tree o = childOffsets (o + 1) a.children := by
  obtain ⟨nd, hnd, _, hc, _⟩ := ReprN_get? h
  simp [childrenOf, hnd, hc]

theorem ReprN_roleAt [HasRole α] {tree : Arena α} {o : Nat} {p : Option Nat} {a : A11yNode}
    (h : ReprN tree o p a) : roleAt tree o = some a.role := by
  obtain ⟨nd, hnd, _, _, hr⟩ := ReprN_get? h
  simp [roleAt, hnd, hr]

theorem ReprN_lt_length [HasRole α] {tree : Arena α} {o : Nat} {p : Option Nat} {a : A11yNode}
    (h : ReprN tree o p a) : o < tree.length := by
  obtain ⟨nd, hnd, _, _, _⟩ := ReprN_get? h
  by_contra hlt
  rw [List.getElem?_eq_none (Nat.le_of_not_lt hlt)] at hnd
  exact Option.noConfusion hnd

/-! ## Structural agreement -/

theorem StructAgree_rfl [HasRole α] (t : Arena α) : StructAgree t t :=
  ⟨rfl, fun _ => ⟨rfl, rfl, rfl⟩⟩

theorem StructAgree_trans [HasRole α] {t₁ t₂ t₃ : Arena α}
    (h₁ : StructAgree t₁ t₂) (h₂ : StructAgree t₂ t₃) : StructAgree t₁ t₃ :=
  ⟨h₁.1.trans h₂.1, fun i =>
    ⟨(h₁.2 i).1.trans (h₂.2 i).1, (h₁.2 i).2.1.trans (h₂.2 i).2.1,
      (h₁.2 i).2.2.trans (h₂.2 i).2.2⟩⟩

theorem StructAgree_modifyAt [HasRole α] (t : Arena α) (i : Nat) (f : IndexNode α → IndexNode α)
    (hf : ∀ nd, (f nd).parent = nd.parent ∧ (f nd).children = nd.children ∧
      HasRole.role (f nd).data = HasRole.role nd.data) :
    StructAgree t (modifyAt t i f) := by
  refine ⟨(length_modifyAt t i f).symm, fun j => ?_⟩
  by_cases hj : j = i
  · subst hj
    refine ⟨?_, ?_, ?_⟩ <;>
      · simp only [parentOf, childrenOf, roleAt, get?_modifyAt, if_pos rfl]
        cases t[j]? with
        | none => rfl
        | some nd => simp [(hf nd).1, (hf nd).2.1, (hf nd).2.2]
  · simp [parentOf, childrenOf, roleAt, get?_modifyAt, hj]

theorem descendantsF_agree [HasRole α] {t₁ t₂ : Arena α} (h : StructAgree t₁ t₂) :
    ∀ fuel id, descendantsF t₁ fuel id = descendantsF t₂ fuel id := by
  intro fuel
  induction fuel with
  | zero => intro id; rfl
  | succ f ih =>
    intro id
    simp only [descendantsF, (h.2 id).2.1]
    rw [funext ih]

theorem ancestorsF_agree [HasRole α] {t₁ t₂ : Arena α} (h : StructAgree t₁ t₂) :
    ∀ fuel id, ancestorsF t₁ fuel id = ancestorsF t₂ fuel id := by
  intro fuel
  induction fuel with
  | zero => intro id; rfl
  | succ f ih =>
    intro id
    simp only [ancestorsF, (h.2 id).1]
    cases parentOf t₂ id with
    | none => rfl
    | some p => simp [ih p]

mutual
theorem ReprN_agree [HasRole α] {t₁ t₂ : Arena α} (h : StructAgree t₁ t₂) {o : Nat}
    {p : Option Nat} (a : A11yNode) (hr : ReprN t₁ o p a) : ReprN t₂ o p a :=
  match a with
  | .mk r cs => by
    have hlt : o < t₂.length := h.1 ▸ ReprN_lt_length hr
    obtain ⟨nd₂, hnd₂⟩ : ∃ nd, t₂[o]? = some nd := by
      cases hget : t₂[o]? with
      | none => exact absurd (List.getElem?_eq_none_iff.mp hget) (Nat.not_le_of_lt hlt)
      | some nd => exact ⟨nd, rfl⟩
    refine ⟨⟨nd₂, hnd₂, ?_, ?_, ?_⟩, ?_⟩
    · have := (h.2 o).1
      rw [ReprN_parentOf hr] at this
      simpa [parentOf, hnd₂] using this.symm
    · have := (h.2 o).2.1
      rw [ReprN_childrenOf hr] at this
      simpa [childrenOf, hnd₂, A11yNode.children] using this.symm
    · have := (h.2 o).2.2
      rw [ReprN_roleAt hr] at this
      simpa [roleAt, hnd₂, A11yNode.role] using this.symm
    · exact ReprF_agree h cs (ReprN_forest hr)
theorem ReprF_agree [HasRole α] {t₁ t₂ : Arena α} (h : StructAgree t₁ t₂) {o pid : Nat}
    (cs : List A11yNode) (hr : ReprF t₁ o pid cs) : ReprF t₂ o pid cs :=
  match cs with
  | [] => trivial
  | c :: cs => ⟨ReprN_agree h c hr.1, ReprF_agree h cs hr.2⟩
end

/-! ## Preorder, subtrees and parents in a represented arena -/

theorem A11yNode.sizeF_eq_zero {cs : List A11yNode} (h : A11yNode.sizeF cs = 0) : cs = [] := by
  cases cs with
  | nil => rfl
  | cons c cs =>
    exfalso
    have := c.size_pos
    simp [A11yNode.sizeF] at h
    omega

mutual
theorem descendantsF_Repr [HasRole α] {tree : Arena α} {o : Nat} {p : Option Nat}
    (a : A11yNode) (h : ReprN tree o p a) :
    ∀ fuel, a.size ≤ fuel + 1 → descendantsF tree fuel o = List.range' o a.size :=
  match a with
  | .mk r cs => by
    intro fuel hfuel
    cases fuel with
    | zero =>
      have hsz : A11yNode.sizeF cs = 0 := by
        simp [A11yNode.size] at hfuel
        omega
      have : cs = [] := A11yNode.sizeF_eq_zero hsz
      subst this
      simp [descendantsF, A11yNode.size, A11yNode.sizeF, List.range']
    | succ f =>
      have hch := ReprN_childrenOf h
      simp only [A11yNode.children] at hch
      have hF := descendantsF_ReprF cs (ReprN_forest h) f
        (by simp [A11yNode.size] at hfuel; omega)
      simp only [A11yNode.children] at hF
      simp only [descendantsF, hch, hF]
      have : (A11yNode.mk r cs).size = 1 + A11yNode.sizeF cs := rfl
      rw [this, Nat.add_comm 1 (A11yNode.sizeF cs)]
      simp [List.range'_succ]
theorem descendantsF_ReprF [HasRole α] {tree : Arena α} {o pid : Nat}
    (cs : List A11yNode) (h : ReprF tree o pid cs) :
    ∀ fuel, A11yNode.sizeF cs ≤ fuel + 1 →
      (childOffsets o cs).flatMap (descendantsF tree fuel) = List.range' o (A11yNode.sizeF cs) :=
  match cs with
  | [] => by intro fuel _; simp [childOffsets, A11yNode.sizeF]
  | c :: cs => by
    intro fuel hfuel
    have hszF : A11yNode.sizeF (c :: cs) = c.size + A11yNode.sizeF cs := rfl
    have hc := descendantsF_Repr c h.1 fuel
      (by rw [hszF] at hfuel; omega)
    have hcs := descendantsF_ReprF cs h.2 fuel
      (by rw [hszF] at hfuel; have := c.size_pos; omega)
    simp only [childOffsets, List.flatMap_cons, hc, hcs, hszF]
    rw [List.range'_append_1, Nat.add_comm (A11yNode.sizeF cs) c.size]
theorem nodeAtIdx_Repr [HasRole α] {tree : Arena α} {o : Nat} {p : Option Nat}
    (a : A11yNode) (h : ReprN tree o p a) :
    ∀ d, d < a.size → ∃ p' sub, nodeAtIdx a d = some sub ∧ ReprN tree (o + d) p' sub :=
  match a with
  | .mk r cs => by
    intro d hd
    cases d with
    | zero => exact ⟨p, .mk r cs, rfl, h⟩
    | succ d =>
      have hF := nodeAtIdxF_Repr cs (ReprN_forest h) d
        (by simp [A11yNode.size] at hd; omega)
      obtain ⟨p', sub, hsub, hrepr⟩ := hF
      refine ⟨p', sub, ?_, ?_⟩
      · simpa [nodeAtIdx] using hsub
      · have : o + 1 + d = o + (d + 1) := by omega
        rw [this] at hrepr
        simpa [A11yNode.children] using hrepr
theorem nodeAtIdxF_Repr [HasRole α] {tree : Arena α} {o pid : Nat}
    (cs : List A11yNode) (h : ReprF tree o pid cs) :
    ∀ d, d < A11yNode.sizeF cs →
      ∃ p' sub, nodeAtIdxF cs d = some sub ∧ ReprN tree (o + d) p' sub :=
  match cs with
  | [] => by intro d hd; simp [A11yNode.sizeF] at hd
  | c :: cs => by
    intro d hd
    by_cases hdc : d < c.size
    · obtain ⟨p', sub, hsub, hrepr⟩ := nodeAtIdx_Repr c h.1 d hdc
      exact ⟨p', sub, by simp [nodeAtIdxF, hdc, hsub], hrepr⟩
    · have hd2 : d - c.size < A11yNode.sizeF cs := by
        simp [A11yNode.sizeF] at hd
        omega
      obtain ⟨p', sub, hsub, hrepr⟩ := nodeAtIdxF_Repr cs h.2 (d - c.size) hd2
      refine ⟨p', sub, by simp [nodeAtIdxF, hdc, hsub], ?_⟩
      have : o + c.size + (d - c.size) = o + d := by omega
      rwa [this] at hrepr
end

mutual
theorem parent_bound_N [HasRole α] {tree : Arena α} {o : Nat} {p : Option Nat}
    (a : A11yNode) (h : ReprN tree o p a) :
    ∀ d, 0 < d → d < a.size → ∃ q, parentOf tree (o + d) = some q ∧ o ≤ q ∧ q < o + d :=
  match a with
  | .mk r cs => by
    intro d hd0 hd
    have hF := parent_bound_F cs (ReprN_forest h) (Nat.lt_succ_self o) (d - 1)
      (by simp [A11yNode.size] at hd; omega)
    obtain ⟨q, hq, hq1, hq2⟩ := hF
    have harith : o + 1 + (d - 1) = o + d := by omega
    rw [harith] at hq hq2
    exact ⟨q, by simpa [A11yNode.children] using hq, hq1, hq2⟩
theorem parent_bound_F [HasRole α] {tree : Arena α} {o pid : Nat}
    (cs : List A11yNode) (h : ReprF tree o pid cs) (hpid : pid < o) :
    ∀ d, d < A11yNode.sizeF cs →
      ∃ q, parentOf tree (o + d) = some q ∧ pid ≤ q ∧ q < o + d :=
  match cs with
  | [] => by intro d hd; simp [A11yNode.sizeF] at hd
  | c :: cs => by
    intro d hd
    by_cases hdc : d < c.size
    · cases d with
      | zero =>
        exact ⟨pid, by simpa using ReprN_parentOf h.1, Nat.le_refl _, by omega⟩
      | succ d =>
        obtain ⟨q, hq, hq1, hq2⟩ := parent_bound_N c h.1 (d + 1) (Nat.succ_pos d) hdc
        exact ⟨q, hq, by omega, hq2⟩
    · have hd2 : d - c.size < A11yNode.sizeF cs := by
        simp [A11yNode.sizeF] at hd
        omega
      obtain ⟨q, hq, hq1, hq2⟩ := parent_bound_F cs h.2 (by have := c.size_pos; omega)
        (d - c.size) hd2
      have harith : o + c.size + (d - c.size) = o + d := by omega
      rw [harith] at hq hq2
      exact ⟨q, hq, hq1, hq2⟩
end

/-- In an arena representing a whole tree from slot 0, every stored
parent link strictly decreases: handles are assigned parent-first. -/
theorem parent_lt [HasRole α] {tree : Arena α} {a : A11yNode}
    (h : ReprN tree 0 none a) (hlen : tree.length = a.size) :
    ∀ i q, parentOf tree i = some q → q < i := by
  intro i q hq
  by_cases hi : i < a.size
  · cases i with
    | zero =>
      rw [ReprN_parentOf h] at hq
      exact Option.noConfusion hq
    | succ i =>
      obtain ⟨q', hq', _, hq2⟩ := parent_bound_N a h (i + 1) (Nat.succ_pos i) hi
      simp only [Nat.zero_add] at hq' hq2
      rw [hq] at hq'
      cases hq'
      exact hq2
  · exfalso
    have : tree[i]? = none := List.getElem?_eq_none (by omega)
    simp [parentOf, this] at hq

/-! ## Ancestor chains -/

theorem ancestorsF_fuel (tree : Arena α) (hdec : ∀ i q, parentOf tree i = some q → q < i) :
    ∀ id f₁ f₂, id < f₁ → id < f₂ → ancestorsF tree f₁ id = ancestorsF tree f₂ id := by
  intro id
  induction id using Nat.strong_induction_on with
  | _ id ih =>
    intro f₁ f₂ h₁ h₂
    cases f₁ with
    | zero => omega
    | succ g₁ =>
      cases f₂ with
      | zero => omega
      | succ g₂ =>
        simp only [ancestorsF]
        cases hp : parentOf tree id with
        | none => rfl
        | some p =>
          have hlt := hdec id p hp
          show id :: ancestorsF tree g₁ p = id :: ancestorsF tree g₂ p
          rw [ih p hlt g₁ g₂ (by omega) (by omega)]

mutual
theorem ancChar_N [HasRole α] {tree : Arena α} {o : Nat} {p : Option Nat}
    (a : A11yNode) (h : ReprN tree o p a) (K : List Nat)
    (hanc : ∀ f, o < f → ancestorsF tree f o = o :: K) :
    ∀ d, d < a.size → ∀ f, o + d < f → ancestorsF tree f (o + d) = ancIn o a d ++ K :=
  match a with
  | .mk r cs => by
    intro d hd f hf
    cases d with
    | zero => simpa [ancIn] using hanc f (by omega)
    | succ d =>
      have hF := ancChar_F cs (ReprN_forest h) (Nat.lt_succ_self o) K hanc d
        (by simp [A11yNode.size] at hd; omega) f (by omega)
      simp only [A11yNode.children] at hF
      have harith : o + 1 + d = o + (d + 1) := by omega
      rw [harith] at hF
      rw [hF]
      simp [ancIn]
theorem ancChar_F [HasRole α] {tree : Arena α} {o pid : Nat}
    (cs : List A11yNode) (h : ReprF tree o pid cs) (hpid : pid < o) (K : List Nat)
    (hanc : ∀ f, pid < f → ancestorsF tree f pid = pid :: K) :
    ∀ d, d < A11yNode.sizeF cs → ∀ f, o + d < f →
      ancestorsF tree f (o + d) = ancInF o cs d ++ (pid :: K) :=
  match cs with
  | [] => by intro d hd; simp [A11yNode.sizeF] at hd
  | c :: cs => by
    intro d hd f hf
    by_cases hdc : d < c.size
    · have hanc' : ∀ f, o < f → ancestorsF tree f o = o :: (pid :: K) := by
        intro f hof
        cases f with
        | zero => omega
        | succ g =>
          simp only [ancestorsF, ReprN_parentOf h.1]
          rw [hanc g (by omega)]
      have := ancChar_N c h.1 (pid :: K) hanc' d hdc f hf
      rw [this]
      simp [ancInF, hdc]
    · have hd2 : d - c.size < A11yNode.sizeF cs := by
        simp [A11yNode.sizeF] at hd
        omega
      have := ancChar_F cs h.2 (by have := c.size_pos; omega) K hanc (d - c.size) hd2 f
        (by omega)
      have harith : o + c.size + (d - c.size) = o + d := by omega
      rw [harith] at this
      rw [this]
      simp [ancInF, hdc]
end

/-- In an arena representing a whole tree, the `ancestors` iterator of
node `d` (for any sufficient fuel) is the structural ancestor chain. -/
theorem ancestorsF_char [HasRole α] {tree : Arena α} {a : A11yNode}
    (h : ReprN tree 0 none a) :
    ∀ d, d < a.size → ∀ f, d < f → ancestorsF tree f d = ancIn 0 a d := by
  intro d hd f hf
  have hanc : ∀ f, 0 < f → ancestorsF tree f 0 = 0 :: [] := by
    intro f h0
    cases f with
    | zero => omega
    | succ g => simp [ancestorsF, ReprN_parentOf h]
  have := ancChar_N a h [] hanc d hd f (by omega)
  simpa using this

/-! ## Pure facts about preorder indices -/

mutual
theorem nodeAtIdx_fits (a : A11yNode) :
    ∀ d s, nodeAtIdx a d = some s → d + s.size ≤ a.size :=
  match a with
  | .mk r cs => by
    intro d s hs
    cases d with
    | zero =>
      simp only [nodeAtIdx] at hs
      cases hs
      omega
    | succ d =>
      simp only [nodeAtIdx] at hs
      have := nodeAtIdxF_fits cs d s hs
      simp only [A11yNode.size]
      omega
theorem nodeAtIdxF_fits (cs : List A11yNode) :
    ∀ d s, nodeAtIdxF cs d = some s → d + s.size ≤ A11yNode.sizeF cs :=
  match cs with
  | [] => by intro d s hs; simp [nodeAtIdxF] at hs
  | c :: cs => by
    intro d s hs
    simp only [nodeAtIdxF] at hs
    by_cases hdc : d < c.size
    · rw [if_pos hdc] at hs
      have := nodeAtIdx_fits c d s hs
      simp only [A11yNode.sizeF]
      omega
    · rw [if_neg hdc] at hs
      have := nodeAtIdxF_fits cs (d - c.size) s hs
      simp only [A11yNode.sizeF]
      omega
end

mutual
theorem nodeAtIdx_compose (a : A11yNode) :
    ∀ m sm, nodeAtIdx a m = some sm → ∀ d, d < sm.size →
      nodeAtIdx a (m + d) = nodeAtIdx sm d :=
  match a with
  | .mk r cs => by
    intro m sm hm d hd
    cases m with
    | zero =>
      simp only [nodeAtIdx] at hm
      cases hm
      rw [Nat.zero_add]
    | succ m =>
      simp only [nodeAtIdx] at hm
      have := nodeAtIdxF_compose cs m sm hm d hd
      have harith : m + 1 + d = (m + d) + 1 := by omega
      rw [harith]
      simpa [nodeAtIdx] using this
theorem nodeAtIdxF_compose (cs : List A11yNode) :
    ∀ m sm, nodeAtIdxF cs m = some sm → ∀ d, d < sm.size →
      nodeAtIdxF cs (m + d) = nodeAtIdx sm d :=
  match cs with
  | [] => by intro m sm hm; simp [nodeAtIdxF] at hm
  | c :: cs => by
    intro m sm hm d hd
    simp only [nodeAtIdxF] at hm ⊢
    by_cases hmc : m < c.size
    · rw [if_pos hmc] at hm
      have hfit := nodeAtIdx_fits c m sm hm
      rw [if_pos (by omega)]
      exact nodeAtIdx_compose c m sm hm d hd
    · rw [if_neg hmc] at hm
      rw [if_neg (by omega)]
      have := nodeAtIdxF_compose cs (m - c.size) sm hm d hd
      have harith : m + d - c.size = m - c.size + d := by omega
      rw [harith]
      exact this
end

mutual
theorem mem_ancIn (a : A11yNode) :
    ∀ d, d < a.size → ∀ o m,
      (m ∈ ancIn o a d ↔
        ∃ m', m = o + m' ∧ m' ≤ d ∧ ∃ sm, nodeAtIdx a m' = some sm ∧ d < m' + sm.size) :=
  match a with
  | .mk r cs => by
    intro d hd o m
    cases d with
    | zero =>
      simp only [ancIn, List.mem_singleton]
      constructor
      · rintro rfl
        exact ⟨0, by omega, Nat.le_refl _, .mk r cs, rfl, by have := (A11yNode.mk r cs).size_pos; omega⟩
      · rintro ⟨m', hm, hm0, _, _, _⟩
        omega
    | succ d =>
      have hdF : d < A11yNode.sizeF cs := by simp [A11yNode.size] at hd; omega
      simp only [ancIn, List.mem_append, List.mem_singleton]
      rw [mem_ancInF cs d hdF (o + 1) m]
      constructor
      · rintro (⟨m', rfl, hm', sm, hsm, hsz⟩ | rfl)
        · exact ⟨m' + 1, by omega, by omega, sm, by simpa [nodeAtIdx] using hsm, by omega⟩
        · exact ⟨0, by omega, by omega, .mk r cs, rfl, by
            have : (A11yNode.mk r cs).size = 1 + A11yNode.sizeF cs := rfl
            omega⟩
      · rintro ⟨m', rfl, hm', sm, hsm, hsz⟩
        cases m' with
        | zero => exact Or.inr (by omega)
        | succ m' =>
          left
          exact ⟨m', by omega, by omega, sm, by simpa [nodeAtIdx] using hsm, by omega⟩
theorem mem_ancInF (cs : List A11yNode) :
    ∀ d, d < A11yNode.sizeF cs → ∀ o m,
      (m ∈ ancInF o cs d ↔
        ∃ m', m = o + m' ∧ m' ≤ d ∧ ∃ sm, nodeAtIdxF cs m' = some sm ∧ d < m' + sm.size) :=
  match cs with
  | [] => by intro d hd; simp [A11yNode.sizeF] at hd
  | c :: cs => by
    intro d hd o m
    by_cases hdc : d < c.size
    · simp only [ancInF, if_pos hdc]
      rw [mem_ancIn c d hdc o m]
      constructor
      · rintro ⟨m', rfl, hm', sm, hsm, hsz⟩
        exact ⟨m', rfl, hm', sm, by simp [nodeAtIdxF, if_pos (by omega : m' < c.size), hsm], hsz⟩
      · rintro ⟨m', rfl, hm', sm, hsm, hsz⟩
        simp only [nodeAtIdxF, if_pos (by omega : m' < c.size)] at hsm
        exact ⟨m', rfl, hm', sm, hsm, hsz⟩
    · have hd2 : d - c.size < A11yNode.sizeF cs := by
        simp [A11yNode.sizeF] at hd
        omega
      simp only [ancInF, if_neg hdc]
      rw [mem_ancInF cs (d - c.size) hd2 (o + c.size) m]
      constructor
      · rintro ⟨m', rfl, hm', sm, hsm, hsz⟩
        refine ⟨c.size + m', by omega, by omega, sm, ?_, by omega⟩
        simp only [nodeAtIdxF, if_neg (by omega : ¬ c.size + m' < c.size)]
        have harith : c.size + m' - c.size = m' := by omega
        rw [harith]
        exact hsm
      · rintro ⟨m', rfl, hm', sm, hsm, hsz⟩
        by_cases hmc : m' < c.size
        · exfalso
          simp only [nodeAtIdxF, if_pos hmc] at hsm
          have := nodeAtIdx_fits c m' sm hsm
          omega
        · simp only [nodeAtIdxF, if_neg hmc] at hsm
          refine ⟨m' - c.size, by omega, by omega, sm, hsm, by omega⟩
end

/-! ## Small facts about rolesets -/

theorem foldl_or_eq (acc : RoleSet) (l : List RoleSet) :
    l.foldl (· ||| ·) acc = acc ||| orAll l := by
  induction l generalizing acc with
  | nil => simp [orAll]
  | cons x l ih =>
    simp only [List.foldl_cons, orAll] at *
    rw [ih (acc ||| x), ih (0 ||| x), Nat.zero_or, Nat.or_assoc]

theorem orAll_append (l₁ l₂ : List RoleSet) : orAll (l₁ ++ l₂) = orAll l₁ ||| orAll l₂ := by
  simp only [orAll, List.foldl_append]
  rw [foldl_or_eq (List.foldl (· ||| ·) 0 l₁) l₂]
  rfl

theorem orAll_testBit (l : List RoleSet) (i : Nat) :
    (orAll l).testBit i = true ↔ ∃ s ∈ l, s.testBit i = true := by
  induction l with
  | nil => simp [orAll]
  | cons x l ih =>
    have : orAll (x :: l) = x ||| orAll l := by
      simp only [orAll, List.foldl_cons]
      rw [foldl_or_eq (0 ||| x) l, Nat.zero_or]
      rfl
    rw [this]
    rw [Nat.testBit_or]
    simp only [List.mem_cons, Bool.or_eq_true]
    constructor
    · rintro (h | h)
      · exact ⟨x, Or.inl rfl, h⟩
      · obtain ⟨s, hs, hb⟩ := ih.mp h
        exact ⟨s, Or.inr hs, hb⟩
    · rintro ⟨s, rfl | hs, hb⟩
      · exact Or.inl hb
      · exact Or.inr (ih.mpr ⟨s, hs, hb⟩)

theorem or_absorb (x b : RoleSet) : x ||| b ||| b = x ||| b := by
  rw [Nat.or_assoc, Nat.or_self]

theorem containsRS_single (s : RoleSet) (r : Role) :
    RoleSet.containsRS s (roleToSet r) = true ↔ s.testBit r = true := by
  simp only [RoleSet.containsRS, roleToSet, beq_iff_eq]
  constructor
  · intro h
    have := congrArg (fun x => x.testBit r) h
    simp only [Nat.testBit_and, Nat.testBit_two_pow] at this
    simpa using this
  · intro h
    apply Nat.eq_of_testBit_eq
    intro i
    by_cases hir : r = i
    · subst hir
      simp [Nat.testBit_and, Nat.testBit_two_pow, h]
    · simp [Nat.testBit_and, Nat.testBit_two_pow, hir]

/-! ## Ancestor chain membership bounds -/

theorem mem_ancestorsF_le (tree : Arena α) (hdec : ∀ i q, parentOf tree i = some q → q < i) :
    ∀ f k m, m ∈ ancestorsF tree f k → m ≤ k := by
  intro f
  induction f with
  | zero => intro k m hm; simp [ancestorsF] at hm
  | succ f ih =>
    intro k m hm
    simp only [ancestorsF] at hm
    rcases List.mem_cons.mp hm with rfl | hm
    · exact Nat.le_refl _
    · cases hp : parentOf tree k with
      | none => rw [hp] at hm; simp at hm
      | some p =>
        rw [hp] at hm
        exact Nat.le_of_lt (Nat.lt_of_le_of_lt (ih p m hm) (hdec k p hp))

theorem self_mem_ancestorsF (tree : Arena α) (f k : Nat) (hf : 0 < f) :
    k ∈ ancestorsF tree f k := by
  cases f with
  | zero => omega
  | succ f => simp [ancestorsF]

/-! ## Payloads of a freshly built arena -/

mutual
theorem mem_blockN (init : Role → α) (o : Nat) (p : Option Nat) (a : A11yNode) :
    ∀ nd ∈ blockN init o p a, ∃ r, nd.data = init r :=
  match a with
  | .mk r cs => by
    intro nd hnd
    simp only [blockN, List.mem_cons] at hnd
    rcases hnd with rfl | hnd
    · exact ⟨r, rfl⟩
    · exact mem_blockF init (o + 1) o cs nd hnd
theorem mem_blockF (init : Role → α) (o pid : Nat) (cs : List A11yNode) :
    ∀ nd ∈ blockF init o pid cs, ∃ r, nd.data = init r :=
  match cs with
  | [] => by intro nd hnd; simp [blockF] at hnd
  | c :: cs => by
    intro nd hnd
    simp only [blockF, List.mem_append] at hnd
    rcases hnd with hnd | hnd
    · exact mem_blockN init o (some pid) c nd hnd
    · exact mem_blockF init (o + c.size) pid cs nd hnd
end

theorem rolesetAt_from_root (a : A11yNode) (m : Nat) :
    rolesetAt (Tree.from_root_node a).inner m = 0 := by
  rw [from_root_node_eq]
  simp only [rolesetAt]
  cases hm : (blockN (fun r => Node.mk r 0) 0 none a)[m]? with
  | none => rfl
  | some nd =>
    obtain ⟨r, hr⟩ := mem_blockN _ 0 none a nd (List.getElem?_mem hm)
    simp [hr]
    rfl

theorem rolesetAt_from_root_count (a : A11yNode) (m : Nat) :
    rolesetAt (TreeCount.from_root_node a).inner m = 0 := by
  rw [from_root_node_count_eq]
  simp only [rolesetAt]
  cases hm : (blockN (fun r => NodeCount.mk r RoleSetVecCount.empty) 0 none a)[m]? with
  | none => rfl
  | some nd =>
    obtain ⟨r, hr⟩ := mem_blockN _ 0 none a nd (List.getElem?_mem hm)
    simp [hr]
    rfl

/-! ## How the index build rewrites the summaries, slot by slot -/

theorem rolesetAt_modify_gen [HasRole α] (ar : Arena α) (i m : Nat)
    (f : IndexNode α → IndexNode α) (v : RoleSet)
    (hv : ∀ nd, ar[i]? = some nd →
      HasRole.roleset (f nd).data = HasRole.roleset nd.data ||| v)
    (hi : i < ar.length) :
    rolesetAt (modifyAt ar i f) m = rolesetAt ar m ||| (if m = i then v else 0) := by
  simp only [rolesetAt, get?_modifyAt]
  by_cases hmi : m = i
  · subst hmi
    simp only [if_pos rfl]
    cases hm : ar[m]? with
    | none => exact absurd (List.getElem?_eq_none_iff.mp hm) (Nat.not_le_of_lt hi)
    | some nd => simp [hv nd hm]
  · simp [hmi]

theorem rolesetAt_foldl_gen [HasRole α] (l : List Nat) (ar : Arena α)
    (f : IndexNode α → IndexNode α) (v : RoleSet)
    (hv : ∀ nd, HasRole.roleset (f nd).data = HasRole.roleset nd.data ||| v) (m : Nat)
    (hvalid : ∀ x ∈ l, x < ar.length) :
    rolesetAt (l.foldl (fun ar2 anc_id => modifyAt ar2 anc_id f) ar) m
      = rolesetAt ar m ||| (if m ∈ l then v else 0) := by
  induction l generalizing ar with
  | nil => simp
  | cons x l ih =>
    simp only [List.foldl_cons]
    rw [ih _ (fun y hy => by rw [length_modifyAt]; exact hvalid y (List.mem_cons_of_mem x hy))]
    rw [rolesetAt_modify_gen ar x m f v (fun nd _ => hv nd) (hvalid x (List.mem_cons_self x l))]
    by_cases hmx : m = x
    · subst hmx
      by_cases hml : m ∈ l <;>
        simp [hml, List.mem_cons, Nat.or_assoc, Nat.or_self, Nat.or_zero]
    · by_cases hml : m ∈ l <;> simp [hmx, hml, List.mem_cons, Nat.or_zero]

theorem StructAgree_foldl_modify [HasRole α] (l : List Nat) (ar : Arena α)
    (f : IndexNode α → IndexNode α)
    (hf : ∀ nd, (f nd).parent = nd.parent ∧ (f nd).children = nd.children ∧
      HasRole.role (f nd).data = HasRole.role nd.data) :
    StructAgree ar (l.foldl (fun ar2 anc_id => modifyAt ar2 anc_id f) ar) := by
  induction l generalizing ar with
  | nil => exact StructAgree_rfl ar
  | cons x l ih =>
    simp only [List.foldl_cons]
    exact StructAgree_trans (StructAgree_modifyAt ar x f hf) (ih _)

/-- One step of `Tree::build_rolesets`, on an arena that agrees with the
fresh arena and whose slot `k` still has an empty summary: it ors the
node's role bit into the summary of every node on `k`'s ancestor chain
(`k` itself included) and touches nothing else. -/
theorem Tree_buildStep_char {tree₀ : Arena Node} {a : A11yNode}
    (h₀ : ReprN tree₀ 0 none a) (hlen : tree₀.length = a.size)
    (ar : Arena Node) (k : Nat) (hag : StructAgree tree₀ ar) (hk : k < a.size)
    (hk0 : rolesetAt ar k = 0) :
    StructAgree tree₀ (Tree.buildStep ar k) ∧
      ∀ m, rolesetAt (Tree.buildStep ar k) m = rolesetAt ar m |||
        (if m ∈ ancestorsF tree₀ tree₀.length k
         then (roleAt tree₀ k).elim 0 roleToSet else 0) := by
  have hklen : k < ar.length := by rw [← hag.1, hlen]; exact hk
  obtain ⟨p', sub, hsub, hrepr0⟩ := nodeAtIdx_Repr a h₀ k hk
  rw [Nat.zero_add] at hrepr0
  have hrole0 : roleAt tree₀ k = some sub.role := ReprN_roleAt hrepr0
  have hrole : roleAt ar k = some sub.role := by rw [← (hag.2 k).2.2]; exact hrole0
  simp only [Tree.buildStep]
  set ar1 := modifyAt ar k
    (fun nd => { nd with data := { nd.data with
      roleset := nd.data.roleset ||| roleToSet nd.data.role } }) with har1
  have hag1 : StructAgree tree₀ ar1 :=
    StructAgree_trans hag (StructAgree_modifyAt ar k _ (fun nd => ⟨rfl, rfl, rfl⟩))
  have hrs1 : ∀ m, rolesetAt ar1 m = rolesetAt ar m ||| (if m = k then roleToSet sub.role else 0) := by
    intro m
    rw [har1]
    apply rolesetAt_modify_gen ar k m _ (roleToSet sub.role) _ hklen
    intro nd hnd
    have hr : nd.data.role = sub.role := by
      have h2 := hrole
      simp only [roleAt, hnd, Option.map_some'] at h2
      have h3 : HasRole.role nd.data = sub.role := Option.some_injective _ h2
      exact h3
    show nd.data.roleset ||| roleToSet nd.data.role = nd.data.roleset ||| roleToSet sub.role
    rw [hr]
  have hsnap : rolesetAt ar1 k = roleToSet sub.role := by
    rw [hrs1 k, hk0, if_pos rfl, Nat.zero_or]
  have hancs : ancestorsF ar1 ar1.length k = ancestorsF tree₀ tree₀.length k := by
    rw [hag1.1]
    exact (ancestorsF_agree hag1 ar1.length k).symm
  have hdec := parent_lt h₀ hlen
  have hvalid : ∀ x ∈ ancestorsF ar1 ar1.length k, x < ar1.length := by
    intro x hx
    rw [hancs] at hx
    have := mem_ancestorsF_le tree₀ hdec tree₀.length k x hx
    rw [← hag1.1, hlen]
    omega
  have hself : k ∈ ancestorsF tree₀ tree₀.length k := by
    apply self_mem_ancestorsF
    rw [hlen]
    have := a.size_pos
    omega
  constructor
  · exact StructAgree_trans hag1 (StructAgree_foldl_modify _ ar1 _ (fun nd => ⟨rfl, rfl, rfl⟩))
  · intro m
    rw [rolesetAt_foldl_gen _ ar1 _ (rolesetAt ar1 k) (fun nd => rfl) m hvalid]
    rw [hancs, hsnap, hrs1 m, hrole0]
    simp only [Option.elim]
    by_cases hmk : m = k
    · subst hmk
      simp [hself, or_absorb]
    · simp [hmk]

/-- One step of `TreeCount::build_rolesets`: at the roleset level it ors
the node's role bit into every summary on the ancestor chain, exactly as
the boolean flavor does (the counter part is not constrained here). -/
theorem TreeCount_buildStep_char {tree₀ : Arena NodeCount} {a : A11yNode}
    (h₀ : ReprN tree₀ 0 none a) (hlen : tree₀.length = a.size)
    (ar : Arena NodeCount) (k : Nat) (hag : StructAgree tree₀ ar) (hk : k < a.size)
    (hk0 : rolesetAt ar k = 0) :
    StructAgree tree₀ (TreeCount.buildStep ar k) ∧
      ∀ m, rolesetAt (TreeCount.buildStep ar k) m = rolesetAt ar m |||
        (if m ∈ ancestorsF tree₀ tree₀.length k
         then (roleAt tree₀ k).elim 0 roleToSet else 0) := by
  have hklen : k < ar.length := by rw [← hag.1, hlen]; exact hk
  obtain ⟨p', sub, hsub, hrepr0⟩ := nodeAtIdx_Repr a h₀ k hk
  rw [Nat.zero_add] at hrepr0
  have hrole0 : roleAt tree₀ k = some sub.role := ReprN_roleAt hrepr0
  have hrole : roleAt ar k = some sub.role := by rw [← (hag.2 k).2.2]; exact hrole0
  simp only [TreeCount.buildStep]
  set ar1 := modifyAt ar k
    (fun nd => { nd with data := { nd.data with
      roleset := nd.data.roleset.add nd.data.role } }) with har1
  have hag1 : StructAgree tree₀ ar1 :=
    StructAgree_trans hag (StructAgree_modifyAt ar k _ (fun nd => ⟨rfl, rfl, rfl⟩))
  have hrs1 : ∀ m, rolesetAt ar1 m = rolesetAt ar m ||| (if m = k then roleToSet sub.role else 0) := by
    intro m
    rw [har1]
    apply rolesetAt_modify_gen ar k m _ (roleToSet sub.role) _ hklen
    intro nd hnd
    have hr : nd.data.role = sub.role := by
      have h2 := hrole
      simp only [roleAt, hnd, Option.map_some'] at h2
      have h3 : HasRole.role nd.data = sub.role := Option.some_injective _ h2
      exact h3
    show (nd.data.roleset.add nd.data.role).set = nd.data.roleset.set ||| roleToSet sub.role
    rw [RoleSetVecCount.add, hr]
  have hleafrole : (ar1[k]?.map (fun nd => nd.data.role)).getD 0 = sub.role := by
    rw [har1, get?_modifyAt, if_pos rfl]
    cases hm : ar[k]? with
    | none => exact absurd (List.getElem?_eq_none_iff.mp hm) (Nat.not_le_of_lt hklen)
    | some nd =>
      have hr : nd.data.role = sub.role := by
        have h2 := hrole
        simp only [roleAt, hm, Option.map_some'] at h2
        have h3 : HasRole.role nd.data = sub.role := Option.some_injective _ h2
        exact h3
      simp [hr]
  have hancs : ancestorsF ar1 ar1.length k = ancestorsF tree₀ tree₀.length k := by
    rw [hag1.1]
    exact (ancestorsF_agree hag1 ar1.length k).symm
  have hdec := parent_lt h₀ hlen
  have hvalid : ∀ x ∈ ancestorsF ar1 ar1.length k, x < ar1.length := by
    intro x hx
    rw [hancs] at hx
    have := mem_ancestorsF_le tree₀ hdec tree₀.length k x hx
    rw [← hag1.1, hlen]
    omega
  have hself : k ∈ ancestorsF tree₀ tree₀.length k := by
    apply self_mem_ancestorsF
    rw [hlen]
    have := a.size_pos
    omega
  constructor
  · exact StructAgree_trans hag1 (StructAgree_foldl_modify _ ar1 _ (fun nd => ⟨rfl, rfl, rfl⟩))
  · intro m
    rw [rolesetAt_foldl_gen _ ar1 _
      (roleToSet ((ar1[k]?.map (fun nd => nd.data.role)).getD 0))
      (fun nd => by rw [RoleSetVecCount.add]; rfl) m hvalid]
    rw [hancs, hleafrole, hrs1 m, hrole0]
    simp only [Option.elim]
    by_cases hmk : m = k
    · subst hmk
      simp [hself, or_absorb]
    · simp [hmk]

/-- The invariant the index build maintains over its outer loop: after
the nodes `0, …, K-1` have been processed, node `m`'s summary is the
union of the role bits of the processed nodes whose ancestor chain
contains `m`, and the arena still agrees structurally with the fresh
arena. -/
theorem build_fold_char [HasRole α] {tree₀ : Arena α} {a : A11yNode}
    (h₀ : ReprN tree₀ 0 none a) (hlen : tree₀.length = a.size)
    (hrs0 : ∀ m, rolesetAt tree₀ m = 0)
    (step : Arena α → Nat → Arena α)
    (hstep : ∀ ar k, StructAgree tree₀ ar → k < a.size → rolesetAt ar k = 0 →
      StructAgree tree₀ (step ar k) ∧
        ∀ m, rolesetAt (step ar k) m = rolesetAt ar m |||
          (if m ∈ ancestorsF tree₀ tree₀.length k then (roleAt tree₀ k).elim 0 roleToSet else 0)) :
    ∀ K, K ≤ a.size →
      StructAgree tree₀ ((List.range K).foldl step tree₀) ∧
      ∀ m, rolesetAt ((List.range K).foldl step tree₀) m =
        orAll (((List.range K).filter (fun d => m ∈ ancestorsF tree₀ tree₀.length d)).map
          (fun d => (roleAt tree₀ d).elim 0 roleToSet)) := by
  intro K
  induction K with
  | zero =>
    intro _
    exact ⟨StructAgree_rfl tree₀, fun m => by simp [hrs0 m, orAll]⟩
  | succ K ih =>
    intro hK
    obtain ⟨ihag, ihrs⟩ := ih (by omega)
    have hdec := parent_lt h₀ hlen
    have hK0 : rolesetAt ((List.range K).foldl step tree₀) K = 0 := by
      rw [ihrs K]
      have hfilter : (List.range K).filter
          (fun d => K ∈ ancestorsF tree₀ tree₀.length d) = [] := by
        apply List.filter_eq_nil_iff.mpr
        intro d hd
        simp only [decide_eq_true_eq]
        intro hmem
        have := mem_ancestorsF_le tree₀ hdec tree₀.length d K hmem
        have := List.mem_range.mp hd
        omega
      rw [hfilter]
      simp [orAll]
    obtain ⟨hag', hrs'⟩ := hstep _ K ihag (by omega) hK0
    have hr : List.range (K + 1) = List.range K ++ [K] := by
      exact List.range_succ K
    constructor
    · rw [hr, List.foldl_append]
      exact hag'
    · intro m
      rw [hr, List.foldl_append]
      simp only [List.foldl_cons, List.foldl_nil]
      rw [hrs' m, ihrs m]
      rw [List.filter_append, List.map_append, orAll_append]
      congr 1
      by_cases hmk : m ∈ ancestorsF tree₀ tree₀.length K <;>
        simp [hmk, orAll]

mutual
theorem nodeAtIdx_ge (a : A11yNode) : ∀ d, a.size ≤ d → nodeAtIdx a d = none :=
  match a with
  | .mk r cs => by
    intro d hd
    cases d with
    | zero =>
      exfalso
      have := (A11yNode.mk r cs).size_pos
      omega
    | succ d =>
      have : A11yNode.sizeF cs ≤ d := by
        simp only [A11yNode.size] at hd
        omega
      simpa [nodeAtIdx] using nodeAtIdxF_ge cs d this
theorem nodeAtIdxF_ge (cs : List A11yNode) : ∀ d, A11yNode.sizeF cs ≤ d → nodeAtIdxF cs d = none :=
  match cs with
  | [] => by intro d _; rfl
  | c :: cs => by
    intro d hd
    simp only [A11yNode.sizeF] at hd
    have h1 : ¬ d < c.size := by have := c.size_pos; omega
    simp only [nodeAtIdxF, if_neg h1]
    exact nodeAtIdxF_ge cs (d - c.size) (by omega)
end

/-- After the index build's outer fold over all preorder ids, a bit `rr`
is set in node `m`'s summary exactly when some node of `m`'s subtree
(the preorder interval starting at `m`) has role `rr`. -/
theorem built_roleset_char [HasRole α] {tree₀ : Arena α} {a : A11yNode}
    (h₀ : ReprN tree₀ 0 none a) (hlen : tree₀.length = a.size)
    (hrs0 : ∀ m, rolesetAt tree₀ m = 0)
    (step : Arena α → Nat → Arena α)
    (hstep : ∀ ar k, StructAgree tree₀ ar → k < a.size → rolesetAt ar k = 0 →
      StructAgree tree₀ (step ar k) ∧
        ∀ m, rolesetAt (step ar k) m = rolesetAt ar m |||
          (if m ∈ ancestorsF tree₀ tree₀.length k then (roleAt tree₀ k).elim 0 roleToSet else 0))
    (m rr : Nat) :
    (rolesetAt ((List.range a.size).foldl step tree₀) m).testBit rr = true ↔
      ∃ d sm, m ≤ d ∧ d < m + subSize a m ∧ nodeAtIdx a d = some sm ∧ sm.role = rr := by
  obtain ⟨-, hrs⟩ := build_fold_char h₀ hlen hrs0 step hstep a.size (Nat.le_refl _)
  rw [hrs m, orAll_testBit]
  constructor
  · rintro ⟨s, hs, hbit⟩
    obtain ⟨d, hdf, rfl⟩ := List.mem_map.mp hs
    have hdr := List.mem_filter.mp hdf
    have hd_n : d < a.size := List.mem_range.mp hdr.1
    have hd_anc : m ∈ ancestorsF tree₀ tree₀.length d := by
      have := hdr.2
      simpa using this
    obtain ⟨p', sub, hsub, hrepr⟩ := nodeAtIdx_Repr a h₀ d hd_n
    rw [Nat.zero_add] at hrepr
    have hrole : roleAt tree₀ d = some sub.role := ReprN_roleAt hrepr
    rw [hrole] at hbit
    simp only [Option.elim, roleToSet, Nat.testBit_two_pow, decide_eq_true_eq] at hbit
    have hmem2 : m ∈ ancIn 0 a d := by
      rw [← ancestorsF_char h₀ d hd_n tree₀.length (by omega)]
      exact hd_anc
    obtain ⟨m', hm', hm'd, sm, hsm, hsz⟩ := (mem_ancIn a d hd_n 0 m).mp hmem2
    rw [Nat.zero_add] at hm'
    subst hm'
    refine ⟨d, sub, hm'd, ?_, hsub, hbit⟩
    simp [subSize, hsm]
    omega
  · rintro ⟨d, sm_d, h_le, h_lt, h_idx, h_role⟩
    have hmm : ∃ sm_m, nodeAtIdx a m = some sm_m := by
      cases hb : nodeAtIdx a m with
      | none => exfalso; rw [subSize, hb] at h_lt; simp at h_lt; omega
      | some x => exact ⟨x, rfl⟩
    obtain ⟨sm_m, hsm_m⟩ := hmm
    have hsub_sz : subSize a m = sm_m.size := by simp [subSize, hsm_m]
    rw [hsub_sz] at h_lt
    have hm_n : m < a.size := by
      by_contra hge
      rw [nodeAtIdx_ge a m (by omega)] at hsm_m
      exact Option.noConfusion hsm_m
    have hd_n : d < a.size := by
      have := nodeAtIdx_fits a m sm_m hsm_m
      omega
    have hd_anc : m ∈ ancestorsF tree₀ tree₀.length d := by
      rw [ancestorsF_char h₀ d hd_n tree₀.length (by omega)]
      exact (mem_ancIn a d hd_n 0 m).mpr ⟨m, (Nat.zero_add m).symm, h_le, sm_m, hsm_m, h_lt⟩
    obtain ⟨p', sub, hsub, hrepr⟩ := nodeAtIdx_Repr a h₀ d hd_n
    rw [Nat.zero_add] at hrepr
    have hsub_eq : sub = sm_d := by
      rw [hsub] at h_idx
      exact Option.some_injective _ h_idx
    have hrole : roleAt tree₀ d = some sub.role := ReprN_roleAt hrepr
    refine ⟨(roleAt tree₀ d).elim 0 roleToSet, ?_, ?_⟩
    · exact List.mem_map.mpr ⟨d, List.mem_filter.mpr
        ⟨List.mem_range.mpr hd_n, by simpa using hd_anc⟩, rfl⟩
    · rw [hrole]
      simp [Option.elim, roleToSet, Nat.testBit_two_pow, hsub_eq, h_role]

theorem Tree_build_inner (a : A11yNode) :
    (Tree.build_rolesets (Tree.from_root_node a)).inner
      = (List.range a.size).foldl Tree.buildStep (Tree.from_root_node a).inner := by
  have hroot : (Tree.from_root_node a).root = 0 := by rw [from_root_node_eq]
  have hlen := length_from_root_node a
  simp only [Tree.build_rolesets]
  rw [hroot]
  rw [descendantsF_Repr a (Repr_from_root_node a) _ (by rw [hlen]; omega)]
  rw [List.range_eq_range']

theorem TreeCount_build_inner (a : A11yNode) :
    (TreeCount.build_rolesets (TreeCount.from_root_node a)).inner
      = (List.range a.size).foldl TreeCount.buildStep (TreeCount.from_root_node a).inner := by
  have hroot : (TreeCount.from_root_node a).root = 0 := by rw [from_root_node_count_eq]
  have hlen := length_from_root_node_count a
  simp only [TreeCount.build_rolesets]
  rw [hroot]
  rw [descendantsF_Repr a (Repr_from_root_node_count a) _ (by rw [hlen]; omega)]
  rw [List.range_eq_range']

/-- `Tree::build_rolesets` leaves the structure (parents, children,
roles) untouched. -/
theorem Tree_build_agree (a : A11yNode) :
    StructAgree (Tree.from_root_node a).inner
      (Tree.build_rolesets (Tree.from_root_node a)).inner := by
  rw [Tree_build_inner]
  exact (build_fold_char (Repr_from_root_node a) (length_from_root_node a)
    (rolesetAt_from_root a) Tree.buildStep
    (fun ar k hag hk hk0 => Tree_buildStep_char (Repr_from_root_node a)
      (length_from_root_node a) ar k hag hk hk0) a.size (Nat.le_refl _)).1

/-- `TreeCount::build_rolesets` leaves the structure untouched. -/
theorem TreeCount_build_agree (a : A11yNode) :
    StructAgree (TreeCount.from_root_node a).inner
      (TreeCount.build_rolesets (TreeCount.from_root_node a)).inner := by
  rw [TreeCount_build_inner]
  exact (build_fold_char (Repr_from_root_node_count a) (length_from_root_node_count a)
    (rolesetAt_from_root_count a) TreeCount.buildStep
    (fun ar k hag hk hk0 => TreeCount_buildStep_char (Repr_from_root_node_count a)
      (length_from_root_node_count a) ar k hag hk hk0) a.size (Nat.le_refl _)).1

/-- The boolean index invariant: after `build_rolesets`, bit `rr` is set
in node `m`'s roleset exactly when some node of `m`'s subtree (the
preorder interval starting at `m`) has role `rr`. -/
theorem Tree_roleset_subtree (a : A11yNode) (m rr : Nat) :
    (rolesetAt (Tree.build_rolesets (Tree.from_root_node a)).inner m).testBit rr = true ↔
      ∃ d sm, m ≤ d ∧ d < m + subSize a m ∧ nodeAtIdx a d = some sm ∧ sm.role = rr := by
  rw [Tree_build_inner]
  exact built_roleset_char (Repr_from_root_node a) (length_from_root_node a)
    (rolesetAt_from_root a) Tree.buildStep
    (fun ar k hag hk hk0 => Tree_buildStep_char (Repr_from_root_node a)
      (length_from_root_node a) ar k hag hk hk0) m rr

/-- The count flavor's derived `RoleSet` satisfies the same subtree
invariant after `build_rolesets`. -/
theorem TreeCount_roleset_subtree (a : A11yNode) (m rr : Nat) :
    (rolesetAt (TreeCount.build_rolesets (TreeCount.from_root_node a)).inner m).testBit rr = true ↔
      ∃ d sm, m ≤ d ∧ d < m + subSize a m ∧ nodeAtIdx a d = some sm ∧ sm.role = rr := by
  rw [TreeCount_build_inner]
  exact built_roleset_char (Repr_from_root_node_count a) (length_from_root_node_count a)
    (rolesetAt_from_root_count a) TreeCount.buildStep
    (fun ar k hag hk hk0 => TreeCount_buildStep_char (Repr_from_root_node_count a)
      (length_from_root_node_count a) ar k hag hk hk0) m rr

/-- The built boolean tree still represents the input tree. -/
theorem Repr_built (a : A11yNode) :
    ReprN (Tree.build_rolesets (Tree.from_root_node a)).inner 0 none a :=
  ReprN_agree (Tree_build_agree a) a (Repr_from_root_node a)

/-- The built count tree still represents the input tree. -/
theorem Repr_built_count (a : A11yNode) :
    ReprN (TreeCount.build_rolesets (TreeCount.from_root_node a)).inner 0 none a :=
  ReprN_agree (TreeCount_build_agree a) a (Repr_from_root_node_count a)

theorem length_built (a : A11yNode) :
    (Tree.build_rolesets (Tree.from_root_node a)).inner.length = a.size := by
  rw [← (Tree_build_agree a).1]
  exact length_from_root_node a

theorem length_built_count (a : A11yNode) :
    (TreeCount.build_rolesets (TreeCount.from_root_node a)).inner.length = a.size := by
  rw [← (TreeCount_build_agree a).1]
  exact length_from_root_node_count a

theorem root_built (a : A11yNode) :
    (Tree.build_rolesets (Tree.from_root_node a)).root = 0 := by
  have : (Tree.from_root_node a).root = 0 := by rw [from_root_node_eq]
  simpa [Tree.build_rolesets] using this

theorem root_built_count (a : A11yNode) :
    (TreeCount.build_rolesets (TreeCount.from_root_node a)).root = 0 := by
  have : (TreeCount.from_root_node a).root = 0 := by rw [from_root_node_count_eq]
  simpa [TreeCount.build_rolesets] using this

theorem nodeAtIdx_lt {a : A11yNode} {m : Nat} {sm : A11yNode}
    (hsm : nodeAtIdx a m = some sm) : m < a.size := by
  by_contra h
  rw [nodeAtIdx_ge a m (Nat.le_of_not_lt h)] at hsm
  exact Option.noConfusion hsm

theorem ReprN_at [HasRole α] {tree : Arena α} {a : A11yNode}
    (h : ReprN tree 0 none a) {m : Nat} {sm : A11yNode} (hsm : nodeAtIdx a m = some sm) :
    ∃ p', ReprN tree m p' sm := by
  obtain ⟨p', sub, hsub, hrepr⟩ := nodeAtIdx_Repr a h m (nodeAtIdx_lt hsm)
  rw [Nat.zero_add] at hrepr
  rw [hsub] at hsm
  exact ⟨p', Option.some_injective _ hsm ▸ hrepr⟩

/-- The `descendants` iterator of an inner node `m` is the preorder
interval of `m`'s subtree. -/
theorem descendants_at [HasRole α] {tree : Arena α} {a : A11yNode}
    (h : ReprN tree 0 none a) (hlen : tree.length = a.size) {m : Nat} {sm : A11yNode}
    (hsm : nodeAtIdx a m = some sm) :
    descendantsF tree tree.length m = List.range' m sm.size := by
  obtain ⟨p', hrepr⟩ := ReprN_at h hsm
  apply descendantsF_Repr sm hrepr
  have := nodeAtIdx_fits a m sm hsm
  omega

theorem roleAt_char [HasRole α] {tree : Arena α} {a : A11yNode}
    (h : ReprN tree 0 none a) {d : Nat} {sm : A11yNode} (hsm : nodeAtIdx a d = some sm) :
    roleAt tree d = some sm.role := by
  obtain ⟨p', hrepr⟩ := ReprN_at h hsm
  exact ReprN_roleAt hrepr

theorem roleAt_none [HasRole α] {tree : Arena α} {d : Nat} (hd : tree.length ≤ d) :
    roleAt tree d = none := by
  simp [roleAt, List.getElem?_eq_none hd]

/-! ## Settled claims -/

/-- C2: after `build_rolesets` on a freshly constructed boolean tree,
every node's roleset contains role `r` exactly when some node of its
subtree (itself included) has role `r`, and the root's roleset is the
union of every node's own role. -/
theorem C2_roleset_invariant (a : A11yNode) (m : Nat) (r : Role)
    (hm : m < (Tree.build_rolesets (Tree.from_root_node a)).inner.length) :
    (RoleSet.containsRS
        (rolesetAt (Tree.build_rolesets (Tree.from_root_node a)).inner m) (roleToSet r) = true ↔
      ∃ d ∈ descendantsF (Tree.build_rolesets (Tree.from_root_node a)).inner
          (Tree.build_rolesets (Tree.from_root_node a)).inner.length m,
        roleAt (Tree.build_rolesets (Tree.from_root_node a)).inner d = some r) ∧
    rolesetAt (Tree.build_rolesets (Tree.from_root_node a)).inner
        (Tree.build_rolesets (Tree.from_root_node a)).root
      = unionAllRoles (Tree.build_rolesets (Tree.from_root_node a)).inner
          (Tree.build_rolesets (Tree.from_root_node a)).root := by
  have hrepr := Repr_built a
  have hlen := length_built a
  have hchar := Tree_roleset_subtree a
  have hmain : ∀ m, m < a.size → ∀ r,
      (RoleSet.containsRS
          (rolesetAt (Tree.build_rolesets (Tree.from_root_node a)).inner m) (roleToSet r) = true ↔
        ∃ d ∈ descendantsF (Tree.build_rolesets (Tree.from_root_node a)).inner
            (Tree.build_rolesets (Tree.from_root_node a)).inner.length m,
          roleAt (Tree.build_rolesets (Tree.from_root_node a)).inner d = some r) := by
    intro m hm r
    obtain ⟨p', sub, hsub, hr0⟩ := nodeAtIdx_Repr a hrepr m hm
    rw [containsRS_single, hchar m r]
    rw [descendants_at hrepr hlen hsub]
    constructor
    · rintro ⟨d, sm, hle, hlt, hidx, hrole⟩
      refine ⟨d, ?_, ?_⟩
      · apply List.mem_range'_1.mpr
        rw [subSize, hsub] at hlt
        simp at hlt
        exact ⟨hle, hlt⟩
      · rw [roleAt_char hrepr hidx, hrole]
    · rintro ⟨d, hd, hrole⟩
      have hd2 := List.mem_range'_1.mp hd
      have hd_n : d < a.size := by
        have := nodeAtIdx_fits a m sub hsub
        omega
      obtain ⟨p2, sm, hsm, hr2⟩ := nodeAtIdx_Repr a hrepr d hd_n
      rw [Nat.zero_add] at hr2
      have : roleAt (Tree.build_rolesets (Tree.from_root_node a)).inner d = some sm.role :=
        ReprN_roleAt hr2
      rw [this] at hrole
      refine ⟨d, sm, hd2.1, ?_, hsm, Option.some_injective _ hrole⟩
      rw [subSize, hsub]
      simp
      omega
  constructor
  · exact hmain m (by rw [hlen] at hm; exact hm) r
  · have hroot := root_built a
    rw [hroot]
    apply Nat.eq_of_testBit_eq
    intro rr
    have h1 : (rolesetAt (Tree.build_rolesets (Tree.from_root_node a)).inner 0).testBit rr = true ↔
        ∃ d ∈ descendantsF (Tree.build_rolesets (Tree.from_root_node a)).inner
            (Tree.build_rolesets (Tree.from_root_node a)).inner.length 0,
          roleAt (Tree.build_rolesets (Tree.from_root_node a)).inner d = some rr := by
      rw [← containsRS_single]
      exact hmain 0 a.size_pos rr
    have h2 : (unionAllRoles (Tree.build_rolesets (Tree.from_root_node a)).inner 0).testBit rr
        = true ↔
        ∃ d ∈ descendantsF (Tree.build_rolesets (Tree.from_root_node a)).inner
            (Tree.build_rolesets (Tree.from_root_node a)).inner.length 0,
          roleAt (Tree.build_rolesets (Tree.from_root_node a)).inner d = some rr := by
      rw [unionAllRoles]
      have hfold : ∀ (l : List Role) (s : RoleSet),
          l.foldl (fun s r => s ||| roleToSet r) s = s ||| orAll (l.map roleToSet) := by
        intro l
        induction l with
        | nil => intro s; simp [orAll]
        | cons x l ih =>
          intro s
          simp only [List.foldl_cons, List.map_cons]
          rw [ih (s ||| roleToSet x)]
          have : orAll (roleToSet x :: l.map roleToSet) = roleToSet x ||| orAll (l.map roleToSet) := by
            simp only [orAll, List.foldl_cons]
            rw [foldl_or_eq (0 ||| roleToSet x), Nat.zero_or]
            rfl
          rw [this, Nat.or_assoc]
      rw [hfold, Nat.zero_or, orAll_testBit]
      constructor
      · rintro ⟨s, hs, hbit⟩
        obtain ⟨rx, hrx, rfl⟩ := List.mem_map.mp hs
        obtain ⟨d, hd, hdr⟩ := List.mem_filterMap.mp hrx
        simp only [roleToSet, Nat.testBit_two_pow, decide_eq_true_eq] at hbit
        exact ⟨d, hd, by rw [hdr, hbit]⟩
      · rintro ⟨d, hd, hdr⟩
        refine ⟨roleToSet rr, List.mem_map.mpr ⟨rr, List.mem_filterMap.mpr ⟨d, hd, hdr⟩, rfl⟩, ?_⟩
        simp [roleToSet, Nat.testBit_two_pow]
    rw [Bool.eq_iff_iff, h1, h2]

/-- C9: `from_root_node` assigns handles in preorder for both flavors —
the preorder descendant walk from the root visits the handles `0, 1, …,
n-1` in order, i.e. exactly the flat collection order — and consequently
the flat-scan `par_find_first` returns the same node as the sequential
`find_first` on the finalized tree. -/
theorem C9_preorder_handles (a : A11yNode) (r : Role) :
    descendantsF (Tree.from_root_node a).inner (Tree.from_root_node a).inner.length
        (Tree.from_root_node a).root
      = List.range (Tree.from_root_node a).inner.length ∧
    descendantsF (TreeCount.from_root_node a).inner (TreeCount.from_root_node a).inner.length
        (TreeCount.from_root_node a).root
      = List.range (TreeCount.from_root_node a).inner.length ∧
    Tree.par_find_first (Tree.build_rolesets (Tree.from_root_node a)) r
      = Tree.find_first (Tree.build_rolesets (Tree.from_root_node a)) r ∧
    TreeCount.par_find_first (TreeCount.build_rolesets (TreeCount.from_root_node a)) r
      = TreeCount.find_first (TreeCount.build_rolesets (TreeCount.from_root_node a)) r := by
  refine ⟨?_, ?_, ?_, ?_⟩
  · have hroot : (Tree.from_root_node a).root = 0 := by rw [from_root_node_eq]
    rw [hroot, descendantsF_Repr a (Repr_from_root_node a) _ (by rw [length_from_root_node]; omega),
      length_from_root_node, List.range_eq_range']
  · have hroot : (TreeCount.from_root_node a).root = 0 := by rw [from_root_node_count_eq]
    rw [hroot, descendantsF_Repr a (Repr_from_root_node_count a) _
      (by rw [length_from_root_node_count]; omega),
      length_from_root_node_count, List.range_eq_range']
  · show parFindFirstG _ r = findFirstG _ _ r
    rw [root_built a]
    unfold findFirstG parFindFirstG
    rw [descendantsF_Repr a (Repr_built a) _ (by rw [length_built]; omega),
      length_built, List.range_eq_range']
  · show parFindFirstG _ r = findFirstG _ _ r
    rw [root_built_count a]
    unfold findFirstG parFindFirstG
    rw [descendantsF_Repr a (Repr_built_count a) _ (by rw [length_built_count]; omega),
      length_built_count, List.range_eq_range']

/-! ## Depth queries -/

theorem map_index (l : List β) (g : β → γ) (dflt : γ) :
    l.map g = (List.range l.length).map (fun i => (l[i]?.map g).getD dflt) := by
  induction l with
  | nil => rfl
  | cons x xs ih =>
    show g x :: xs.map g = (List.range (xs.length + 1)).map _
    rw [List.range_succ_eq_map, List.map_cons, List.map_map]
    have hhead : ((Option.map g (x :: xs)[0]?).getD dflt) = g x := by simp
    rw [hhead]
    congr 1
    rw [ih]
    apply List.map_congr_left
    intro i _
    simp

theorem foldl_max_map_succ (l : List Nat) (acc : Nat) :
    (l.map (· + 1)).foldl max (acc + 1) = l.foldl max acc + 1 := by
  induction l generalizing acc with
  | nil => rfl
  | cons x l ih =>
    simp only [List.map_cons, List.foldl_cons]
    rw [Nat.succ_max_succ, ih]

/-- Pointwise: the ancestor-chain length of node `i` is one more than
its parent's (or `0 + 1` at the root). -/
theorem ancLen_decomp [HasRole α] {tree : Arena α} {a : A11yNode}
    (h : ReprN tree 0 none a) (hlen : tree.length = a.size) (i : Nat) (hi : i < tree.length) :
    (ancestorsF tree tree.length i).length =
      (match parentOf tree i with
       | some p => (ancestorsF tree tree.length p).length
       | none => 0) + 1 := by
  have hdec := parent_lt h hlen
  obtain ⟨f, hf⟩ : ∃ f, tree.length = f + 1 := ⟨tree.length - 1, by omega⟩
  rw [hf]
  rw [hf] at hi
  simp only [ancestorsF]
  cases hp : parentOf tree i with
  | none => rfl
  | some p =>
    simp only [List.length_cons]
    congr 1
    have hpi : p < i := hdec i p hp
    exact congrArg List.length (ancestorsF_fuel tree hdec p f (f + 1) (by omega) (by omega))

/-- `max_depth() == par_max_depth()` for any represented arena. -/
theorem maxDepth_eq_parMaxDepth [HasRole α] {tree : Arena α} {a : A11yNode}
    (h : ReprN tree 0 none a) (hlen : tree.length = a.size) :
    maxDepthG tree 0 = parMaxDepthG tree := by
  unfold maxDepthG parMaxDepthG
  rw [descendantsF_Repr a h _ (by omega), ← hlen, ← List.range_eq_range']
  have hpar : tree.map (fun nd =>
      match nd.parent with
      | some p => (ancestorsF tree tree.length p).length
      | none => 0)
      = (List.range tree.length).map (fun i =>
          match parentOf tree i with
          | some p => (ancestorsF tree tree.length p).length
          | none => 0) := by
    rw [map_index tree _ 0]
    apply List.map_congr_left
    intro i hi
    have hi2 : i < tree.length := List.mem_range.mp hi
    cases hti : tree[i]? with
    | none => exact absurd (List.getElem?_eq_none_iff.mp hti) (Nat.not_le_of_lt hi2)
    | some nd => simp [parentOf, hti]
  rw [hpar]
  have hmap : (List.range tree.length).map (fun i => (ancestorsF tree tree.length i).length)
      = ((List.range tree.length).map (fun i =>
          match parentOf tree i with
          | some p => (ancestorsF tree tree.length p).length
          | none => 0)).map (· + 1) := by
    rw [List.map_map]
    apply List.map_congr_left
    intro i hi
    exact ancLen_decomp h hlen i (List.mem_range.mp hi)
  rw [hmap]
  have hne : (List.range tree.length).map (fun i =>
      match parentOf tree i with
      | some p => (ancestorsF tree tree.length p).length
      | none => 0) ≠ [] := by
    intro hcon
    have hcon2 := congrArg List.length hcon
    simp only [List.length_map, List.length_range, List.length_nil] at hcon2
    rw [hlen] at hcon2
    have := a.size_pos
    omega
  obtain ⟨y, ys, hys⟩ := List.exists_cons_of_ne_nil hne
  rw [hys]
  simp only [List.map_cons, List.foldl_cons]
  have h1 : max 0 (y + 1) = max 0 y + 1 := by omega
  rw [h1, foldl_max_map_succ]

theorem foldl_max_height (cs : List A11yNode) (x y : Nat) :
    cs.foldl (fun m c => max m (y + 1 + c.height)) (max x (y + 1))
      = max x (y + 1 + A11yNode.heightF cs) := by
  induction cs generalizing x with
  | nil => simp [A11yNode.heightF]
  | cons c cs ih =>
    simp only [List.foldl_cons, A11yNode.heightF]
    have e1 : max (max x (y + 1)) (y + 1 + c.height)
        = max (max x (y + 1 + c.height)) (y + 1) := by omega
    rw [e1, ih (max x (y + 1 + c.height))]
    omega

mutual
theorem maxAncIn_N (a : A11yNode) :
    ∀ o j acc, ((List.range a.size).map (fun d => j + (ancIn o a d).length)).foldl max acc
      = max acc (j + a.height) :=
  match a with
  | .mk r cs => by
    intro o j acc
    have hsz : (A11yNode.mk r cs).size = A11yNode.sizeF cs + 1 := by
      simp [A11yNode.size]
      omega
    rw [hsz, List.range_succ_eq_map, List.map_cons, List.foldl_cons, List.map_map]
    have hhead : j + (ancIn o (A11yNode.mk r cs) 0).length = j + 1 := by
      simp [ancIn]
    rw [hhead]
    have hcong : (List.range (A11yNode.sizeF cs)).map
          ((fun d => j + (ancIn o (A11yNode.mk r cs) d).length) ∘ Nat.succ)
        = (List.range (A11yNode.sizeF cs)).map
            (fun d => (j + 1) + (ancInF (o + 1) cs d).length) := by
      apply List.map_congr_left
      intro d _
      simp [ancIn]
      omega
    rw [hcong, maxAncIn_F cs (o + 1) (j + 1) (max acc (j + 1))]
    rw [show max acc (j + 1) = max acc (j + 1) from rfl]
    have := foldl_max_height cs acc j
    rw [this] at *
    have hh : (A11yNode.mk r cs).height = 1 + A11yNode.heightF cs := rfl
    omega
theorem maxAncIn_F (cs : List A11yNode) :
    ∀ o j acc, ((List.range (A11yNode.sizeF cs)).map
        (fun d => j + (ancInF o cs d).length)).foldl max acc
      = cs.foldl (fun m c => max m (j + c.height)) acc :=
  match cs with
  | [] => by intro o j acc; simp [A11yNode.sizeF]
  | c :: cs => by
    intro o j acc
    have hsz : A11yNode.sizeF (c :: cs) = c.size + A11yNode.sizeF cs := rfl
    rw [hsz, List.range_add, List.map_append, List.foldl_append, List.map_map]
    have hcong1 : (List.range c.size).map (fun d => j + (ancInF o (c :: cs) d).length)
        = (List.range c.size).map (fun d => j + (ancIn o c d).length) := by
      apply List.map_congr_left
      intro d hd
      have := List.mem_range.mp hd
      simp [ancInF, this]
    have hcong2 : (List.range (A11yNode.sizeF cs)).map
          ((fun d => j + (ancInF o (c :: cs) d).length) ∘ (c.size + ·))
        = (List.range (A11yNode.sizeF cs)).map
            (fun d => j + (ancInF (o + c.size) cs d).length) := by
      apply List.map_congr_left
      intro d _
      have h1 : ¬ (c.size + d < c.size) := by omega
      simp only [Function.comp_apply, ancInF, if_neg h1]
      have h2 : c.size + d - c.size = d := by omega
      rw [h2]
    rw [hcong1, hcong2, maxAncIn_N c o j acc, maxAncIn_F cs (o + c.size) j _]
    rfl
end

/-- `max_depth` equals the number of nodes on the longest root-to-node
path of the input tree. -/
theorem maxDepth_height [HasRole α] {tree : Arena α} {a : A11yNode}
    (h : ReprN tree 0 none a) (hlen : tree.length = a.size) :
    maxDepthG tree 0 = a.height := by
  unfold maxDepthG
  rw [descendantsF_Repr a h _ (by omega), ← List.range_eq_range']
  have hcong : (List.range a.size).map (fun i => (ancestorsF tree tree.length i).length)
      = (List.range a.size).map (fun d => 0 + (ancIn 0 a d).length) := by
    apply List.map_congr_left
    intro i hi
    have hi2 := List.mem_range.mp hi
    rw [ancestorsF_char h i hi2 tree.length (by omega)]
    omega
  rw [hcong, maxAncIn_N a 0 0 0]
  omega

/-- C3: `max_depth() == par_max_depth()`, for both flavors, both on the
freshly loaded tree and on the finalized (indexed) tree; a single-node
tree is covered by the quantifier. -/
theorem C3_depth_equivalence (a : A11yNode) :
    Tree.max_depth (Tree.from_root_node a) = Tree.par_max_depth (Tree.from_root_node a) ∧
    Tree.max_depth (Tree.build_rolesets (Tree.from_root_node a))
      = Tree.par_max_depth (Tree.build_rolesets (Tree.from_root_node a)) ∧
    TreeCount.max_depth (TreeCount.from_root_node a)
      = TreeCount.par_max_depth (TreeCount.from_root_node a) ∧
    TreeCount.max_depth (TreeCount.build_rolesets (TreeCount.from_root_node a))
      = TreeCount.par_max_depth (TreeCount.build_rolesets (TreeCount.from_root_node a)) := by
  refine ⟨?_, ?_, ?_, ?_⟩
  · show maxDepthG _ _ = parMaxDepthG _
    rw [show (Tree.from_root_node a).root = 0 from by rw [from_root_node_eq]]
    exact maxDepth_eq_parMaxDepth (Repr_from_root_node a) (length_from_root_node a)
  · show maxDepthG _ _ = parMaxDepthG _
    rw [root_built a]
    exact maxDepth_eq_parMaxDepth (Repr_built a) (length_built a)
  · show maxDepthG _ _ = parMaxDepthG _
    rw [show (TreeCount.from_root_node a).root = 0 from by rw [from_root_node_count_eq]]
    exact maxDepth_eq_parMaxDepth (Repr_from_root_node_count a) (length_from_root_node_count a)
  · show maxDepthG _ _ = parMaxDepthG _
    rw [root_built_count a]
    exact maxDepth_eq_parMaxDepth (Repr_built_count a) (length_built_count a)

/-- C4 counterexample: `max_depth` is not 0 on a single-node tree and
not 2 on the spec's `A(B, C(D))` scenario — `indextree`'s `ancestors`
iterator counts the node itself, so the code's depths are one larger
than the claim says. -/
theorem C4_counterexample :
    Tree.max_depth (Tree.from_root_node singleTree) ≠ 0 ∧
    Tree.max_depth (Tree.from_root_node exampleTree) ≠ 2 := by
  decide

/-- C4 as amended: `max_depth()` returns the number of nodes on the
longest root-to-node path (the deepest node's ancestor count counting
the node itself, so a single-node tree has `max_depth` 1 and the
`A(B, C(D))` scenario has `max_depth` 3). -/
theorem C4_amended (a : A11yNode) :
    Tree.max_depth (Tree.from_root_node a) = a.height ∧
    Tree.max_depth (Tree.from_root_node singleTree) = 1 ∧
    Tree.max_depth (Tree.from_root_node exampleTree) = 3 := by
  refine ⟨?_, by decide, by decide⟩
  show maxDepthG _ _ = a.height
  rw [show (Tree.from_root_node a).root = 0 from by rw [from_root_node_eq]]
  exact maxDepth_height (Repr_from_root_node a) (length_from_root_node a)

/-! ## Unique-roles queries -/

theorem mem_distinctFold (l : List Role) (r : Role) : r ∈ distinctFold l ↔ r ∈ l := by
  have main : ∀ (l : List Role) (acc : List Role),
      r ∈ l.foldl (fun acc role => if acc.contains role then acc else acc ++ [role]) acc
        ↔ r ∈ acc ∨ r ∈ l := by
    intro l
    induction l with
    | nil => intro acc; simp
    | cons x l ih =>
      intro acc
      simp only [List.foldl_cons]
      rw [ih]
      by_cases hx : acc.contains x
      · rw [if_pos hx]
        have hmem : x ∈ acc := by simpa using hx
        constructor
        · rintro (h | h)
          · exact Or.inl h
          · exact Or.inr (List.mem_cons_of_mem x h)
        · rintro (h | h)
          · exact Or.inl h
          · rcases List.mem_cons.mp h with rfl | h
            · exact Or.inl hmem
            · exact Or.inr h
      · rw [if_neg hx]
        simp [List.mem_append, List.mem_cons]
        tauto
  rw [distinctFold, main l []]
  simp

theorem mem_dedupAdj (l : List Role) (r : Role) : r ∈ dedupAdj l ↔ r ∈ l := by
  induction l with
  | nil => rfl
  | cons x l ih =>
    cases l with
    | nil => rfl
    | cons y l =>
      by_cases hxy : x = y
      · subst hxy
        have hd : dedupAdj (x :: x :: l) = dedupAdj (x :: l) := by
          simp [dedupAdj]
        rw [hd, ih]
        simp only [List.mem_cons]
        tauto
      · have hd : dedupAdj (x :: y :: l) = x :: dedupAdj (y :: l) := by
          simp [dedupAdj, hxy]
        rw [hd, List.mem_cons, ih]
        simp only [List.mem_cons]

theorem testBit_lt {s : RoleSet} {r : Role} (h : s.testBit r = true) : r < s := by
  have h2 : 2 ^ r ≤ s := by
    by_contra hlt
    have hlt2 : s < 2 ^ r := Nat.lt_of_not_le hlt
    have hz : s / 2 ^ r = 0 := Nat.div_eq_of_lt hlt2
    rw [Nat.testBit_to_div_mod, hz] at h
    simp at h
  have h3 : r < 2 ^ r := Nat.lt_two_pow r
  exact Nat.lt_of_lt_of_le h3 h2

theorem mem_role_iter (s : RoleSet) (r : Role) : r ∈ s.role_iter ↔ s.testBit r = true := by
  simp only [RoleSet.role_iter, List.mem_filter, List.mem_range]
  constructor
  · rintro ⟨-, h⟩
    exact h
  · intro h
    exact ⟨testBit_lt h, h⟩

theorem exists_role_iff [HasRole α] (tree : Arena α) (r : Role) :
    (∃ i ∈ List.range tree.length, roleAt tree i = some r)
      ↔ ∃ nd ∈ tree, HasRole.role nd.data = r := by
  constructor
  · rintro ⟨i, hi, hrole⟩
    cases hti : tree[i]? with
    | none => rw [roleAt, hti] at hrole; exact Option.noConfusion hrole
    | some nd =>
      refine ⟨nd, List.getElem?_mem hti, ?_⟩
      rw [roleAt, hti] at hrole
      simpa using hrole
  · rintro ⟨nd, hnd, hrole⟩
    obtain ⟨i, hi, hget⟩ := List.getElem_of_mem hnd
    refine ⟨i, List.mem_range.mpr hi, ?_⟩
    rw [roleAt, List.getElem?_eq_getElem hi]
    simp [hget, hrole]

/-- Membership characterization shared by `unique_roles`,
`par_unique_roles` and `unique_roles_roleset` on a finalized tree. -/
theorem uniqueRoles_mem [HasRole α] {tree : Arena α} {a : A11yNode}
    (h : ReprN tree 0 none a) (hlen : tree.length = a.size) (r : Role) :
    (r ∈ uniqueRolesG tree 0 ↔ ∃ nd ∈ tree, HasRole.role nd.data = r) ∧
    (r ∈ parUniqueRolesG tree ↔ ∃ nd ∈ tree, HasRole.role nd.data = r) := by
  constructor
  · unfold uniqueRolesG
    rw [mem_distinctFold]
    rw [descendantsF_Repr a h _ (by omega), ← hlen, ← List.range_eq_range']
    rw [List.mem_filterMap]
    exact exists_role_iff tree r
  · unfold parUniqueRolesG
    rw [mem_dedupAdj, List.mem_mergeSort, mem_distinctFold, List.mem_map]

/-- C5: on a finalized tree (either flavor), `unique_roles`,
`par_unique_roles` and `unique_roles_roleset` contain the same roles: a
role is in each of them exactly when some node of the tree has it. -/
theorem C5_unique_roles (a : A11yNode) (r : Role) :
    ((r ∈ (Tree.build_rolesets (Tree.from_root_node a)).unique_roles ↔
        ∃ nd ∈ (Tree.build_rolesets (Tree.from_root_node a)).inner, nd.data.role = r) ∧
     (r ∈ (Tree.build_rolesets (Tree.from_root_node a)).par_unique_roles ↔
        ∃ nd ∈ (Tree.build_rolesets (Tree.from_root_node a)).inner, nd.data.role = r) ∧
     (r ∈ (Tree.build_rolesets (Tree.from_root_node a)).unique_roles_roleset ↔
        ∃ nd ∈ (Tree.build_rolesets (Tree.from_root_node a)).inner, nd.data.role = r)) ∧
    ((r ∈ (TreeCount.build_rolesets (TreeCount.from_root_node a)).unique_roles ↔
        ∃ nd ∈ (TreeCount.build_rolesets (TreeCount.from_root_node a)).inner, nd.data.role = r) ∧
     (r ∈ (TreeCount.build_rolesets (TreeCount.from_root_node a)).par_unique_roles ↔
        ∃ nd ∈ (TreeCount.build_rolesets (TreeCount.from_root_node a)).inner, nd.data.role = r) ∧
     (r ∈ (TreeCount.build_rolesets (TreeCount.from_root_node a)).unique_roles_roleset ↔
        ∃ nd ∈ (TreeCount.build_rolesets (TreeCount.from_root_node a)).inner, nd.data.role = r)) := by
  have hroleset : ∀ {α : Type} [inst : HasRole α] (tree : Arena α), (∀ m rr,
        (rolesetAt tree m).testBit rr = true ↔
          ∃ d sm, m ≤ d ∧ d < m + subSize a m ∧ nodeAtIdx a d = some sm ∧ sm.role = rr) →
      ReprN tree 0 none a → tree.length = a.size →
      (r ∈ uniqueRolesRolesetG tree 0 ↔ ∃ nd ∈ tree, HasRole.role nd.data = r) := by
    intro α inst tree hchar hrep hlen
    unfold uniqueRolesRolesetG
    rw [mem_role_iter, hchar 0 r]
    rw [← exists_role_iff tree r]
    constructor
    · rintro ⟨d, sm, -, hlt, hidx, hrole⟩
      have hd : d < a.size := by
        have h0 : nodeAtIdx a 0 = some a := by cases a; rfl
        rw [subSize, h0] at hlt
        simpa using hlt
      refine ⟨d, List.mem_range.mpr (by omega), ?_⟩
      rw [roleAt_char hrep hidx, hrole]
    · rintro ⟨i, hi, hrole⟩
      have hi2 : i < a.size := by rw [← hlen]; exact List.mem_range.mp hi
      obtain ⟨p', sm, hsm, hrep2⟩ := nodeAtIdx_Repr a hrep i hi2
      rw [Nat.zero_add] at hrep2
      have := ReprN_roleAt hrep2
      rw [this] at hrole
      refine ⟨i, sm, Nat.zero_le i, ?_, hsm, Option.some_injective _ hrole⟩
      have h0 : nodeAtIdx a 0 = some a := by cases a; rfl
      rw [subSize, h0]
      simpa using hi2
  refine ⟨⟨?_, ?_, ?_⟩, ⟨?_, ?_, ?_⟩⟩
  · show r ∈ uniqueRolesG _ _ ↔ _
    rw [root_built a]
    exact (uniqueRoles_mem (Repr_built a) (length_built a) r).1
  · exact (uniqueRoles_mem (Repr_built a) (length_built a) r).2
  · show r ∈ uniqueRolesRolesetG _ _ ↔ _
    rw [root_built a]
    exact hroleset _ (Tree_roleset_subtree a) (Repr_built a) (length_built a)
  · show r ∈ uniqueRolesG _ _ ↔ _
    rw [root_built_count a]
    exact (uniqueRoles_mem (Repr_built_count a) (length_built_count a) r).1
  · exact (uniqueRoles_mem (Repr_built_count a) (length_built_count a) r).2
  · show r ∈ uniqueRolesRolesetG _ _ ↔ _
    rw [root_built_count a]
    exact hroleset _ (TreeCount_roleset_subtree a) (Repr_built_count a) (length_built_count a)

/-- Witness for C2 at the concrete scenario tree: the root slot of the
indexed `A(B, C(D))` tree satisfies the summary invariant for role 2. -/
theorem C2_roleset_invariant_witness :
    (0 < (Tree.build_rolesets (Tree.from_root_node exampleTree)).inner.length) ∧
    ((RoleSet.containsRS
        (rolesetAt (Tree.build_rolesets (Tree.from_root_node exampleTree)).inner 0)
        (roleToSet 2) = true ↔
      ∃ d ∈ descendantsF (Tree.build_rolesets (Tree.from_root_node exampleTree)).inner
          (Tree.build_rolesets (Tree.from_root_node exampleTree)).inner.length 0,
        roleAt (Tree.build_rolesets (Tree.from_root_node exampleTree)).inner d = some 2) ∧
    rolesetAt (Tree.build_rolesets (Tree.from_root_node exampleTree)).inner
        (Tree.build_rolesets (Tree.from_root_node exampleTree)).root
      = unionAllRoles (Tree.build_rolesets (Tree.from_root_node exampleTree)).inner
          (Tree.build_rolesets (Tree.from_root_node exampleTree)).root) :=
  ⟨by decide, C2_roleset_invariant exampleTree 0 2 (by decide)⟩

/-! ## Sibling links of a represented parent -/

theorem A11yNode.sizeF_append (cs₁ cs₂ : List A11yNode) :
    A11yNode.sizeF (cs₁ ++ cs₂) = A11yNode.sizeF cs₁ + A11yNode.sizeF cs₂ := by
  induction cs₁ with
  | nil => simp [A11yNode.sizeF]
  | cons c cs ih => simp [A11yNode.sizeF, ih]; omega

theorem childOffsets_append (o : Nat) (cs₁ cs₂ : List A11yNode) :
    childOffsets o (cs₁ ++ cs₂)
      = childOffsets o cs₁ ++ childOffsets (o + A11yNode.sizeF cs₁) cs₂ := by
  induction cs₁ generalizing o with
  | nil => simp [childOffsets, A11yNode.sizeF]
  | cons c cs ih =>
    have harith : o + c.size + A11yNode.sizeF cs = o + A11yNode.sizeF (c :: cs) := by
      simp [A11yNode.sizeF]
      omega
    show o :: childOffsets (o + c.size) (cs ++ cs₂)
        = (o :: childOffsets (o + c.size) cs) ++ childOffsets (o + A11yNode.sizeF (c :: cs)) cs₂
    rw [List.cons_append, ih (o + c.size), harith]

theorem childOffsets_mem_bounds (o : Nat) (cs : List A11yNode) :
    ∀ x ∈ childOffsets o cs, o ≤ x ∧ x < o + A11yNode.sizeF cs := by
  induction cs generalizing o with
  | nil => intro x hx; simp [childOffsets] at hx
  | cons c cs ih =>
    intro x hx
    simp only [childOffsets, List.mem_cons] at hx
    have hpos := c.size_pos
    rcases hx with rfl | hx
    · simp [A11yNode.sizeF]
      omega
    · have := ih (o + c.size) x hx
      simp only [A11yNode.sizeF]
      omega

theorem nextAfter_append_not_mem (l₁ l₂ : List Nat) (x : Nat) (hx : x ∉ l₁) :
    nextAfter (l₁ ++ l₂) x = nextAfter l₂ x := by
  induction l₁ with
  | nil => rfl
  | cons y ys ih =>
    have hxy : y ≠ x := fun h => hx (h ▸ List.mem_cons_self y ys)
    simp only [List.cons_append, nextAfter, if_neg hxy]
    exact ih (fun h => hx (List.mem_cons_of_mem y h))

theorem ReprF_suffix [HasRole α] {tree : Arena α} {pid : Nat} (cs₁ cs₂ : List A11yNode) :
    ∀ oc, ReprF tree oc pid (cs₁ ++ cs₂) → ReprF tree (oc + A11yNode.sizeF cs₁) pid cs₂ := by
  induction cs₁ with
  | nil => intro oc h; simpa [A11yNode.sizeF] using h
  | cons c cs ih =>
    intro oc h
    have := ih (oc + c.size) h.2
    have harith : oc + c.size + A11yNode.sizeF cs = oc + A11yNode.sizeF (c :: cs) := by
      simp [A11yNode.sizeF]
      omega
    rwa [harith] at this

/-- A represented parent presents correct sibling links to its whole
child list. -/
theorem SibLinks_of_Repr [HasRole α] {tree : Arena α} {o : Nat} {p : Option Nat}
    {r : Role} {csAll : List A11yNode} (h : ReprN tree o p (.mk r csAll)) :
    SibLinks tree o (o + 1) csAll := by
  have hch : childrenOf tree o = childOffsets (o + 1) csAll := by
    simpa [A11yNode.children] using ReprN_childrenOf h
  have hF : ReprF tree (o + 1) o csAll := by
    simpa [A11yNode.children] using ReprN_forest h
  suffices hgen : ∀ csPost csPre, csAll = csPre ++ csPost →
      SibLinks tree o (o + 1 + A11yNode.sizeF csPre) csPost by
    have := hgen csAll [] rfl
    simpa [A11yNode.sizeF] using this
  intro csPost
  induction csPost with
  | nil => intro csPre _; trivial
  | cons c cs ih =>
    intro csPre hsplit
    set oc := o + 1 + A11yNode.sizeF csPre with hoc
    have hFsuf : ReprF tree oc o (c :: cs) := by
      rw [hoc]
      exact ReprF_suffix csPre (c :: cs) (o + 1) (hsplit ▸ hF)
    have hparent : parentOf tree oc = some o := ReprN_parentOf hFsuf.1
    refine ⟨?_, hparent, ?_⟩
    · rw [nextSiblingOf, hparent]
      show nextAfter (childrenOf tree o) oc = (childOffsets (oc + c.size) cs).head?
      rw [hch, hsplit, childOffsets_append]
      rw [nextAfter_append_not_mem]
      · rw [← hoc]
        simp [childOffsets, nextAfter]
      · intro hmem
        have := childOffsets_mem_bounds (o + 1) csPre oc hmem
        omega
    · have := ih (csPre ++ [c]) (by rw [hsplit]; simp)
      rwa [A11yNode.sizeF_append, show A11yNode.sizeF [c] = c.size from by
        simp [A11yNode.sizeF], ← Nat.add_assoc, ← hoc] at this

/-! ## List helpers for the cursor proofs -/

theorem head?_append_some {l₁ l₂ : List γ} {y : γ} (h : l₁.head? = some y) :
    (l₁ ++ l₂).head? = some y := by
  cases l₁ with
  | nil => simp at h
  | cons a l => simpa using h

theorem getLast?_cons_some {l : List γ} {x z : γ} (h : l.getLast? = some z) :
    (x :: l).getLast? = some z := by
  cases l with
  | nil => simp at h
  | cons a l => rw [List.getLast?_cons_cons]; exact h

theorem ne_nil_of_getLast? {l : List γ} {z : γ} (h : l.getLast? = some z) : l ≠ [] := by
  intro hl
  rw [hl] at h
  simp at h

theorem dropLast_cons_of_ne_nil {l : List γ} (x : γ) (h : l ≠ []) :
    (x :: l).dropLast = x :: l.dropLast := by
  cases l with
  | nil => exact absurd rfl h
  | cons a l => rfl

theorem mem_split_last {l : List γ} {e : γ} (h : e ∈ l) :
    e ∈ l.dropLast ∨ l.getLast? = some e := by
  induction l with
  | nil => simp at h
  | cons x l ih =>
    cases l with
    | nil =>
      right
      rcases List.mem_singleton.mp h with rfl
      rfl
    | cons y l =>
      rcases List.mem_cons.mp h with rfl | h2
      · left
        rw [dropLast_cons_of_ne_nil _ (by simp)]
        exact List.mem_cons_self _ _
      · rcases ih h2 with hd | hl
        · left
          rw [dropLast_cons_of_ne_nil _ (by simp)]
          exact List.mem_cons_of_mem _ hd
        · right
          rw [List.getLast?_cons_cons]
          exact hl

theorem parentOf_lt {tree : Arena α} {x y : Nat} (h : parentOf tree x = some y) :
    x < tree.length := by
  by_contra hge
  rw [parentOf, List.getElem?_eq_none (Nat.le_of_not_lt hge)] at h
  exact Option.noConfusion h

theorem length_le_sizeF (cs : List A11yNode) : cs.length ≤ A11yNode.sizeF cs := by
  induction cs with
  | nil => simp [A11yNode.sizeF]
  | cons c cs ih =>
    have := c.size_pos
    simp only [List.length_cons, A11yNode.sizeF]
    omega

mutual
theorem ReprN_bound [HasRole α] {tree : Arena α} (a : A11yNode) :
    ∀ o p, ReprN tree o p a → o + a.size ≤ tree.length :=
  match a with
  | .mk r cs => by
    intro o p h
    have h1 := ReprN_lt_length h
    cases cs with
    | nil =>
      simp only [A11yNode.size, A11yNode.sizeF]
      omega
    | cons c cs =>
      have hF : ReprF tree (o + 1) o (c :: cs) := by
        simpa [A11yNode.children] using ReprN_forest h
      have := ReprF_bound (c :: cs) (o + 1) o hF (by simp)
      simp only [A11yNode.size]
      omega
theorem ReprF_bound [HasRole α] {tree : Arena α} (cs : List A11yNode) :
    ∀ oc pid, ReprF tree oc pid cs → cs ≠ [] → oc + A11yNode.sizeF cs ≤ tree.length :=
  match cs with
  | [] => by intro oc pid _ hne; exact absurd rfl hne
  | c :: cs => by
    intro oc pid h _
    have hc := ReprN_bound c oc (some pid) h.1
    cases cs with
    | nil =>
      simp only [A11yNode.sizeF]
      omega
    | cons c2 cs2 =>
      have := ReprF_bound (c2 :: cs2) (oc + c.size) pid h.2 (by simp)
      simp only [A11yNode.sizeF] at this ⊢
      omega
end

/-! ## The pruned cursor follows the reference edge list -/

mutual
theorem edgesN_spec [HasRole α] (tree : Arena α) (q : RoleSet) (a : A11yNode) :
    ∀ o p, ReprN tree o p a →
      List.Chain' (stepRel tree q) (edgesN (keepOf tree q) o a) ∧
      (edgesN (keepOf tree q) o a).head? = some (.Start o) ∧
      (edgesN (keepOf tree q) o a).getLast? = some (.End o) ∧
      (∀ e ∈ (edgesN (keepOf tree q) o a).dropLast, e = .Start o ∨ o < e.edgeId) :=
  match a with
  | .mk r cs => by
    intro o p h
    obtain ⟨hlink, hchain, hlast, hids⟩ := edgesTail_spec tree q cs o r p h
    have hne : edgesTail (keepOf tree q) o (o + 1) cs ≠ [] := ne_nil_of_getLast? hlast
    have heq : edgesN (keepOf tree q) o (.mk r cs)
        = .Start o :: edgesTail (keepOf tree q) o (o + 1) cs := rfl
    refine ⟨?_, rfl, ?_, ?_⟩
    · rw [heq, List.chain'_cons']
      refine ⟨?_, hchain⟩
      intro y hy
      show next_traverse_roleF tree q tree.length (.Start o) = some y
      rw [hlink]
      exact Option.mem_def.mp hy
    · rw [heq]
      exact getLast?_cons_some hlast
    · intro e he
      rw [heq, dropLast_cons_of_ne_nil _ hne] at he
      rcases List.mem_cons.mp he with rfl | he2
      · exact Or.inl rfl
      · exact Or.inr (hids e he2)
theorem edgesTail_spec [HasRole α] (tree : Arena α) (q : RoleSet) (cs : List A11yNode) :
    ∀ o r p, ReprN tree o p (.mk r cs) →
      next_traverse_roleF tree q tree.length (.Start o)
        = (edgesTail (keepOf tree q) o (o + 1) cs).head? ∧
      List.Chain' (stepRel tree q) (edgesTail (keepOf tree q) o (o + 1) cs) ∧
      (edgesTail (keepOf tree q) o (o + 1) cs).getLast? = some (.End o) ∧
      (∀ e ∈ (edgesTail (keepOf tree q) o (o + 1) cs).dropLast, o < e.edgeId) :=
  match cs with
  | [] => by
    intro o r p h
    have hfc : firstChildOf tree o = none := by
      rw [firstChildOf, ReprN_childrenOf h]
      rfl
    refine ⟨?_, List.chain'_singleton _, rfl, by simp [edgesTail]⟩
    simp [next_traverse_roleF, hfc, edgesTail]
  | c :: cs => by
    intro o r p h
    have hsl := SibLinks_of_Repr h
    have hF : ReprF tree (o + 1) o (c :: cs) := by
      simpa [A11yNode.children] using ReprN_forest h
    have hfc : firstChildOf tree o = some (o + 1) := by
      rw [firstChildOf, ReprN_childrenOf h]
      rfl
    obtain ⟨slink, schain, slast, sids⟩ :=
      edgesSib_spec tree q cs o (o + 1 + c.size) hF.2 hsl.2.2 (by omega)
    have hsne : edgesSib (keepOf tree q) o (o + 1 + c.size) cs ≠ [] := ne_nil_of_getLast? slast
    have hfuel : cs.length < tree.length := by
      cases cs with
      | nil =>
        have := ReprN_lt_length h
        simp only [List.length_nil]
        omega
      | cons c2 cs2 =>
        have hb := ReprF_bound (c2 :: cs2) _ _ hF.2 (by simp)
        have hl := length_le_sizeF (c2 :: cs2)
        omega
    have hseam : next_traverse_roleF tree q tree.length (.End (o + 1))
        = (edgesSib (keepOf tree q) o (o + 1 + c.size) cs).head? :=
      slink (o + 1) hsl.1 hsl.2.1 tree.length hfuel
    by_cases hk : (rolesetAt tree (o + 1)).containsRS q = true
    · obtain ⟨nchain, nhead, nlast, nids⟩ := edgesN_spec tree q c (o + 1) (some o) hF.1
      have hTeq : edgesTail (keepOf tree q) o (o + 1) (c :: cs)
          = edgesN (keepOf tree q) (o + 1) c
            ++ edgesSib (keepOf tree q) o (o + 1 + c.size) cs := by
        simp [edgesTail, keepOf, hk]
      refine ⟨?_, ?_, ?_, ?_⟩
      · rw [hTeq, head?_append_some nhead]
        simp [next_traverse_roleF, hfc, hk]
      · rw [hTeq, List.chain'_append]
        refine ⟨nchain, schain, ?_⟩
        intro x hx y hy
        rw [Option.mem_def, nlast] at hx
        cases Option.some_injective _ hx
        show next_traverse_roleF tree q tree.length (.End (o + 1)) = some y
        rw [hseam]
        exact Option.mem_def.mp hy
      · rw [hTeq, List.getLast?_append_of_ne_nil _ hsne, slast]
      · intro e he
        rw [hTeq, List.dropLast_append_of_ne_nil _ hsne] at he
        rcases List.mem_append.mp he with he1 | he2
        · rcases mem_split_last he1 with hd | hl
          · rcases nids e hd with rfl | hgt
            · simp [NodeEdge.edgeId]
            · omega
          · rw [nlast] at hl
            cases Option.some_injective _ hl.symm
            simp [NodeEdge.edgeId]
        · exact sids e he2
    · have hTeq : edgesTail (keepOf tree q) o (o + 1) (c :: cs)
          = .End (o + 1) :: edgesSib (keepOf tree q) o (o + 1 + c.size) cs := by
        simp [edgesTail, keepOf, hk]
      refine ⟨?_, ?_, ?_, ?_⟩
      · rw [hTeq]
        simp [next_traverse_roleF, hfc, hk]
      · rw [hTeq, List.chain'_cons']
        refine ⟨?_, schain⟩
        intro y hy
        show next_traverse_roleF tree q tree.length (.End (o + 1)) = some y
        rw [hseam]
        exact Option.mem_def.mp hy
      · rw [hTeq]
        exact getLast?_cons_some slast
      · intro e he
        rw [hTeq, dropLast_cons_of_ne_nil _ hsne] at he
        rcases List.mem_cons.mp he with rfl | he2
        · simp [NodeEdge.edgeId]
        · exact sids e he2
theorem edgesSib_spec [HasRole α] (tree : Arena α) (q : RoleSet) (cs : List A11yNode) :
    ∀ o oc, ReprF tree oc o cs → SibLinks tree o oc cs → o < oc →
      (∀ x, nextSiblingOf tree x = (childOffsets oc cs).head? → parentOf tree x = some o →
        ∀ fuel, cs.length < fuel →
          next_traverse_roleF tree q fuel (.End x)
            = (edgesSib (keepOf tree q) o oc cs).head?) ∧
      List.Chain' (stepRel tree q) (edgesSib (keepOf tree q) o oc cs) ∧
      (edgesSib (keepOf tree q) o oc cs).getLast? = some (.End o) ∧
      (∀ e ∈ (edgesSib (keepOf tree q) o oc cs).dropLast, o < e.edgeId) :=
  match cs with
  | [] => by
    intro o oc hF hsl holt
    refine ⟨?_, List.chain'_singleton _, rfl, by simp [edgesSib]⟩
    intro x hns hp fuel hfuel
    cases fuel with
    | zero => omega
    | succ f =>
      have hns2 : nextSiblingOf tree x = none := by
        simpa [childOffsets] using hns
      simp [next_traverse_roleF, hns2, hp, edgesSib]
  | c :: cs => by
    intro o oc hF hsl holt
    obtain ⟨slink, schain, slast, sids⟩ :=
      edgesSib_spec tree q cs o (oc + c.size) hF.2 hsl.2.2 (by omega)
    have hsne : edgesSib (keepOf tree q) o (oc + c.size) cs ≠ [] := ne_nil_of_getLast? slast
    have hocn : oc < tree.length := parentOf_lt hsl.2.1
    have hfuel2 : cs.length < tree.length := by
      cases cs with
      | nil =>
        simp only [List.length_nil]
        omega
      | cons c2 cs2 =>
        have hb := ReprF_bound (c2 :: cs2) _ _ hF.2 (by simp)
        have hl := length_le_sizeF (c2 :: cs2)
        omega
    have hseam : next_traverse_roleF tree q tree.length (.End oc)
        = (edgesSib (keepOf tree q) o (oc + c.size) cs).head? :=
      slink oc hsl.1 hsl.2.1 tree.length hfuel2
    have hns_of : ∀ x, nextSiblingOf tree x = (childOffsets oc (c :: cs)).head? →
        nextSiblingOf tree x = some oc := by
      intro x hx
      simpa [childOffsets] using hx
    by_cases hk : (rolesetAt tree oc).containsRS q = true
    · obtain ⟨nchain, nhead, nlast, nids⟩ := edgesN_spec tree q c oc (some o) hF.1
      have hSeq : edgesSib (keepOf tree q) o oc (c :: cs)
          = edgesN (keepOf tree q) oc c ++ edgesSib (keepOf tree q) o (oc + c.size) cs := by
        simp [edgesSib, keepOf, hk]
      refine ⟨?_, ?_, ?_, ?_⟩
      · intro x hns hp fuel hfuel
        cases fuel with
        | zero => simp at hfuel
        | succ f =>
          rw [hSeq, head?_append_some nhead]
          simp [next_traverse_roleF, hns_of x hns, hk]
      · rw [hSeq, List.chain'_append]
        refine ⟨nchain, schain, ?_⟩
        intro x hx y hy
        rw [Option.mem_def, nlast] at hx
        cases Option.some_injective _ hx
        show next_traverse_roleF tree q tree.length (.End oc) = some y
        rw [hseam]
        exact Option.mem_def.mp hy
      · rw [hSeq, List.getLast?_append_of_ne_nil _ hsne, slast]
      · intro e he
        rw [hSeq, List.dropLast_append_of_ne_nil _ hsne] at he
        rcases List.mem_append.mp he with he1 | he2
        · rcases mem_split_last he1 with hd | hl
          · rcases nids e hd with rfl | hgt
            · simp [NodeEdge.edgeId]
              omega
            · omega
          · rw [nlast] at hl
            cases Option.some_injective _ hl.symm
            simp [NodeEdge.edgeId]
            omega
        · exact sids e he2
    · have hSeq : edgesSib (keepOf tree q) o oc (c :: cs)
          = edgesSib (keepOf tree q) o (oc + c.size) cs := by
        simp [edgesSib, keepOf, hk]
      refine ⟨?_, ?_, ?_, ?_⟩
      · intro x hns hp fuel hfuel
        cases fuel with
        | zero => simp at hfuel
        | succ f =>
          rw [hSeq]
          have hstep : next_traverse_roleF tree q (f + 1) (.End x)
              = next_traverse_roleF tree q f (.End oc) := by
            simp [next_traverse_roleF, hns_of x hns, hk]
          rw [hstep]
          exact slink oc hsl.1 hsl.2.1 f (by simp at hfuel; omega)
      · rw [hSeq]; exact schain
      · rw [hSeq]; exact slast
      · rw [hSeq]; exact sids
end

/-- Running the cursor from the head of a step-linked edge list whose
only `End root` is its last element reproduces the list. -/
theorem traverseRoleRun_exact [HasRole α] (tree : Arena α) (q : RoleSet) (root : Nat) :
    ∀ (L : List NodeEdge) (e : NodeEdge) (fuel : Nat),
      List.Chain' (stepRel tree q) (e :: L) →
      (e :: L).getLast? = some (.End root) →
      (∀ x ∈ (e :: L).dropLast, x ≠ .End root) →
      L.length < fuel →
      traverseRoleRun tree q root fuel e = e :: L := by
  intro L
  induction L with
  | nil =>
    intro e fuel _ hlast _ hfuel
    cases fuel with
    | zero => omega
    | succ f =>
      have he : e = .End root := by simpa using hlast
      subst he
      simp [traverseRoleRun]
  | cons y L ih =>
    intro e fuel hchain hlast hdrop hfuel
    cases fuel with
    | zero => omega
    | succ f =>
      have hstep : next_traverse_roleF tree q tree.length e = some y :=
        (List.chain'_cons.mp hchain).1
      have hne : e ≠ .End root := by
        apply hdrop
        rw [dropLast_cons_of_ne_nil _ (by simp)]
        exact List.mem_cons_self _ _
      have htail := ih y f (List.chain'_cons.mp hchain).2
        (by rw [← hlast, List.getLast?_cons_cons])
        (fun x hx => hdrop x (by
          rw [dropLast_cons_of_ne_nil _ (by simp)]
          exact List.mem_cons_of_mem _ hx))
        (by simpa using hfuel)
      simp only [traverseRoleRun, if_neg hne, hstep]
      rw [htail]

mutual
theorem edgesN_length (keep : Nat → Bool) (a : A11yNode) :
    ∀ o, (edgesN keep o a).length ≤ 2 * a.size :=
  match a with
  | .mk r cs => by
    intro o
    have := edgesTail_length keep cs o (o + 1)
    simp only [edgesN, List.length_cons, A11yNode.size]
    omega
theorem edgesTail_length (keep : Nat → Bool) (cs : List A11yNode) :
    ∀ o oc, (edgesTail keep o oc cs).length ≤ 2 * A11yNode.sizeF cs + 1 :=
  match cs with
  | [] => by intro o oc; simp [edgesTail]
  | c :: cs => by
    intro o oc
    have h1 := edgesN_length keep c oc
    have h2 := edgesSib_length keep cs o (oc + c.size)
    have hp := c.size_pos
    by_cases hk : keep oc
    · simp only [edgesTail, if_pos hk, List.length_append, A11yNode.sizeF]
      omega
    · simp only [edgesTail, if_neg hk, List.length_cons, A11yNode.sizeF]
      omega
theorem edgesSib_length (keep : Nat → Bool) (cs : List A11yNode) :
    ∀ o oc, (edgesSib keep o oc cs).length ≤ 2 * A11yNode.sizeF cs + 1 :=
  match cs with
  | [] => by intro o oc; simp [edgesSib]
  | c :: cs => by
    intro o oc
    have h1 := edgesN_length keep c oc
    have h2 := edgesSib_length keep cs o (oc + c.size)
    have hp := c.size_pos
    by_cases hk : keep oc
    · simp only [edgesSib, if_pos hk, List.length_append, A11yNode.sizeF]
      omega
    · simp only [edgesSib, if_neg hk, A11yNode.sizeF]
      omega
end

/-- The cursor's edge stream from the root of a represented arena is
exactly the reference edge list of the tree. -/
theorem traverseRoleList_eq [HasRole α] {tree : Arena α} {a : A11yNode} (q : RoleSet)
    (h : ReprN tree 0 none a) (hlen : tree.length = a.size) :
    traverseRoleList tree q 0 = edgesN (keepOf tree q) 0 a := by
  obtain ⟨hchain, hhead, hlast, hids⟩ := edgesN_spec tree q a 0 none h
  obtain ⟨e, L, heL⟩ : ∃ e L, edgesN (keepOf tree q) 0 a = e :: L := by
    cases hE : edgesN (keepOf tree q) 0 a with
    | nil => rw [hE] at hhead; simp at hhead
    | cons e L => exact ⟨e, L, rfl⟩
  have he : e = .Start 0 := by
    rw [heL] at hhead
    simpa using hhead
  subst he
  rw [heL] at hchain hlast hids
  unfold traverseRoleList
  have hlenL : L.length < 2 * tree.length + 2 := by
    have := edgesN_length (keepOf tree q) a 0
    rw [heL] at this
    simp only [List.length_cons] at this
    omega
  rw [heL]
  apply traverseRoleRun_exact tree q 0 L (.Start 0) _ hchain hlast _ hlenL
  intro x hx
  rcases hids x hx with rfl | hgt
  · intro hcon
    exact NodeEdge.noConfusion hcon
  · intro hcon
    rw [hcon] at hgt
    simp [NodeEdge.edgeId] at hgt

mutual
theorem starts_edgesN (keep : Nat → Bool) (a : A11yNode) :
    ∀ o, (edgesN keep o a).filterMap
        (fun e => match e with | .Start id => some id | .End _ => none)
      = prunedIdsN keep o a :=
  match a with
  | .mk r cs => by
    intro o
    simp only [edgesN, prunedIdsN, List.filterMap_cons]
    rw [starts_edgesTail keep cs o (o + 1)]
theorem starts_edgesTail (keep : Nat → Bool) (cs : List A11yNode) :
    ∀ o oc, (edgesTail keep o oc cs).filterMap
        (fun e => match e with | .Start id => some id | .End _ => none)
      = prunedIdsF keep oc cs :=
  match cs with
  | [] => by intro o oc; rfl
  | c :: cs => by
    intro o oc
    by_cases hk : keep oc
    · simp only [edgesTail, if_pos hk, prunedIdsF, List.filterMap_append]
      rw [starts_edgesN keep c oc, starts_edgesSib keep cs o (oc + c.size)]
    · simp only [edgesTail, if_neg hk, prunedIdsF, List.filterMap_cons]
      rw [starts_edgesSib keep cs o (oc + c.size)]
      simp [hk]
theorem starts_edgesSib (keep : Nat → Bool) (cs : List A11yNode) :
    ∀ o oc, (edgesSib keep o oc cs).filterMap
        (fun e => match e with | .Start id => some id | .End _ => none)
      = prunedIdsF keep oc cs :=
  match cs with
  | [] => by intro o oc; rfl
  | c :: cs => by
    intro o oc
    by_cases hk : keep oc
    · simp only [edgesSib, if_pos hk, prunedIdsF, List.filterMap_append]
      rw [starts_edgesN keep c oc, starts_edgesSib keep cs o (oc + c.size)]
    · simp only [edgesSib, if_neg hk, prunedIdsF]
      rw [starts_edgesSib keep cs o (oc + c.size)]
      simp [hk]
end

/-- `descendants_role` (the pruned preorder cursor) visits exactly the
reference pruned preorder. -/
theorem descendantsRoleList_eq [HasRole α] {tree : Arena α} {a : A11yNode} (q : RoleSet)
    (h : ReprN tree 0 none a) (hlen : tree.length = a.size) :
    descendantsRoleList tree q 0 = prunedIdsN (keepOf tree q) 0 a := by
  unfold descendantsRoleList
  rw [traverseRoleList_eq q h hlen, starts_edgesN]

theorem nodeAtIdx_zero (a : A11yNode) : nodeAtIdx a 0 = some a := by
  cases a; rfl

mutual
theorem rolesOf_length (a : A11yNode) : (rolesOf a).length = a.size :=
  match a with
  | .mk r cs => by
    simp only [rolesOf, List.length_cons, A11yNode.size, rolesOfF_length cs]
    omega
theorem rolesOfF_length (cs : List A11yNode) : (rolesOfF cs).length = A11yNode.sizeF cs :=
  match cs with
  | [] => rfl
  | c :: cs => by
    simp only [rolesOfF, List.length_append, A11yNode.sizeF, rolesOf_length c,
      rolesOfF_length cs]
end

mutual
theorem rolesOf_get (a : A11yNode) :
    ∀ d, (rolesOf a)[d]? = (nodeAtIdx a d).map A11yNode.role :=
  match a with
  | .mk r cs => by
    intro d
    rw [show rolesOf (A11yNode.mk r cs) = r :: rolesOfF cs from rfl]
    cases d with
    | zero =>
      rw [nodeAtIdx_zero]
      simp [A11yNode.role]
    | succ d =>
      rw [List.getElem?_cons_succ, rolesOfF_get cs d,
        show nodeAtIdx (A11yNode.mk r cs) (d + 1) = nodeAtIdxF cs d from rfl]
theorem rolesOfF_get (cs : List A11yNode) :
    ∀ d, (rolesOfF cs)[d]? = (nodeAtIdxF cs d).map A11yNode.role :=
  match cs with
  | [] => by intro d; rfl
  | c :: cs => by
    intro d
    by_cases hd : d < c.size
    · rw [show rolesOfF (c :: cs) = rolesOf c ++ rolesOfF cs from rfl,
        List.getElem?_append_left (by rw [rolesOf_length]; exact hd),
        rolesOf_get c d]
      show _ = (if d < c.size then nodeAtIdx c d else nodeAtIdxF cs (d - c.size)).map _
      rw [if_pos hd]
    · rw [show rolesOfF (c :: cs) = rolesOf c ++ rolesOfF cs from rfl,
        List.getElem?_append_right (by rw [rolesOf_length]; omega)]
      rw [rolesOf_length, rolesOfF_get cs (d - c.size)]
      show _ = (if d < c.size then nodeAtIdx c d else nodeAtIdxF cs (d - c.size)).map _
      rw [if_neg hd]
end

mutual
theorem prunedIdsN_sublist (keep : Nat → Bool) (a : A11yNode) :
    ∀ o, (prunedIdsN keep o a).Sublist (List.range' o a.size) :=
  match a with
  | .mk r cs => by
    intro o
    have hsz : (A11yNode.mk r cs).size = A11yNode.sizeF cs + 1 := by
      simp [A11yNode.size]; omega
    rw [hsz, List.range'_succ]
    exact (prunedIdsF_sublist keep cs (o + 1)).cons₂ o
theorem prunedIdsF_sublist (keep : Nat → Bool) (cs : List A11yNode) :
    ∀ o, (prunedIdsF keep o cs).Sublist (List.range' o (A11yNode.sizeF cs)) :=
  match cs with
  | [] => by intro o; simp [prunedIdsF, A11yNode.sizeF]
  | c :: cs => by
    intro o
    have hsz : A11yNode.sizeF (c :: cs) = c.size + A11yNode.sizeF cs := rfl
    rw [hsz, Nat.add_comm c.size (A11yNode.sizeF cs), ← List.range'_append_1]
    show (prunedIdsF keep o (c :: cs)).Sublist
      (List.range' o c.size ++ List.range' (o + c.size) (A11yNode.sizeF cs))
    by_cases hk : keep o
    · rw [show prunedIdsF keep o (c :: cs)
          = (if keep o then prunedIdsN keep o c else []) ++ prunedIdsF keep (o + c.size) cs
          from rfl, if_pos hk]
      exact (prunedIdsN_sublist keep c o).append (prunedIdsF_sublist keep cs (o + c.size))
    · rw [show prunedIdsF keep o (c :: cs)
          = (if keep o then prunedIdsN keep o c else []) ++ prunedIdsF keep (o + c.size) cs
          from rfl, if_neg hk, List.nil_append]
      have := (List.nil_sublist (List.range' o c.size)).append
        (prunedIdsF_sublist keep cs (o + c.size))
      simpa using this
end

/-- Searching a duplicate-free list for the first element passing a
pointwise test ignores elements that fail it: any sublist containing all
passers finds the same first hit. -/
theorem findSome_if_sublist (p : Nat → Bool) {S L : List Nat} (hsub : S.Sublist L)
    (hnd : L.Nodup) (hcompl : ∀ x ∈ L, p x = true → x ∈ S) :
    L.findSome? (fun x => if p x then some x else none)
      = S.findSome? (fun x => if p x then some x else none) := by
  induction hsub with
  | slnil => rfl
  | cons y hsub ih =>
    rename_i S L
    have hny : y ∉ L := (List.nodup_cons.mp hnd).1
    have hpy : p y = false := by
      by_contra hpy
      have : y ∈ S := hcompl y (List.mem_cons_self _ _) (by
        cases h : p y
        · exact absurd h hpy
        · rfl)
      exact hny (hsub.subset this)
    rw [List.findSome?_cons]
    rw [if_neg (by simp [hpy])]
    exact ih (List.nodup_cons.mp hnd).2
      (fun x hx hp => hcompl x (List.mem_cons_of_mem _ hx) hp)
  | cons₂ y hsub ih =>
    rename_i S L
    have hny : y ∉ L := (List.nodup_cons.mp hnd).1
    rw [List.findSome?_cons, List.findSome?_cons]
    cases hpy : p y with
    | true => simp
    | false =>
      simp only [Bool.false_eq_true, if_false]
      exact ih (List.nodup_cons.mp hnd).2 (fun x hx hp => by
        rcases List.mem_cons.mp (hcompl x (List.mem_cons_of_mem _ hx) hp) with rfl | h
        · exact absurd hx hny
        · exact h)

theorem findRoleIn_eq_findSome_if [HasRole α] (tree : Arena α) (role : Role) (ids : List Nat) :
    findRoleIn tree role ids
      = ids.findSome? (fun x => if (roleAt tree x == some role) then some x else none) := by
  unfold findRoleIn
  congr 1
  funext id
  cases h : tree[id]? with
  | none => simp [roleAt, h]
  | some n =>
    simp only [roleAt, h, Option.map_some]
    by_cases hr : HasRole.role n.data = role
    · rw [if_pos hr, if_pos (by simp [hr])]
    · rw [if_neg hr, if_neg (by simp [hr])]

/-- The shared final filtering step of the `find_first*` strategies is
insensitive to dropping ids whose role cannot match, as long as every id
carrying the role is kept. -/
theorem findRoleIn_sublist [HasRole α] (tree : Arena α) (role : Role) {S L : List Nat}
    (hsub : S.Sublist L) (hnd : L.Nodup)
    (hcompl : ∀ x ∈ L, roleAt tree x = some role → x ∈ S) :
    findRoleIn tree role L = findRoleIn tree role S := by
  rw [findRoleIn_eq_findSome_if, findRoleIn_eq_findSome_if]
  exact findSome_if_sublist _ hsub hnd (fun x hx hp => hcompl x hx (by
    have := of_decide_eq_true (by simpa using hp)
    exact this))

mutual
/-- Completeness of the pruned preorder: when the `keep` test accepts
every node whose subtree contains role `r`, the pruned walk of a subtree
visits every node of that subtree carrying role `r`. -/
theorem prunedCompl_N (keep : Nat → Bool) (r : Role) (a₀ : A11yNode) (a : A11yNode) :
    ∀ o,
      (∀ d, d < a.size → nodeAtIdx a₀ (o + d) = nodeAtIdx a d) →
      (∀ m sm, nodeAtIdx a₀ m = some sm →
        (∃ d sd, m ≤ d ∧ d < m + sm.size ∧ nodeAtIdx a₀ d = some sd ∧ sd.role = r) →
        keep m = true) →
      ∀ j sj, o ≤ j → j < o + a.size → nodeAtIdx a₀ j = some sj → sj.role = r →
        j ∈ prunedIdsN keep o a :=
  match a with
  | .mk rr cs => by
    intro o hat hkeep j sj hoj hj hatj hrole
    have hsz : (A11yNode.mk rr cs).size = 1 + A11yNode.sizeF cs := rfl
    show j ∈ o :: prunedIdsF keep (o + 1) cs
    by_cases hjo : j = o
    · subst hjo
      exact List.mem_cons_self _ _
    · apply List.mem_cons_of_mem
      apply prunedCompl_F keep r a₀ cs (o + 1) _ hkeep j sj (by omega)
        (by rw [hsz] at hj; omega) hatj hrole
      intro d hd
      have h1 := hat (1 + d) (by rw [hsz]; omega)
      rw [show o + (1 + d) = o + 1 + d by omega] at h1
      rw [show 1 + d = d + 1 by omega] at h1
      exact h1.trans (show nodeAtIdx (A11yNode.mk rr cs) (d + 1) = nodeAtIdxF cs d from rfl)
theorem prunedCompl_F (keep : Nat → Bool) (r : Role) (a₀ : A11yNode) (cs : List A11yNode) :
    ∀ o,
      (∀ d, d < A11yNode.sizeF cs → nodeAtIdx a₀ (o + d) = nodeAtIdxF cs d) →
      (∀ m sm, nodeAtIdx a₀ m = some sm →
        (∃ d sd, m ≤ d ∧ d < m + sm.size ∧ nodeAtIdx a₀ d = some sd ∧ sd.role = r) →
        keep m = true) →
      ∀ j sj, o ≤ j → j < o + A11yNode.sizeF cs → nodeAtIdx a₀ j = some sj → sj.role = r →
        j ∈ prunedIdsF keep o cs :=
  match cs with
  | [] => by
    intro o _ _ j sj hoj hj _ _
    simp only [A11yNode.sizeF] at hj
    exact absurd hj (by omega)
  | c :: cs => by
    intro o hat hkeep j sj hoj hj hatj hrole
    have hsz : A11yNode.sizeF (c :: cs) = c.size + A11yNode.sizeF cs := rfl
    show j ∈ (if keep o then prunedIdsN keep o c else []) ++ prunedIdsF keep (o + c.size) cs
    by_cases hjc : j < o + c.size
    · have hco : nodeAtIdx a₀ o = some c := by
        have h0 := hat 0 (by rw [hsz]; have := c.size_pos; omega)
        rw [Nat.add_zero] at h0
        rw [h0]
        show (if 0 < c.size then nodeAtIdx c 0 else nodeAtIdxF cs (0 - c.size)) = some c
        rw [if_pos c.size_pos, nodeAtIdx_zero]
      have hkeepo : keep o = true :=
        hkeep o c hco ⟨j, sj, hoj, hjc, hatj, hrole⟩
      rw [if_pos hkeepo]
      apply List.mem_append_left
      apply prunedCompl_N keep r a₀ c o _ hkeep j sj hoj hjc hatj hrole
      intro d hd
      have h1 := hat d (by rw [hsz]; omega)
      rw [h1]
      show (if d < c.size then nodeAtIdx c d else nodeAtIdxF cs (d - c.size)) = nodeAtIdx c d
      rw [if_pos hd]
    · apply List.mem_append_right
      apply prunedCompl_F keep r a₀ cs (o + c.size) _ hkeep j sj (by omega)
        (by rw [hsz] at hj; omega) hatj hrole
      intro d hd
      have h1 := hat (c.size + d) (by rw [hsz]; omega)
      rw [← Nat.add_assoc] at h1
      rw [h1]
      show (if c.size + d < c.size then nodeAtIdx c (c.size + d)
            else nodeAtIdxF cs (c.size + d - c.size)) = nodeAtIdxF cs d
      rw [if_neg (by omega)]
      congr 1
      omega
end

/-! ## The pruning test on built arenas -/

theorem keep_built_iff (a : A11yNode) (r : Role) {m : Nat} {sm : A11yNode}
    (hsm : nodeAtIdx a m = some sm) :
    keepOf (Tree.build_rolesets (Tree.from_root_node a)).inner (roleToSet r) m = true ↔
      ∃ d sd, m ≤ d ∧ d < m + sm.size ∧ nodeAtIdx a d = some sd ∧ sd.role = r := by
  show RoleSet.containsRS _ (roleToSet r) = true ↔ _
  rw [containsRS_single, Tree_roleset_subtree a m r,
    show subSize a m = sm.size by simp [subSize, hsm]]

theorem keep_built_count_iff (a : A11yNode) (r : Role) {m : Nat} {sm : A11yNode}
    (hsm : nodeAtIdx a m = some sm) :
    keepOf (TreeCount.build_rolesets (TreeCount.from_root_node a)).inner (roleToSet r) m
        = true ↔
      ∃ d sd, m ≤ d ∧ d < m + sm.size ∧ nodeAtIdx a d = some sd ∧ sd.role = r := by
  show RoleSet.containsRS _ (roleToSet r) = true ↔ _
  rw [containsRS_single, TreeCount_roleset_subtree a m r,
    show subSize a m = sm.size by simp [subSize, hsm]]

theorem pruned_complete [HasRole α] {tree : Arena α} (a : A11yNode) (r : Role)
    (hkeep : ∀ m sm, nodeAtIdx a m = some sm →
      (∃ d sd, m ≤ d ∧ d < m + sm.size ∧ nodeAtIdx a d = some sd ∧ sd.role = r) →
      keepOf tree (roleToSet r) m = true)
    {j : Nat} {sj : A11yNode} (hj : nodeAtIdx a j = some sj) (hrole : sj.role = r) :
    j ∈ prunedIdsN (keepOf tree (roleToSet r)) 0 a :=
  prunedCompl_N (keepOf tree (roleToSet r)) r a a 0
    (fun d _ => by rw [Nat.zero_add]) hkeep j sj (Nat.zero_le _)
    (by rw [Nat.zero_add]; exact nodeAtIdx_lt hj) hj hrole

/-- Pruning never changes the answer: the pruned preorder is a sublist of
the full arena order that keeps every id whose role matches. -/
theorem findRoleIn_range_eq_pruned [HasRole α] {tree : Arena α} {a : A11yNode} (r : Role)
    (h : ReprN tree 0 none a)
    (hkeep : ∀ m sm, nodeAtIdx a m = some sm →
      (∃ d sd, m ≤ d ∧ d < m + sm.size ∧ nodeAtIdx a d = some sd ∧ sd.role = r) →
      keepOf tree (roleToSet r) m = true) :
    findRoleIn tree r (List.range a.size)
      = findRoleIn tree r (prunedIdsN (keepOf tree (roleToSet r)) 0 a) := by
  rw [List.range_eq_range']
  apply findRoleIn_sublist tree r (prunedIdsN_sublist _ a 0)
    (List.nodup_range' 0 a.size 1 (by omega))
  intro x hx hrole
  have hxlt : x < a.size := by
    have := List.mem_range'_1.mp hx
    omega
  obtain ⟨p', sub, hsub, hrepr⟩ := nodeAtIdx_Repr a h x hxlt
  rw [Nat.zero_add] at hrepr
  have hr : roleAt tree x = some sub.role := ReprN_roleAt hrepr
  have hsubr : sub.role = r := by
    rw [hr] at hrole
    exact Option.some_injective _ hrole
  exact pruned_complete a r hkeep hsub hsubr

/-! ## The arena scan is the spec's preorder scan -/

theorem findIdx_shift (l : List Role) (pb : Role → Bool) :
    ∀ s, List.findIdx? pb l s = (List.findIdx? pb l 0).map (· + s) := by
  induction l with
  | nil => intro s; simp [List.findIdx?]
  | cons x xs ih =>
    intro s
    rw [List.findIdx?_cons, List.findIdx?_cons]
    by_cases hx : pb x
    · simp [hx]
    · simp only [hx, Bool.false_eq_true, if_false]
      rw [ih (s + 1), ih 1]
      cases List.findIdx? pb xs 0 with
      | none => simp
      | some v => simp; omega

theorem findRoleIn_cons [HasRole α] (tree : Arena α) (r : Role) (x : Nat) (L : List Nat) :
    findRoleIn tree r (x :: L)
      = if roleAt tree x = some r then some x else findRoleIn tree r L := by
  rw [findRoleIn_eq_findSome_if, List.findSome?_cons, ← findRoleIn_eq_findSome_if]
  by_cases hx : roleAt tree x = some r
  · simp [hx]
  · simp [hx]

theorem findRoleIn_range_shift [HasRole α] (tree : Arena α) (r : Role) :
    ∀ (l : List Role) (s : Nat),
      (∀ j, (h : j < l.length) → roleAt tree (s + j) = some (l.get ⟨j, h⟩)) →
      findRoleIn tree r (List.range' s l.length)
        = (List.findIdx? (fun x => x = r) l 0).map (· + s) := by
  intro l
  induction l with
  | nil => intro s _; simp [findRoleIn, List.findIdx?]
  | cons x xs ih =>
    intro s hag
    have hx : roleAt tree s = some x := by
      have := hag 0 (by simp)
      simpa using this
    rw [List.length_cons, List.range'_succ, findRoleIn_cons, List.findIdx?_cons]
    by_cases hxr : x = r
    · rw [if_pos (by rw [hx, hxr]), if_pos (by simp [hxr])]
      simp
    · rw [if_neg (by rw [hx]; simp [hxr]), if_neg (by simp [hxr])]
      have hag' : ∀ j, (h : j < xs.length) →
          roleAt tree (s + 1 + j) = some (xs.get ⟨j, h⟩) := by
        intro j hj
        have := hag (j + 1) (by simp; omega)
        rw [show s + (j + 1) = s + 1 + j by omega] at this
        simpa using this
      rw [ih (s + 1) hag', findIdx_shift xs _ 1]
      cases List.findIdx? (fun x => x = r) xs 0 with
      | none => simp
      | some v => simp; omega

theorem findRoleIn_range_eq_spec [HasRole α] {tree : Arena α} {a : A11yNode} (r : Role)
    (h : ReprN tree 0 none a) :
    findRoleIn tree r (List.range a.size) = specFindFirst a r := by
  rw [List.range_eq_range', ← rolesOf_length a]
  have hag : ∀ j, (hj : j < (rolesOf a).length) →
      roleAt tree (0 + j) = some ((rolesOf a).get ⟨j, hj⟩) := by
    intro j hj
    have hget : (rolesOf a)[j]? = some ((rolesOf a).get ⟨j, hj⟩) := by
      rw [List.getElem?_eq_getElem hj]
      rfl
    rw [rolesOf_get a j] at hget
    obtain ⟨sub, hsub, hrole⟩ : ∃ sub, nodeAtIdx a j = some sub ∧
        sub.role = (rolesOf a).get ⟨j, hj⟩ := by
      cases hn : nodeAtIdx a j with
      | none => rw [hn] at hget; simp at hget
      | some sub =>
        rw [hn] at hget
        exact ⟨sub, rfl, by simpa using hget⟩
    rw [Nat.zero_add, roleAt_char h hsub, hrole]
  rw [findRoleIn_range_shift tree r (rolesOf a) 0 hag]
  show _ = (rolesOf a).findIdx? (fun x => decide (x = r))
  cases List.findIdx? (fun x => x = r) (rolesOf a) 0 with
  | none => simp
  | some v => simp

/-! ## The rayon pruned walk is the reference pruned postfix order -/

mutual
theorem walkTree_eq_N [HasRole α] {tree : Arena α} (q : RoleSet) (a : A11yNode) :
    ∀ o p, ReprN tree o p a → ∀ fuel, a.size ≤ fuel + 1 →
      walkTreePrunedF tree q fuel o = prunedIdsPostN (keepOf tree q) o a :=
  match a with
  | .mk r cs => by
    intro o p hrep fuel hfuel
    have hsz : (A11yNode.mk r cs).size = 1 + A11yNode.sizeF cs := rfl
    cases fuel with
    | zero =>
      have hcs : cs = [] := A11yNode.sizeF_eq_zero (by rw [hsz] at hfuel; omega)
      subst hcs
      show [o] = prunedIdsPostF (keepOf tree q) (o + 1) [] ++ [o]
      rfl
    | succ f =>
      have hch := ReprN_childrenOf hrep
      simp only [A11yNode.children] at hch
      show _ ++ [o] = prunedIdsPostF (keepOf tree q) (o + 1) cs ++ [o]
      rw [hch]
      congr 1
      exact walkTree_eq_F q cs (o + 1) o (ReprN_forest hrep) f
        (by rw [hsz] at hfuel; omega)
theorem walkTree_eq_F [HasRole α] {tree : Arena α} (q : RoleSet) (cs : List A11yNode) :
    ∀ o pid, ReprF tree o pid cs → ∀ fuel, A11yNode.sizeF cs ≤ fuel + 1 →
      ((childOffsets o cs).filter (fun c => (rolesetAt tree c).containsRS q)).flatMap
          (walkTreePrunedF tree q fuel)
        = prunedIdsPostF (keepOf tree q) o cs :=
  match cs with
  | [] => by
    intro o pid _ fuel _
    show ([] : List Nat).flatMap _ = prunedIdsPostF (keepOf tree q) o []
    rfl
  | c :: cs => by
    intro o pid hrep fuel hfuel
    have hsz : A11yNode.sizeF (c :: cs) = c.size + A11yNode.sizeF cs := rfl
    rw [show childOffsets o (c :: cs) = o :: childOffsets (o + c.size) cs from rfl,
      List.filter_cons,
      show prunedIdsPostF (keepOf tree q) o (c :: cs)
        = (if keepOf tree q o then prunedIdsPostN (keepOf tree q) o c else [])
          ++ prunedIdsPostF (keepOf tree q) (o + c.size) cs from rfl]
    have hrest := walkTree_eq_F q cs (o + c.size) pid hrep.2 fuel
      (by rw [hsz] at hfuel; have := c.size_pos; omega)
    by_cases hk : keepOf tree q o
    · rw [if_pos (by exact hk), if_pos hk, List.flatMap_cons, hrest]
      congr 1
      exact walkTree_eq_N q c o (some pid) hrep.1 fuel (by rw [hsz] at hfuel; omega)
    · rw [if_neg (by exact hk), if_neg hk, hrest, List.nil_append]
end

/-! ## Postfix order: membership, distinctness, pruning completeness -/

mutual
theorem mem_postIdsN (a : A11yNode) :
    ∀ o x, x ∈ postIdsN o a ↔ (o ≤ x ∧ x < o + a.size) :=
  match a with
  | .mk r cs => by
    intro o x
    have hsz : (A11yNode.mk r cs).size = 1 + A11yNode.sizeF cs := rfl
    show x ∈ postIdsF (o + 1) cs ++ [o] ↔ _
    rw [List.mem_append, List.mem_singleton, mem_postIdsF cs (o + 1) x, hsz]
    omega
theorem mem_postIdsF (cs : List A11yNode) :
    ∀ o x, x ∈ postIdsF o cs ↔ (o ≤ x ∧ x < o + A11yNode.sizeF cs) :=
  match cs with
  | [] => by
    intro o x
    show x ∈ ([] : List Nat) ↔ _
    simp only [List.not_mem_nil, false_iff]
    show ¬(o ≤ x ∧ x < o + A11yNode.sizeF [])
    simp only [A11yNode.sizeF]
    omega
  | c :: cs => by
    intro o x
    have hsz : A11yNode.sizeF (c :: cs) = c.size + A11yNode.sizeF cs := rfl
    show x ∈ postIdsN o c ++ postIdsF (o + c.size) cs ↔ _
    rw [List.mem_append, mem_postIdsN c o x, mem_postIdsF cs (o + c.size) x, hsz]
    omega
end

mutual
theorem nodup_postIdsN (a : A11yNode) : ∀ o, (postIdsN o a).Nodup :=
  match a with
  | .mk r cs => by
    intro o
    show (postIdsF (o + 1) cs ++ [o]).Nodup
    rw [List.nodup_append]
    refine ⟨nodup_postIdsF cs (o + 1), List.nodup_singleton o, ?_⟩
    intro x hx hxo
    have h1 := (mem_postIdsF cs (o + 1) x).mp hx
    have h2 : x = o := List.mem_singleton.mp hxo
    omega
theorem nodup_postIdsF (cs : List A11yNode) : ∀ o, (postIdsF o cs).Nodup :=
  match cs with
  | [] => by intro o; exact List.nodup_nil
  | c :: cs => by
    intro o
    show (postIdsN o c ++ postIdsF (o + c.size) cs).Nodup
    rw [List.nodup_append]
    refine ⟨nodup_postIdsN c o, nodup_postIdsF cs (o + c.size), ?_⟩
    intro x hx hx'
    have h1 := (mem_postIdsN c o x).mp hx
    have h2 := (mem_postIdsF cs (o + c.size) x).mp hx'
    omega
end

mutual
theorem prunedIdsPostN_sublist (keep : Nat → Bool) (a : A11yNode) :
    ∀ o, (prunedIdsPostN keep o a).Sublist (postIdsN o a) :=
  match a with
  | .mk r cs => by
    intro o
    show (prunedIdsPostF keep (o + 1) cs ++ [o]).Sublist (postIdsF (o + 1) cs ++ [o])
    exact (prunedIdsPostF_sublist keep cs (o + 1)).append (List.Sublist.refl [o])
theorem prunedIdsPostF_sublist (keep : Nat → Bool) (cs : List A11yNode) :
    ∀ o, (prunedIdsPostF keep o cs).Sublist (postIdsF o cs) :=
  match cs with
  | [] => by intro o; exact List.Sublist.refl []
  | c :: cs => by
    intro o
    show ((if keep o then prunedIdsPostN keep o c else [])
        ++ prunedIdsPostF keep (o + c.size) cs).Sublist
      (postIdsN o c ++ postIdsF (o + c.size) cs)
    by_cases hk : keep o
    · rw [if_pos hk]
      exact (prunedIdsPostN_sublist keep c o).append
        (prunedIdsPostF_sublist keep cs (o + c.size))
    · rw [if_neg hk]
      exact (List.nil_sublist (postIdsN o c)).append
        (prunedIdsPostF_sublist keep cs (o + c.size))
end

mutual
/-- Completeness of the pruned postfix walk: when the `keep` test accepts
every node whose subtree contains role `r`, the pruned postfix walk of a
subtree visits every node of that subtree carrying role `r`. -/
theorem prunedPostCompl_N (keep : Nat → Bool) (r : Role) (a₀ : A11yNode) (a : A11yNode) :
    ∀ o,
      (∀ d, d < a.size → nodeAtIdx a₀ (o + d) = nodeAtIdx a d) →
      (∀ m sm, nodeAtIdx a₀ m = some sm →
        (∃ d sd, m ≤ d ∧ d < m + sm.size ∧ nodeAtIdx a₀ d = some sd ∧ sd.role = r) →
        keep m = true) →
      ∀ j sj, o ≤ j → j < o + a.size → nodeAtIdx a₀ j = some sj → sj.role = r →
        j ∈ prunedIdsPostN keep o a :=
  match a with
  | .mk rr cs => by
    intro o hat hkeep j sj hoj hj hatj hrole
    have hsz : (A11yNode.mk rr cs).size = 1 + A11yNode.sizeF cs := rfl
    show j ∈ prunedIdsPostF keep (o + 1) cs ++ [o]
    by_cases hjo : j = o
    · subst hjo
      exact List.mem_append_right _ (List.mem_singleton.mpr rfl)
    · apply List.mem_append_left
      apply prunedPostCompl_F keep r a₀ cs (o + 1) _ hkeep j sj (by omega)
        (by rw [hsz] at hj; omega) hatj hrole
      intro d hd
      have h1 := hat (1 + d) (by rw [hsz]; omega)
      rw [show o + (1 + d) = o + 1 + d by omega] at h1
      rw [show 1 + d = d + 1 by omega] at h1
      exact h1.trans (show nodeAtIdx (A11yNode.mk rr cs) (d + 1) = nodeAtIdxF cs d from rfl)
theorem prunedPostCompl_F (keep : Nat → Bool) (r : Role) (a₀ : A11yNode) (cs : List A11yNode) :
    ∀ o,
      (∀ d, d < A11yNode.sizeF cs → nodeAtIdx a₀ (o + d) = nodeAtIdxF cs d) →
      (∀ m sm, nodeAtIdx a₀ m = some sm →
        (∃ d sd, m ≤ d ∧ d < m + sm.size ∧ nodeAtIdx a₀ d = some sd ∧ sd.role = r) →
        keep m = true) →
      ∀ j sj, o ≤ j → j < o + A11yNode.sizeF cs → nodeAtIdx a₀ j = some sj → sj.role = r →
        j ∈ prunedIdsPostF keep o cs :=
  match cs with
  | [] => by
    intro o _ _ j sj hoj hj _ _
    simp only [A11yNode.sizeF] at hj
    exact absurd hj (by omega)
  | c :: cs => by
    intro o hat hkeep j sj hoj hj hatj hrole
    have hsz : A11yNode.sizeF (c :: cs) = c.size + A11yNode.sizeF cs := rfl
    show j ∈ (if keep o then prunedIdsPostN keep o c else [])
        ++ prunedIdsPostF keep (o + c.size) cs
    by_cases hjc : j < o + c.size
    · have hco : nodeAtIdx a₀ o = some c := by
        have h0 := hat 0 (by rw [hsz]; have := c.size_pos; omega)
        rw [Nat.add_zero] at h0
        rw [h0]
        show (if 0 < c.size then nodeAtIdx c 0 else nodeAtIdxF cs (0 - c.size)) = some c
        rw [if_pos c.size_pos, nodeAtIdx_zero]
      have hkeepo : keep o = true :=
        hkeep o c hco ⟨j, sj, hoj, hjc, hatj, hrole⟩
      rw [if_pos hkeepo]
      apply List.mem_append_left
      apply prunedPostCompl_N keep r a₀ c o _ hkeep j sj hoj hjc hatj hrole
      intro d hd
      have h1 := hat d (by rw [hsz]; omega)
      rw [h1]
      show (if d < c.size then nodeAtIdx c d else nodeAtIdxF cs (d - c.size)) = nodeAtIdx c d
      rw [if_pos hd]
    · apply List.mem_append_right
      apply prunedPostCompl_F keep r a₀ cs (o + c.size) _ hkeep j sj (by omega)
        (by rw [hsz] at hj; omega) hatj hrole
      intro d hd
      have h1 := hat (c.size + d) (by rw [hsz]; omega)
      rw [← Nat.add_assoc] at h1
      rw [h1]
      show (if c.size + d < c.size then nodeAtIdx c (c.size + d)
            else nodeAtIdxF cs (c.size + d - c.size)) = nodeAtIdxF cs d
      rw [if_neg (by omega)]
      congr 1
      omega
end

theorem prunedPost_complete [HasRole α] {tree : Arena α} (a : A11yNode) (r : Role)
    (hkeep : ∀ m sm, nodeAtIdx a m = some sm →
      (∃ d sd, m ≤ d ∧ d < m + sm.size ∧ nodeAtIdx a d = some sd ∧ sd.role = r) →
      keepOf tree (roleToSet r) m = true)
    {j : Nat} {sj : A11yNode} (hj : nodeAtIdx a j = some sj) (hrole : sj.role = r) :
    j ∈ prunedIdsPostN (keepOf tree (roleToSet r)) 0 a :=
  prunedPostCompl_N (keepOf tree (roleToSet r)) r a a 0
    (fun d _ => by rw [Nat.zero_add]) hkeep j sj (Nat.zero_le _)
    (by rw [Nat.zero_add]; exact nodeAtIdx_lt hj) hj hrole

/-- Pruning never changes the postfix answer: the pruned postfix walk is
a duplicate-free sublist of the full postfix order that keeps every id
whose role matches. -/
theorem findRoleIn_post_eq_pruned [HasRole α] {tree : Arena α} {a : A11yNode} (r : Role)
    (h : ReprN tree 0 none a)
    (hkeep : ∀ m sm, nodeAtIdx a m = some sm →
      (∃ d sd, m ≤ d ∧ d < m + sm.size ∧ nodeAtIdx a d = some sd ∧ sd.role = r) →
      keepOf tree (roleToSet r) m = true) :
    findRoleIn tree r (postIdsN 0 a)
      = findRoleIn tree r (prunedIdsPostN (keepOf tree (roleToSet r)) 0 a) := by
  apply findRoleIn_sublist tree r (prunedIdsPostN_sublist _ a 0) (nodup_postIdsN a 0)
  intro x hx hrole
  have hxlt : x < a.size := by
    have := (mem_postIdsN a 0 x).mp hx
    omega
  obtain ⟨p', sub, hsub, hrepr⟩ := nodeAtIdx_Repr a h x hxlt
  rw [Nat.zero_add] at hrepr
  have hr : roleAt tree x = some sub.role := ReprN_roleAt hrepr
  have hsubr : sub.role = r := by
    rw [hr] at hrole
    exact Option.some_injective _ hrole
  exact prunedPost_complete a r hkeep hsub hsubr

theorem findSome_congr_mem {l : List Nat} {f g : Nat → Option Nat}
    (h : ∀ x ∈ l, f x = g x) : l.findSome? f = l.findSome? g := by
  induction l with
  | nil => rfl
  | cons x l ih =>
    rw [List.findSome?_cons, List.findSome?_cons, h x (List.mem_cons_self _ _)]
    cases g x with
    | none => exact ih (fun y hy => h y (List.mem_cons_of_mem _ hy))
    | some v => rfl

/-- On a represented arena, searching the full postfix order through the
arena is the spec's postfix-first match. -/
theorem findRoleIn_post_eq_spec [HasRole α] {tree : Arena α} {a : A11yNode} (r : Role)
    (h : ReprN tree 0 none a) :
    findRoleIn tree r (postIdsN 0 a) = specFindFirstPost a r := by
  unfold findRoleIn specFindFirstPost
  apply findSome_congr_mem
  intro i hi
  have hilt : i < a.size := by
    have := (mem_postIdsN a 0 i).mp hi
    omega
  obtain ⟨p', sub, hsub, hrepr⟩ := nodeAtIdx_Repr a h i hilt
  rw [Nat.zero_add] at hrepr
  obtain ⟨nd, hnd, _, _, hndrole⟩ := ReprN_get? hrepr
  rw [hnd, hsub]
  show (if HasRole.role nd.data = r then some i else none)
      = (if sub.role = r then some i else none)
  rw [hndrole]

/-! ## The explicit stack search is the reference pruned preorder -/

theorem childOffsets_length (o : Nat) (cs : List A11yNode) :
    (childOffsets o cs).length = cs.length := by
  induction cs generalizing o with
  | nil => rfl
  | cons c cs ih => simp [childOffsets, ih]

theorem zip_filter_map_fst (p : Nat → Bool) :
    ∀ (l : List Nat) (cs : List A11yNode), l.length = cs.length →
      ((l.zip cs).filter (fun pr => p pr.1)).map Prod.fst = l.filter p := by
  intro l
  induction l with
  | nil => intro cs _; simp
  | cons x l ih =>
    intro cs hlen
    cases cs with
    | nil => simp at hlen
    | cons c cs =>
      have hlen' : l.length = cs.length := by simpa using hlen
      by_cases hp : p x <;>
        simp [List.zip_cons_cons, List.filter_cons, hp, ih cs hlen']

theorem zip_childOffsets_Repr [HasRole α] {tree : Arena α} :
    ∀ (cs : List A11yNode) (o pid : Nat), ReprF tree o pid cs →
      ∀ pr ∈ (childOffsets o cs).zip cs, ReprN tree pr.1 (some pid) pr.2 := by
  intro cs
  induction cs with
  | nil => intro o pid _ pr hpr; simp [childOffsets] at hpr
  | cons c cs ih =>
    intro o pid hrep pr hpr
    rw [show childOffsets o (c :: cs) = o :: childOffsets (o + c.size) cs from rfl,
      List.zip_cons_cons] at hpr
    rcases List.mem_cons.mp hpr with rfl | hpr
    · exact hrep.1
    · exact ih (o + c.size) pid hrep.2 pr hpr

theorem zip_filter_flatMap [HasRole α] {tree : Arena α} (q : RoleSet) :
    ∀ (cs : List A11yNode) (o : Nat),
      (((childOffsets o cs).zip cs).filter (fun pr => keepOf tree q pr.1)).flatMap
          (fun pr => prunedIdsN (keepOf tree q) pr.1 pr.2)
        = prunedIdsF (keepOf tree q) o cs := by
  intro cs
  induction cs with
  | nil => intro o; rfl
  | cons c cs ih =>
    intro o
    rw [show childOffsets o (c :: cs) = o :: childOffsets (o + c.size) cs from rfl,
      List.zip_cons_cons, List.filter_cons,
      show prunedIdsF (keepOf tree q) o (c :: cs)
        = (if keepOf tree q o then prunedIdsN (keepOf tree q) o c else [])
          ++ prunedIdsF (keepOf tree q) (o + c.size) cs from rfl]
    by_cases hk : keepOf tree q o
    · rw [if_pos (by exact hk), if_pos hk, List.flatMap_cons, ih (o + c.size)]
    · rw [if_neg (by exact hk), if_neg hk, ih (o + c.size), List.nil_append]

/-- The stack loop searches exactly the concatenation of the pruned
preorders of the stacked subtrees, front to back. -/
theorem stackGo_pairs [HasRole α] {tree : Arena α} {q : RoleSet} (r : Role) :
    ∀ fuel (pairs : List (Nat × A11yNode)),
      (∀ pr ∈ pairs, ∃ pp, ReprN tree pr.1 pp pr.2) →
      (pairs.flatMap (fun pr => prunedIdsN (keepOf tree q) pr.1 pr.2)).length < fuel →
      findFirstStackGo tree r q fuel (pairs.map Prod.fst)
        = findRoleIn tree r
            (pairs.flatMap (fun pr => prunedIdsN (keepOf tree q) pr.1 pr.2)) := by
  intro fuel
  induction fuel with
  | zero =>
    intro pairs _ hfuel
    exact absurd hfuel (by omega)
  | succ f ih =>
    intro pairs hrep hfuel
    cases pairs with
    | nil => rfl
    | cons pr rest =>
      obtain ⟨id, s⟩ := pr
      obtain ⟨rr, cs⟩ := s
      have hprune : prunedIdsN (keepOf tree q) id (A11yNode.mk rr cs)
          = id :: prunedIdsF (keepOf tree q) (id + 1) cs := rfl
      rw [List.map_cons, List.flatMap_cons, hprune]
      obtain ⟨pp, hidrep⟩ := hrep (id, A11yNode.mk rr cs) (List.mem_cons_self _ _)
      have hch := ReprN_childrenOf hidrep
      simp only [A11yNode.children] at hch
      show findFirstStackGo tree r q (f + 1) (id :: rest.map Prod.fst) = _
      rw [show findFirstStackGo tree r q (f + 1) (id :: rest.map Prod.fst)
          = if roleAt tree id = some r then some id
            else findFirstStackGo tree r q f
              (((childrenOf tree id).filter
                  (fun c => (rolesetAt tree c).containsRS q)) ++ rest.map Prod.fst)
          from rfl]
      rw [List.cons_append, findRoleIn_cons]
      by_cases hmatch : roleAt tree id = some r
      · rw [if_pos hmatch, if_pos hmatch]
      · rw [if_neg hmatch, if_neg hmatch]
        have hlenz : (childOffsets (id + 1) cs).length = cs.length :=
          childOffsets_length (id + 1) cs
        have hfst : (((childOffsets (id + 1) cs).zip cs).filter
              (fun pr => keepOf tree q pr.1)).map Prod.fst
            = (childOffsets (id + 1) cs).filter (keepOf tree q) :=
          zip_filter_map_fst (keepOf tree q) (childOffsets (id + 1) cs) cs hlenz
        have hflat : (((childOffsets (id + 1) cs).zip cs).filter
              (fun pr => keepOf tree q pr.1)).flatMap
              (fun pr => prunedIdsN (keepOf tree q) pr.1 pr.2)
            = prunedIdsF (keepOf tree q) (id + 1) cs :=
          zip_filter_flatMap q cs (id + 1)
        have hstep := ih
          ((((childOffsets (id + 1) cs).zip cs).filter
              (fun pr => keepOf tree q pr.1)) ++ rest)
          (by
            intro pr2 hpr2
            rcases List.mem_append.mp hpr2 with hl | hr
            · exact ⟨some id,
                zip_childOffsets_Repr cs (id + 1) id (ReprN_forest hidrep) pr2
                  (List.mem_of_mem_filter hl)⟩
            · exact hrep pr2 (List.mem_cons_of_mem _ hr))
          (by
            rw [List.flatMap_append, hflat]
            rw [List.flatMap_cons, hprune, List.cons_append, List.length_cons] at hfuel
            simp only [List.length_append] at hfuel ⊢
            omega)
        rw [List.map_append, hfst] at hstep
        rw [List.flatMap_append, hflat] at hstep
        rw [hch, show (fun c => (rolesetAt tree c).containsRS q) = keepOf tree q from rfl]
        exact hstep


/-- The master equivalence: on any arena representing `a` whose pruning
test accepts every node whose subtree holds the target role, the four
preorder search strategies compute the spec's preorder-first match. -/
theorem findFirst_master [HasRole α] {tree : Arena α} {a : A11yNode} (r : Role)
    (h : ReprN tree 0 none a) (hlen : tree.length = a.size)
    (hkeep : ∀ m sm, nodeAtIdx a m = some sm →
      (∃ d sd, m ≤ d ∧ d < m + sm.size ∧ nodeAtIdx a d = some sd ∧ sd.role = r) →
      keepOf tree (roleToSet r) m = true) :
    findFirstG tree 0 r = specFindFirst a r ∧
    parFindFirstG tree r = specFindFirst a r ∧
    findFirstRolesetG tree 0 r = specFindFirst a r ∧
    findFirstStackG tree 0 r = specFindFirst a r := by
  have hspec := findRoleIn_range_eq_spec r h
  have hpruned := findRoleIn_range_eq_pruned r h hkeep
  have hdesc : descendantsF tree tree.length 0 = List.range' 0 a.size :=
    descendantsF_Repr a h tree.length (by omega)
  refine ⟨?_, ?_, ?_, ?_⟩
  · unfold findFirstG
    rw [hdesc, ← List.range_eq_range', hspec]
  · unfold parFindFirstG
    rw [hlen, hspec]
  · unfold findFirstRolesetG
    rw [descendantsRoleList_eq (roleToSet r) h hlen, ← hpruned, hspec]
  · unfold findFirstStackG
    have hstack : findFirstStackGo tree r (roleToSet r) (tree.length + 1)
          ([((0 : Nat), a)].map Prod.fst)
        = findRoleIn tree r ([((0 : Nat), a)].flatMap
            (fun pr => prunedIdsN (keepOf tree (roleToSet r)) pr.1 pr.2)) := by
      apply stackGo_pairs r (tree.length + 1) [(0, a)]
      · intro pr hpr
        have hpr' := List.mem_singleton.mp hpr
        subst hpr'
        exact ⟨none, h⟩
      · have hb := (prunedIdsN_sublist (keepOf tree (roleToSet r)) a 0).length_le
        rw [List.length_range'] at hb
        simp only [List.flatMap_cons, List.flatMap_nil, List.append_nil]
        omega
    simp only [List.map_cons, List.map_nil, List.flatMap_cons, List.flatMap_nil,
      List.append_nil] at hstack
    rw [hstack, ← hpruned, hspec]

/-- The pruned parallel search: on any arena representing `a` whose
pruning test accepts every node whose subtree holds the target role,
`par_find_first_roleset` computes the spec's postfix-first match — not
the preorder-first one. -/
theorem parFindFirstRoleset_master [HasRole α] {tree : Arena α} {a : A11yNode} (r : Role)
    (h : ReprN tree 0 none a) (hlen : tree.length = a.size)
    (hkeep : ∀ m sm, nodeAtIdx a m = some sm →
      (∃ d sd, m ≤ d ∧ d < m + sm.size ∧ nodeAtIdx a d = some sd ∧ sd.role = r) →
      keepOf tree (roleToSet r) m = true) :
    parFindFirstRolesetG tree 0 r = specFindFirstPost a r := by
  unfold parFindFirstRolesetG
  rw [walkTree_eq_N (roleToSet r) a 0 none h tree.length (by omega)]
  rw [← findRoleIn_post_eq_pruned r h hkeep]
  exact findRoleIn_post_eq_spec r h

/-- C1 counterexample: on the two-node tree whose nodes share role 1,
`par_find_first_roleset` (rayon's unordered, postfix-implemented
`walk_tree`) returns the child while `find_first` returns the root, so
the five strategies do not all return the same result. -/
theorem C1_counterexample :
    (Tree.build_rolesets (Tree.from_root_node dupTree)).par_find_first_roleset 1
      ≠ (Tree.build_rolesets (Tree.from_root_node dupTree)).find_first 1 := by
  decide

/-- C1 (amended): after `from_root_node` and `build_rolesets` (both
flavors), `find_first`, `par_find_first`, `find_first_roleset` and
`find_first_stack` all return the spec's preorder-first match (or `none`
when the role is absent), while `par_find_first_roleset` — whose
`walk_tree` is unordered and implemented by the postfix walker — returns
the spec's postfix-first match (or `none` when the role is absent). -/
theorem C1_amended (a : A11yNode) (r : Role) :
    ((Tree.build_rolesets (Tree.from_root_node a)).find_first r = specFindFirst a r ∧
     (Tree.build_rolesets (Tree.from_root_node a)).par_find_first r = specFindFirst a r ∧
     (Tree.build_rolesets (Tree.from_root_node a)).find_first_roleset r = specFindFirst a r ∧
     (Tree.build_rolesets (Tree.from_root_node a)).find_first_stack r = specFindFirst a r ∧
     (Tree.build_rolesets (Tree.from_root_node a)).par_find_first_roleset r
        = specFindFirstPost a r) ∧
    ((TreeCount.build_rolesets (TreeCount.from_root_node a)).find_first r
        = specFindFirst a r ∧
     (TreeCount.build_rolesets (TreeCount.from_root_node a)).par_find_first r
        = specFindFirst a r ∧
     (TreeCount.build_rolesets (TreeCount.from_root_node a)).find_first_roleset r
        = specFindFirst a r ∧
     (TreeCount.build_rolesets (TreeCount.from_root_node a)).find_first_stack r
        = specFindFirst a r ∧
     (TreeCount.build_rolesets (TreeCount.from_root_node a)).par_find_first_roleset r
        = specFindFirstPost a r) := by
  have hm := findFirst_master r (Repr_built a) (length_built a)
    (fun m sm hsm hex => (keep_built_iff a r hsm).mpr hex)
  have hmc := findFirst_master r (Repr_built_count a) (length_built_count a)
    (fun m sm hsm hex => (keep_built_count_iff a r hsm).mpr hex)
  have hpost := parFindFirstRoleset_master r (Repr_built a) (length_built a)
    (fun m sm hsm hex => (keep_built_iff a r hsm).mpr hex)
  have hpostc := parFindFirstRoleset_master r (Repr_built_count a) (length_built_count a)
    (fun m sm hsm hex => (keep_built_count_iff a r hsm).mpr hex)
  constructor
  · refine ⟨?_, ?_, ?_, ?_, ?_⟩
    · show findFirstG _ _ r = _
      rw [root_built a]
      exact hm.1
    · exact hm.2.1
    · show findFirstRolesetG _ _ r = _
      rw [root_built a]
      exact hm.2.2.1
    · show findFirstStackG _ _ r = _
      rw [root_built a]
      exact hm.2.2.2
    · show parFindFirstRolesetG _ _ r = _
      rw [root_built a]
      exact hpost
  · refine ⟨?_, ?_, ?_, ?_, ?_⟩
    · show findFirstG _ _ r = _
      rw [root_built_count a]
      exact hmc.1
    · exact hmc.2.1
    · show findFirstRolesetG _ _ r = _
      rw [root_built_count a]
      exact hmc.2.2.1
    · show findFirstStackG _ _ r = _
      rw [root_built_count a]
      exact hmc.2.2.2
    · show parFindFirstRolesetG _ _ r = _
      rw [root_built_count a]
      exact hpostc

/-! ## Pre-build pruning and quiet termination -/

theorem containsRS_zero (r : Role) : RoleSet.containsRS 0 (roleToSet r) = false := by
  simp only [RoleSet.containsRS, roleToSet, Nat.and_zero]
  simp only [beq_eq_false_iff_ne, ne_eq]
  exact fun hc => Nat.lt_irrefl 0 (hc ▸ pow_pos (by norm_num : (0 : Nat) < 2) r)

theorem prunedIdsF_false (keep : Nat → Bool) (hk : ∀ x, keep x = false) (cs : List A11yNode) :
    ∀ o, prunedIdsF keep o cs = [] := by
  induction cs with
  | nil => intro o; rfl
  | cons c cs ih =>
    intro o
    show (if keep o then prunedIdsN keep o c else []) ++ prunedIdsF keep (o + c.size) cs = []
    rw [hk o, ih (o + c.size)]
    simp

theorem prunedIdsN_false (keep : Nat → Bool) (hk : ∀ x, keep x = false) (a : A11yNode)
    (o : Nat) : prunedIdsN keep o a = [o] := by
  cases a with
  | mk r cs =>
    show o :: prunedIdsF keep (o + 1) cs = [o]
    rw [prunedIdsF_false keep hk cs (o + 1)]

/-- C8: when the cursor sits on an `End` event of a node with no next
sibling and a missing parent link, it quietly yields nothing further (no
panic is modelled: the step function is total); and on a well-formed
(represented) tree this never truncates coverage: the walk from the root
still ends with the root's own `End` event and its `Start` events are
exactly the pruned preorder of the whole subtree. -/
theorem C8_quiet_termination [HasRole α] (tree : Arena α) (q : RoleSet) (id : Nat)
    (a : A11yNode)
    (hsib : nextSiblingOf tree id = none) (hpar : parentOf tree id = none)
    (h : ReprN tree 0 none a) (hlen : tree.length = a.size) :
    (∀ fuel, next_traverse_roleF tree q fuel (NodeEdge.End id) = none) ∧
    (traverseRoleList tree q 0).getLast? = some (NodeEdge.End 0) ∧
    descendantsRoleList tree q 0 = prunedIdsN (keepOf tree q) 0 a := by
  refine ⟨?_, ?_, descendantsRoleList_eq q h hlen⟩
  · intro fuel
    cases fuel with
    | zero => rfl
    | succ f =>
      show (match nextSiblingOf tree id with
            | some s => if (rolesetAt tree s).containsRS q then some (NodeEdge.Start s)
                        else next_traverse_roleF tree q f (NodeEdge.End s)
            | none => (parentOf tree id).map NodeEdge.End) = none
      rw [hsib, hpar]
      rfl
  · rw [traverseRoleList_eq q h hlen]
    exact (edgesN_spec tree q a 0 none h).2.2.1

theorem C8_quiet_termination_witness :
    next_traverse_roleF (Tree.from_root_node singleTree).inner (roleToSet 5) 3
        (NodeEdge.End 0) = none ∧
    descendantsRoleList (Tree.from_root_node singleTree).inner (roleToSet 5) 0
      = prunedIdsN (keepOf (Tree.from_root_node singleTree).inner (roleToSet 5)) 0
          singleTree :=
  ⟨(C8_quiet_termination (Tree.from_root_node singleTree).inner (roleToSet 5) 0 singleTree
      (by decide) (by decide) (Repr_from_root_node singleTree)
      (length_from_root_node singleTree)).1 3,
   (C8_quiet_termination (Tree.from_root_node singleTree).inner (roleToSet 5) 0 singleTree
      (by decide) (by decide) (Repr_from_root_node singleTree)
      (length_from_root_node singleTree)).2.2⟩

/-- C10: before `build_rolesets` every summary is empty, so both pruned
searches examine exactly the root: each returns the root when its own
role is the target and `none` otherwise. -/
theorem C10_prebuild_root_only (a : A11yNode) (r : Role) :
    (Tree.from_root_node a).find_first_roleset r
        = (if a.role = r then some (Tree.from_root_node a).root else none) ∧
    (Tree.from_root_node a).find_first_stack r
        = (if a.role = r then some (Tree.from_root_node a).root else none) := by
  have hroot : (Tree.from_root_node a).root = 0 := by rw [from_root_node_eq]
  have h := Repr_from_root_node a
  have hlen := length_from_root_node a
  have hkf : ∀ x, keepOf (Tree.from_root_node a).inner (roleToSet r) x = false := by
    intro x
    show RoleSet.containsRS (rolesetAt _ x) (roleToSet r) = false
    rw [rolesetAt_from_root a x]
    exact containsRS_zero r
  have hpruned : prunedIdsN (keepOf (Tree.from_root_node a).inner (roleToSet r)) 0 a = [0] :=
    prunedIdsN_false _ hkf a 0
  have hrole0 : roleAt (Tree.from_root_node a).inner 0 = some a.role := ReprN_roleAt h
  have hsingle : findRoleIn (Tree.from_root_node a).inner r [0]
      = if a.role = r then some 0 else none := by
    rw [findRoleIn_cons, show findRoleIn (Tree.from_root_node a).inner r [] = none from rfl]
    by_cases har : a.role = r
    · rw [if_pos (by rw [hrole0, har]), if_pos har]
    · rw [if_neg (by rw [hrole0]; simp [har]), if_neg har]
  rw [hroot]
  constructor
  · show findFirstRolesetG _ _ r = _
    rw [hroot]
    unfold findFirstRolesetG
    rw [descendantsRoleList_eq (roleToSet r) h hlen, hpruned, hsingle]
  · show findFirstStackG _ _ r = _
    rw [hroot]
    unfold findFirstStackG
    have hstack : findFirstStackGo (Tree.from_root_node a).inner r (roleToSet r)
          ((Tree.from_root_node a).inner.length + 1) ([((0 : Nat), a)].map Prod.fst)
        = findRoleIn (Tree.from_root_node a).inner r
            ([((0 : Nat), a)].flatMap (fun pr =>
              prunedIdsN (keepOf (Tree.from_root_node a).inner (roleToSet r)) pr.1 pr.2)) := by
      apply stackGo_pairs r _ [(0, a)]
      · intro pr hpr
        have hpr' := List.mem_singleton.mp hpr
        subst hpr'
        exact ⟨none, h⟩
      · have hs := a.size_pos
        simp only [List.flatMap_cons, List.flatMap_nil, List.append_nil, hpruned,
          List.length_cons, List.length_nil]
        omega
    simp only [List.map_cons, List.map_nil, List.flatMap_cons, List.flatMap_nil,
      List.append_nil, hpruned] at hstack
    rw [hstack, hsingle]

/-! ## The index build processes every node, not only leaves -/

/-- C6 counterexample: on the two-node tree `1[2]`, the leaf-only
reference procedure leaves the root's summary at the leaf's bit only,
while `build_rolesets` also merges the root's own role. -/
theorem C6_counterexample :
    rolesetAt (Tree.build_rolesets (Tree.from_root_node pairTree)).inner 0
      ≠ rolesetAt (leafOnlyBuild (Tree.from_root_node pairTree)).inner 0 := by
  decide

/-- One step of the all-nodes reference procedure has the same summary
effect as one step of `build_rolesets`: it ors the node's role bit into
the summary of every node on its ancestor chain (the chain's head — the
node itself — got the bit from the seeding, the rest from the upward
merge). -/
theorem nodeBuild_step_char {tree₀ : Arena Node} {a : A11yNode}
    (h₀ : ReprN tree₀ 0 none a) (hlen : tree₀.length = a.size)
    (ar : Arena Node) (k : Nat) (hag : StructAgree tree₀ ar) (hk : k < a.size)
    (hk0 : rolesetAt ar k = 0) :
    StructAgree tree₀
        ((fun ar2 id =>
          let ar1 := modifyAt ar2 id
            (fun nd => { nd with data := { nd.data with
              roleset := nd.data.roleset ||| roleToSet nd.data.role } })
          let own := (ar1[id]?.map (fun nd => roleToSet nd.data.role)).getD 0
          ((ancestorsF ar1 ar1.length id).drop 1).foldl
            (fun ar3 anc_id => modifyAt ar3 anc_id
              (fun nd => { nd with data := { nd.data with
                roleset := nd.data.roleset ||| own } }))
            ar1) ar k) ∧
      ∀ m, rolesetAt
          ((fun ar2 id =>
            let ar1 := modifyAt ar2 id
              (fun nd => { nd with data := { nd.data with
                roleset := nd.data.roleset ||| roleToSet nd.data.role } })
            let own := (ar1[id]?.map (fun nd => roleToSet nd.data.role)).getD 0
            ((ancestorsF ar1 ar1.length id).drop 1).foldl
              (fun ar3 anc_id => modifyAt ar3 anc_id
                (fun nd => { nd with data := { nd.data with
                  roleset := nd.data.roleset ||| own } }))
              ar1) ar k) m
        = rolesetAt ar m |||
          (if m ∈ ancestorsF tree₀ tree₀.length k
           then (roleAt tree₀ k).elim 0 roleToSet else 0) := by
  have hklen : k < ar.length := by rw [← hag.1, hlen]; exact hk
  obtain ⟨p', sub, hsub, hrepr0⟩ := nodeAtIdx_Repr a h₀ k hk
  rw [Nat.zero_add] at hrepr0
  have hrole0 : roleAt tree₀ k = some sub.role := ReprN_roleAt hrepr0
  have hrole : roleAt ar k = some sub.role := by rw [← (hag.2 k).2.2]; exact hrole0
  set ar1 := modifyAt ar k
    (fun nd => { nd with data := { nd.data with
      roleset := nd.data.roleset ||| roleToSet nd.data.role } }) with har1
  have hag1 : StructAgree tree₀ ar1 :=
    StructAgree_trans hag (StructAgree_modifyAt ar k _ (fun nd => ⟨rfl, rfl, rfl⟩))
  have hrs1 : ∀ m, rolesetAt ar1 m
      = rolesetAt ar m ||| (if m = k then roleToSet sub.role else 0) := by
    intro m
    rw [har1]
    apply rolesetAt_modify_gen ar k m _ (roleToSet sub.role) _ hklen
    intro nd hnd
    have hr : nd.data.role = sub.role := by
      have h2 := hrole
      simp only [roleAt, hnd, Option.map_some'] at h2
      have h3 : HasRole.role nd.data = sub.role := Option.some_injective _ h2
      exact h3
    show nd.data.roleset ||| roleToSet nd.data.role = nd.data.roleset ||| roleToSet sub.role
    rw [hr]
  have hown : ((ar1[k]?).map (fun nd => roleToSet nd.data.role)).getD 0
      = roleToSet sub.role := by
    rw [har1, get?_modifyAt, if_pos rfl]
    cases hm : ar[k]? with
    | none => exact absurd (List.getElem?_eq_none_iff.mp hm) (Nat.not_le_of_lt hklen)
    | some nd =>
      have hr : nd.data.role = sub.role := by
        have h2 := hrole
        simp only [roleAt, hm, Option.map_some'] at h2
        have h3 : HasRole.role nd.data = sub.role := Option.some_injective _ h2
        exact h3
      simp [hr]
  have hancs : ancestorsF ar1 ar1.length k = ancestorsF tree₀ tree₀.length k := by
    rw [hag1.1]
    exact (ancestorsF_agree hag1 ar1.length k).symm
  have hdec := parent_lt h₀ hlen
  have hvalid : ∀ x ∈ (ancestorsF ar1 ar1.length k).drop 1, x < ar1.length := by
    intro x hx
    have hx' : x ∈ ancestorsF ar1 ar1.length k := List.drop_subset _ _ hx
    rw [hancs] at hx'
    have := mem_ancestorsF_le tree₀ hdec tree₀.length k x hx'
    rw [← hag1.1, hlen]
    omega
  have hchainT : ancestorsF tree₀ tree₀.length k
      = k :: (ancestorsF tree₀ tree₀.length k).drop 1 := by
    obtain ⟨f, hf⟩ : ∃ f, tree₀.length = f + 1 :=
      ⟨tree₀.length - 1, by rw [hlen]; have := a.size_pos; omega⟩
    rw [hf]
    rfl
  constructor
  · exact StructAgree_trans hag1
      (StructAgree_foldl_modify _ ar1 _ (fun nd => ⟨rfl, rfl, rfl⟩))
  · intro m
    show rolesetAt (((ancestorsF ar1 ar1.length k).drop 1).foldl
        (fun ar3 anc_id => modifyAt ar3 anc_id
          (fun nd => { nd with data := { nd.data with
            roleset := nd.data.roleset
              ||| ((ar1[k]?).map (fun nd => roleToSet nd.data.role)).getD 0 } }))
        ar1) m = _
    rw [rolesetAt_foldl_gen _ ar1 _
      (((ar1[k]?).map (fun nd => roleToSet nd.data.role)).getD 0)
      (fun nd => rfl) m hvalid]
    rw [hown, hancs, hrs1 m, hrole0]
    simp only [Option.elim]
    by_cases hmk : m = k
    · subst hmk
      have hmem : m ∈ ancestorsF tree₀ tree₀.length m := by
        rw [hchainT]
        exact List.mem_cons_self _ _
      rw [if_pos rfl, if_pos hmem]
      by_cases hd : m ∈ (ancestorsF tree₀ tree₀.length m).drop 1
      · rw [if_pos hd]
        exact or_absorb _ _
      · rw [if_neg hd, Nat.or_zero]
    · rw [if_neg hmk, Nat.or_zero]
      have hiff : m ∈ ancestorsF tree₀ tree₀.length k ↔
          m ∈ (ancestorsF tree₀ tree₀.length k).drop 1 := by
        constructor
        · intro hm
          rcases List.mem_cons.mp (hchainT ▸ hm) with rfl | hm'
          · exact absurd rfl hmk
          · exact hm'
        · intro hm
          rw [hchainT]
          exact List.mem_cons_of_mem _ hm
      by_cases hm : m ∈ (ancestorsF tree₀ tree₀.length k).drop 1
      · rw [if_pos hm, if_pos (hiff.mpr hm)]
      · rw [if_neg hm, if_neg (fun hc => hm (hiff.mp hc))]

theorem nodeBuild_inner (a : A11yNode) :
    (nodeBuild (Tree.from_root_node a)).inner
      = (List.range a.size).foldl
          (fun ar2 id =>
            let ar1 := modifyAt ar2 id
              (fun nd => { nd with data := { nd.data with
                roleset := nd.data.roleset ||| roleToSet nd.data.role } })
            let own := (ar1[id]?.map (fun nd => roleToSet nd.data.role)).getD 0
            ((ancestorsF ar1 ar1.length id).drop 1).foldl
              (fun ar3 anc_id => modifyAt ar3 anc_id
                (fun nd => { nd with data := { nd.data with
                  roleset := nd.data.roleset ||| own } }))
              ar1)
          (Tree.from_root_node a).inner := by
  have hroot : (Tree.from_root_node a).root = 0 := by rw [from_root_node_eq]
  have hlen := length_from_root_node a
  simp only [nodeBuild]
  rw [hroot]
  rw [descendantsF_Repr a (Repr_from_root_node a) _ (by rw [hlen]; omega)]
  rw [List.range_eq_range']

/-- C6 (amended): `build_rolesets` produces exactly the summaries of the
all-nodes reference procedure — every node handle is processed once in
preorder, its own summary seeded with its own role, and that single-role
summary merged into every ancestor's summary. -/
theorem C6_amended (a : A11yNode) (m : Nat) :
    rolesetAt (Tree.build_rolesets (Tree.from_root_node a)).inner m
      = rolesetAt (nodeBuild (Tree.from_root_node a)).inner m := by
  rw [Tree_build_inner, nodeBuild_inner]
  have h1 := (build_fold_char (Repr_from_root_node a) (length_from_root_node a)
    (rolesetAt_from_root a) Tree.buildStep
    (fun ar k hag hk hk0 => Tree_buildStep_char (Repr_from_root_node a)
      (length_from_root_node a) ar k hag hk hk0) a.size (Nat.le_refl _)).2 m
  have h2 := (build_fold_char (Repr_from_root_node a) (length_from_root_node a)
    (rolesetAt_from_root a)
    (fun ar2 id =>
      let ar1 := modifyAt ar2 id
        (fun nd => { nd with data := { nd.data with
          roleset := nd.data.roleset ||| roleToSet nd.data.role } })
      let own := (ar1[id]?.map (fun nd => roleToSet nd.data.role)).getD 0
      ((ancestorsF ar1 ar1.length id).drop 1).foldl
        (fun ar3 anc_id => modifyAt ar3 anc_id
          (fun nd => { nd with data := { nd.data with
            roleset := nd.data.roleset ||| own } }))
        ar1)
    (fun ar k hag hk hk0 => nodeBuild_step_char (Repr_from_root_node a)
      (length_from_root_node a) ar k hag hk hk0) a.size (Nat.le_refl _)).2 m
  rw [h1, h2]

/-! ## Idempotence of the boolean index build -/

theorem or_eq_left {x y : RoleSet} (h : ∀ i, y.testBit i = true → x.testBit i = true) :
    x ||| y = x := by
  apply Nat.eq_of_testBit_eq
  intro i
  rw [Nat.testBit_or]
  cases hy : y.testBit i
  · simp
  · simp [h i hy]

theorem or_single_absorb {b : RoleSet} {r : Role} (h : b.testBit r = true) :
    b ||| roleToSet r = b := by
  apply or_eq_left
  intro i hi
  rw [roleToSet, Nat.testBit_two_pow] at hi
  have : r = i := of_decide_eq_true hi
  rw [← this]
  exact h

theorem modifyAt_eq_self (l : List β) (i : Nat) (f : β → β)
    (h : ∀ x, l[i]? = some x → f x = x) : modifyAt l i f = l := by
  apply List.ext_getElem?
  intro j
  rw [get?_modifyAt]
  by_cases hji : j = i
  · subst hji
    rw [if_pos rfl]
    cases hx : l[j]? with
    | none => rfl
    | some x => simp [h x hx]
  · rw [if_neg hji]

theorem foldl_modifyAt_id (f : β → β) (l : List Nat) (ar : List β)
    (h : ∀ x ∈ l, modifyAt ar x f = ar) :
    l.foldl (fun ar2 y => modifyAt ar2 y f) ar = ar := by
  induction l with
  | nil => rfl
  | cons x l ih =>
    simp only [List.foldl_cons]
    rw [h x (List.mem_cons_self _ _)]
    exact ih (fun y hy => h y (List.mem_cons_of_mem _ hy))

/-- On an already-built arena, every summary on `k`'s ancestor chain
already contains all of `k`'s subtree bits (the subtree intervals nest),
so one more `buildStep` changes nothing. -/
theorem buildStep_built_noop (a : A11yNode) (k : Nat) (hk : k < a.size) :
    Tree.buildStep (Tree.build_rolesets (Tree.from_root_node a)).inner k
      = (Tree.build_rolesets (Tree.from_root_node a)).inner := by
  have h₁ : ReprN (Tree.build_rolesets (Tree.from_root_node a)).inner 0 none a :=
    Repr_built a
  have hlen₁ : (Tree.build_rolesets (Tree.from_root_node a)).inner.length = a.size :=
    length_built a
  obtain ⟨p', sub, hsub, hrepr⟩ := nodeAtIdx_Repr a h₁ k hk
  rw [Nat.zero_add] at hrepr
  have hrole : roleAt (Tree.build_rolesets (Tree.from_root_node a)).inner k
      = some sub.role := ReprN_roleAt hrepr
  have hbit : (rolesetAt (Tree.build_rolesets (Tree.from_root_node a)).inner k).testBit
      sub.role = true := by
    apply (Tree_roleset_subtree a k sub.role).mpr
    refine ⟨k, sub, Nat.le_refl _, ?_, hsub, rfl⟩
    rw [show subSize a k = sub.size by simp [subSize, hsub]]
    have := sub.size_pos
    omega
  -- seeding the node's own role is a no-op
  have har1 : modifyAt (Tree.build_rolesets (Tree.from_root_node a)).inner k
      (fun nd => { nd with data := { nd.data with
        roleset := nd.data.roleset ||| roleToSet nd.data.role } })
      = (Tree.build_rolesets (Tree.from_root_node a)).inner := by
    apply modifyAt_eq_self
    intro x hx
    have hxrole : x.data.role = sub.role := by
      simp only [roleAt, hx, Option.map_some'] at hrole
      exact Option.some_injective _ hrole
    have hxrs : x.data.roleset
        = rolesetAt (Tree.build_rolesets (Tree.from_root_node a)).inner k := by
      simp only [rolesetAt, hx, Option.map_some', Option.getD_some]
      rfl
    have habs : x.data.roleset ||| roleToSet x.data.role = x.data.roleset := by
      rw [hxrole, hxrs]
      exact or_single_absorb hbit
    calc ({ x with data := { x.data with
            roleset := x.data.roleset ||| roleToSet x.data.role } } : IndexNode Node)
        = { x with data := { x.data with roleset := x.data.roleset } } := by rw [habs]
      _ = x := rfl
  -- every ancestor merge is a no-op
  have hmerge : ∀ m ∈ ancestorsF (Tree.build_rolesets (Tree.from_root_node a)).inner
        (Tree.build_rolesets (Tree.from_root_node a)).inner.length k,
      modifyAt (Tree.build_rolesets (Tree.from_root_node a)).inner m
        (fun nd => { nd with data := { nd.data with
          roleset := nd.data.roleset
            ||| rolesetAt (Tree.build_rolesets (Tree.from_root_node a)).inner k } })
        = (Tree.build_rolesets (Tree.from_root_node a)).inner := by
    intro m hm
    rw [ancestorsF_char h₁ k hk _ (by omega)] at hm
    obtain ⟨m2, hm0, hm2k, sm, hsm, hkin⟩ := (mem_ancIn a k hk 0 m).mp hm
    rw [Nat.zero_add] at hm0
    subst hm0
    have hnest : k + sub.size ≤ m + sm.size := by
      have hcomp := nodeAtIdx_compose a m sm hsm (k - m) (by omega)
      rw [show m + (k - m) = k by omega] at hcomp
      rw [hsub] at hcomp
      have := nodeAtIdx_fits sm (k - m) sub hcomp.symm
      omega
    apply modifyAt_eq_self
    intro x hx
    have hxrs : x.data.roleset
        = rolesetAt (Tree.build_rolesets (Tree.from_root_node a)).inner m := by
      simp only [rolesetAt, hx, Option.map_some', Option.getD_some]
      rfl
    have habs : x.data.roleset
        ||| rolesetAt (Tree.build_rolesets (Tree.from_root_node a)).inner k
        = x.data.roleset := by
      rw [hxrs]
      apply or_eq_left
      intro i hi
      obtain ⟨d, sd, hkd, hdlt, hsd, hdrole⟩ := (Tree_roleset_subtree a k i).mp hi
      rw [show subSize a k = sub.size by simp [subSize, hsub]] at hdlt
      apply (Tree_roleset_subtree a m i).mpr
      refine ⟨d, sd, by omega, ?_, hsd, hdrole⟩
      rw [show subSize a m = sm.size by simp [subSize, hsm]]
      omega
    calc ({ x with data := { x.data with
            roleset := x.data.roleset
              ||| rolesetAt (Tree.build_rolesets (Tree.from_root_node a)).inner k } }
          : IndexNode Node)
        = { x with data := { x.data with roleset := x.data.roleset } } := by rw [habs]
      _ = x := rfl
  show (let ar1 := modifyAt (Tree.build_rolesets (Tree.from_root_node a)).inner k
          (fun nd => { nd with data := { nd.data with
            roleset := nd.data.roleset ||| roleToSet nd.data.role } })
        let leaf_roleset := rolesetAt ar1 k
        (ancestorsF ar1 ar1.length k).foldl
          (fun ar2 anc_id => modifyAt ar2 anc_id
            (fun nd => { nd with data := { nd.data with
              roleset := nd.data.roleset ||| leaf_roleset } }))
          ar1)
      = (Tree.build_rolesets (Tree.from_root_node a)).inner
  rw [har1]
  exact foldl_modifyAt_id _ _ _ hmerge

/-- C7: running the boolean `build_rolesets` a second time on an
already-built tree leaves it unchanged (every step's or-merges are
absorbed by the summaries the first run produced). -/
theorem C7_idempotent (a : A11yNode) :
    Tree.build_rolesets (Tree.build_rolesets (Tree.from_root_node a))
      = Tree.build_rolesets (Tree.from_root_node a) := by
  have hroot : (Tree.build_rolesets (Tree.from_root_node a)).root = 0 := root_built a
  have h₁ : ReprN (Tree.build_rolesets (Tree.from_root_node a)).inner 0 none a :=
    Repr_built a
  have hlen₁ : (Tree.build_rolesets (Tree.from_root_node a)).inner.length = a.size :=
    length_built a
  have hids : descendantsF (Tree.build_rolesets (Tree.from_root_node a)).inner
        (Tree.build_rolesets (Tree.from_root_node a)).inner.length
        (Tree.build_rolesets (Tree.from_root_node a)).root
      = List.range a.size := by
    rw [hroot, descendantsF_Repr a h₁ _ (by omega), List.range_eq_range']
  have hfold : ∀ (l : List Nat), (∀ x ∈ l, x < a.size) →
      l.foldl Tree.buildStep (Tree.build_rolesets (Tree.from_root_node a)).inner
        = (Tree.build_rolesets (Tree.from_root_node a)).inner := by
    intro l
    induction l with
    | nil => intro _; rfl
    | cons x l ih =>
      intro hl
      simp only [List.foldl_cons]
      rw [buildStep_built_noop a x (hl x (List.mem_cons_self _ _))]
      exact ih (fun y hy => hl y (List.mem_cons_of_mem _ hy))
  show { Tree.build_rolesets (Tree.from_root_node a) with
      inner := (descendantsF (Tree.build_rolesets (Tree.from_root_node a)).inner
        (Tree.build_rolesets (Tree.from_root_node a)).inner.length
        (Tree.build_rolesets (Tree.from_root_node a)).root).foldl Tree.buildStep
        (Tree.build_rolesets (Tree.from_root_node a)).inner }
    = Tree.build_rolesets (Tree.from_root_node a)
  rw [hids, hfold (List.range a.size) (fun x hx => List.mem_range.mp hx)]

end A11y
